import Mathlib

/-!
Verification development for a 2D-grid pathfinding suite
(`utils.py`, `grid.py`, `algorithms.py`).

The Python code is shallowly embedded: Python `int` becomes `ℤ`,
Python `float` step costs become `ℚ` (the literals `1.414` and `1.0`
are exact in the embedding), dictionaries become association lists with
shadowing on update, sets become duplicate-free lists, and every
`while`/recursion is given explicit fuel, with `none` marking the
(unreachable at the canonical fuel) out-of-fuel case.  Matplotlib
rendering is modelled by recording, on each `_refresh_view` call that
fires (`latency > 0`), a frame holding the header text and the
visualization state that the renderer would have drawn.
-/

/-- A grid cell, Python's `(row, col)` tuple of ints. -/
abbrev Coord : Type := ℤ × ℤ

/-- Membership-style insertion: Python `set.add` (idempotent). -/
def listInsert (x : Coord) (s : List Coord) : List Coord :=
  if s.contains x then s else x :: s

/-- Association map keyed by coordinates; `(k, v) ::` shadows older bindings,
modelling Python `dict` assignment. Values are optional coordinates
(`None`-able parent links). -/
abbrev Links : Type := List (Coord × Option Coord)

/-- Association map from coordinates to rational costs. -/
abbrev CostMap : Type := List (Coord × ℚ)

/-- `utils.fetch_adjacent_nodes`: the fixed movement offsets, in source order. -/
def movementOffsets : List (ℤ × ℤ) :=
  [(-1, 0), (0, 1), (1, 0), (1, 1), (0, -1), (-1, -1)]

/-- The `for dr, dc in offsets` loop body of `fetch_adjacent_nodes`:
keeps `(r+dr, c+dc)` iff it lies in `[0, max_r) × [0, max_c)`,
preserving offset order. -/
def fetchAdjacentAux (r c max_r max_c : ℤ) : List (ℤ × ℤ) → List Coord
  | [] => []
  | (dr, dc) :: rest =>
    let nr := r + dr
    let nc := c + dc
    if 0 ≤ nr ∧ nr < max_r ∧ 0 ≤ nc ∧ nc < max_c then
      (nr, nc) :: fetchAdjacentAux r c max_r max_c rest
    else
      fetchAdjacentAux r c max_r max_c rest

/-- `utils.fetch_adjacent_nodes(location, max_r, max_c)`. -/
def fetch_adjacent_nodes (location : Coord) (max_r max_c : ℤ) : List Coord :=
  fetchAdjacentAux location.1 location.2 max_r max_c movementOffsets

/-- Kernel-evaluable rational addition; provably equal to `+` on `ℚ`
(`ratAdd_eq`).  Used so that concrete runs reduce inside `decide`. -/
def ratAdd (a b : ℚ) : ℚ :=
  Rat.divInt (a.num * b.den + b.num * a.den) (a.den * b.den)

/-- `ratAdd` is rational addition. -/
theorem ratAdd_eq (a b : ℚ) : ratAdd a b = a + b := by
  rw [ratAdd, Rat.add_def', Rat.mkRat_eq_divInt]
  push_cast
  ring_nf

/-- Kernel-evaluable strict comparison on `ℚ`; provably `decide (a < b)`
(`ratBlt_eq`). -/
def ratBlt (a b : ℚ) : Bool :=
  decide (a.num * b.den < b.num * a.den)

/-- `ratBlt` decides `<` on `ℚ`. -/
theorem ratBlt_eq (a b : ℚ) : ratBlt a b = decide (a < b) := by
  simp [ratBlt, Rat.lt_def]

/-- `utils.compute_step_weight(src, dest)`: `1.414` for a diagonal step
(both coordinates differ by exactly 1), else `1.0`.  The float literal
`1.414` is embedded as the exact rational `1414/1000` (written with
`Rat.divInt` so that it evaluates in the kernel). -/
def compute_step_weight (src dest : Coord) : ℚ :=
  if |src.1 - dest.1| = 1 ∧ |src.2 - dest.2| = 1 then Rat.divInt 1414 1000 else 1

/-- `utils.trace_back_path`'s `while current != origin` loop.
`acc` is `result_path` built backwards; fuel exhaustion and a missing or
`None` parent on a non-origin cell (Python `KeyError` / lookup of `None`)
give `none`. -/
def traceBackAux (link_map : Links) (origin : Coord) :
    ℕ → Coord → List Coord → Option (List Coord)
  | 0, _, _ => none
  | fuel + 1, current, acc =>
    if current = origin then
      some acc.reverse
    else
      match link_map.lookup current with
      | some (some parent) =>
        traceBackAux link_map origin fuel parent (acc ++ [parent])
      | _ => none

/-- `utils.trace_back_path(link_map, target, origin)` with explicit fuel. -/
def trace_back_path (fuel : ℕ) (link_map : Links) (target origin : Coord) :
    Option (List Coord) :=
  traceBackAux link_map origin fuel target [target]

/-- `utils.SearchNode`: coordinate, optional ancestor, cost-so-far, depth. -/
inductive SearchNode : Type where
  | mk (coord : Coord) (ancestor : Option SearchNode) (g_score : ℚ) (level : ℕ)

/-- The coordinate field of a search node. -/
def SearchNode.coord : SearchNode → Coord
  | .mk c _ _ _ => c

/-- `SearchNode.__init__`: `level` is `0` for a root, `ancestor.level + 1`
otherwise. -/
def SearchNode.new (coord : Coord) (ancestor : Option SearchNode) (weight : ℚ) :
    SearchNode :=
  .mk coord ancestor weight
    (match ancestor with
     | none => 0
     | some (.mk _ _ _ lvl) => lvl + 1)

/-- One stored heap entry: `(rank, sequence number, payload)`. -/
abbrev HeapEntry : Type := ℚ × ℕ × SearchNode

/-- Strict lexicographic comparison on `(rank, seq)`, the order `heapq`
uses on the stored tuples (the payload is never compared because
sequence numbers are unique). -/
def heapEntryLt (a b : HeapEntry) : Prop :=
  a.1 < b.1 ∨ (a.1 = b.1 ∧ a.2.1 < b.2.1)

instance : DecidableRel heapEntryLt := by
  intro a b
  unfold heapEntryLt
  infer_instance

/-- Removal of the `(rank, seq)`-least entry.  This models the documented
contract of the standard-library `heapq` module (external to this
repository): `heappop` returns the smallest stored tuple.  With unique
sequence numbers the least entry is unique, so this is exact. -/
def heapPop : List HeapEntry → Option (HeapEntry × List HeapEntry)
  | [] => none
  | e :: es =>
    match heapPop es with
    | none => some (e, [])
    | some (m, rest) =>
      if heapEntryLt e m ∨ (e.1 = m.1 ∧ e.2.1 = m.2.1) then
        some (e, es)
      else
        some (m, e :: rest)

/-- `utils.PathfindingHeap`: backing list plus the monotone insertion counter. -/
structure PathfindingHeap : Type where
  _data : List HeapEntry
  _insertion_order : ℕ

/-- `PathfindingHeap.push(entry, rank)`. -/
def PathfindingHeap.push (h : PathfindingHeap) (entry : SearchNode) (rank : ℚ) :
    PathfindingHeap :=
  ⟨h._data ++ [(rank, h._insertion_order, entry)], h._insertion_order + 1⟩

/-- `PathfindingHeap.is_empty()`. -/
def PathfindingHeap.is_empty (h : PathfindingHeap) : Bool :=
  h._data.isEmpty

/-- `PathfindingHeap.pop()`, returning the extracted entry and the rest. -/
def PathfindingHeap.popEntry (h : PathfindingHeap) :
    Option (HeapEntry × PathfindingHeap) :=
  (heapPop h._data).map fun (e, rest) => (e, ⟨rest, h._insertion_order⟩)

/-- `grid.NavigationGrid`, reduced to the fields the search layer reads:
dimensions, the set of `CELL_BLOCK` cells, and the start/goal cells. -/
structure NavigationGrid : Type where
  rows : ℤ
  cols : ℤ
  blocked : List Coord
  start_pos : Coord
  goal_pos : Coord

/-- `NavigationGrid.is_traversable(pos)`: in bounds and not a wall. -/
def NavigationGrid.is_traversable (g : NavigationGrid) (pos : Coord) : Bool :=
  decide (0 ≤ pos.1 ∧ pos.1 < g.rows ∧ 0 ≤ pos.2 ∧ pos.2 < g.cols) &&
    !(g.blocked.contains pos)

/-- The visualization fields of `NavigationGrid` that the algorithms mutate
(`front_nodes`, `history`, `active_node`, `trajectory`). -/
structure VisState : Type where
  front_nodes : List Coord
  history : List Coord
  active_node : Option Coord
  trajectory : List Coord

/-- `NavigationGrid.clear_render_state()`. -/
def clearRenderState : VisState :=
  ⟨[], [], none, []⟩

/-- One recorded render call: the header text passed to `render_frame`
and the visualization state at that moment. -/
abbrev Frame : Type := String × VisState

/-- `SearchTechniques._refresh_view`: when `latency > 0`, a frame is drawn
(recorded); otherwise nothing happens. -/
def refresh_view (latency : ℚ) (tag extra : String) (vis : VisState)
    (frames : List Frame) : List Frame :=
  if 0 < latency then frames ++ [(tag ++ extra, vis)] else frames

/-- Python truthiness of an `Optional[List]` result (`if outcome:`):
true iff it is a non-empty list. -/
def optListTruthy : Option (List Coord) → Bool
  | some (_ :: _) => true
  | _ => false

/-! ## Breadth-First Search (`SearchTechniques.run_bfs`) -/

/-- Per-run state of `run_bfs`: frontier queue, discovered set, parent map,
a ghost flag recording whether a parent entry was ever rewritten, and the
visualization state plus recorded frames. -/
structure BfsState : Type where
  work_queue : List SearchNode
  seen_coords : List Coord
  path_tracker : Links
  overwrote : Bool
  vis : VisState
  frames : List Frame

/-- The `for next_step in fetch_adjacent_nodes(...)` body of `run_bfs`:
unseen traversable neighbors are marked seen, given a parent, enqueued,
and added to the frontier display set. -/
def bfsScan (g : NavigationGrid) (pos : Coord) (node : SearchNode) :
    List Coord → BfsState → BfsState
  | [], st => st
  | nb :: rest, st =>
    if !(st.seen_coords.contains nb) && g.is_traversable nb then
      bfsScan g pos node rest
        ⟨st.work_queue ++ [SearchNode.new nb (some node) 0],
         listInsert nb st.seen_coords,
         (nb, some pos) :: st.path_tracker,
         st.overwrote || (st.path_tracker.lookup nb).isSome,
         ⟨listInsert nb st.vis.front_nodes, st.vis.history, st.vis.active_node,
          st.vis.trajectory⟩,
         st.frames⟩
    else
      bfsScan g pos node rest st

/-- The `while work_queue` loop of `run_bfs`.  Returns
`some (route?, final state)`; `none` is fuel exhaustion. -/
def bfsLoop (g : NavigationGrid) (latency : ℚ) :
    ℕ → BfsState → Option (Option (List Coord) × BfsState)
  | 0, _ => none
  | fuel + 1, st =>
    match st.work_queue with
    | [] => some (none, st)
    | node :: rest =>
      let pos := node.coord
      let vis1 : VisState :=
        ⟨if st.vis.front_nodes.contains pos then st.vis.front_nodes.erase pos
          else st.vis.front_nodes,
         listInsert pos st.vis.history, some pos, st.vis.trajectory⟩
      let frames1 := refresh_view latency "BFS Algorithm" "" vis1 st.frames
      if pos = g.goal_pos then
        match trace_back_path (st.path_tracker.length + 1) st.path_tracker
            g.goal_pos g.start_pos with
        | none => none
        | some route =>
          let vis2 : VisState := ⟨vis1.front_nodes, vis1.history, none, route⟩
          some (some route,
            ⟨rest, st.seen_coords, st.path_tracker, st.overwrote, vis2,
             refresh_view latency "BFS Algorithm" " - Target Acquired!" vis2 frames1⟩)
      else
        bfsLoop g latency fuel
          (bfsScan g pos node (fetch_adjacent_nodes pos g.rows g.cols)
            ⟨rest, st.seen_coords, st.path_tracker, st.overwrote, vis1, frames1⟩)

/-- Canonical fuel for `run_bfs`: one cell enters the queue at most once. -/
def bfsFuel (g : NavigationGrid) : ℕ :=
  (g.rows * g.cols).toNat + 2

/-- Initial state of `run_bfs`: origin queued, seen, rooted in the parent
map, and shown as frontier. -/
def bfsInit (g : NavigationGrid) : BfsState :=
  ⟨[SearchNode.new g.start_pos none 0], [g.start_pos], [(g.start_pos, none)],
   false, ⟨[g.start_pos], [], none, []⟩, []⟩

/-- `SearchTechniques.run_bfs`, returning the optional route and the
recorded frames (`none` = fuel exhaustion, which never happens at
`bfsFuel`). -/
def run_bfs (g : NavigationGrid) (wait_time : ℚ) :
    Option (Option (List Coord) × List Frame) :=
  (bfsLoop g wait_time (bfsFuel g) (bfsInit g)).map fun r => (r.1, r.2.frames)

/-- Ghost observation: did `run_bfs` ever rewrite an existing parent entry? -/
def bfs_overwrote (g : NavigationGrid) (wait_time : ℚ) : Option Bool :=
  (bfsLoop g wait_time (bfsFuel g) (bfsInit g)).map fun r => r.2.overwrote

/-! ## Depth-First Search (`SearchTechniques.run_dfs`) -/

/-- Per-run state of `run_dfs`. -/
structure DfsState : Type where
  work_stack : List SearchNode
  visited_registry : List Coord
  path_tracker : Links
  vis : VisState
  frames : List Frame

/-- The `for adj in reversed(neighbors)` body of `run_dfs`; the list given
here is already reversed.  The stack is a head list: consing is Python's
`append`, the head is the next `pop()`. -/
def dfsScan (g : NavigationGrid) (pos : Coord) (node : SearchNode) :
    List Coord → DfsState → DfsState
  | [], st => st
  | adj :: rest, st =>
    if !(st.visited_registry.contains adj) && g.is_traversable adj then
      dfsScan g pos node rest
        ⟨SearchNode.new adj (some node) 0 :: st.work_stack,
         st.visited_registry,
         (adj, some pos) :: st.path_tracker,
         ⟨listInsert adj st.vis.front_nodes, st.vis.history, st.vis.active_node,
          st.vis.trajectory⟩,
         st.frames⟩
    else
      dfsScan g pos node rest st

/-- The `while work_stack` loop of `run_dfs`. -/
def dfsLoop (g : NavigationGrid) (latency : ℚ) :
    ℕ → DfsState → Option (Option (List Coord) × DfsState)
  | 0, _ => none
  | fuel + 1, st =>
    match st.work_stack with
    | [] => some (none, st)
    | node :: rest =>
      let pos := node.coord
      if st.visited_registry.contains pos then
        dfsLoop g latency fuel
          ⟨rest, st.visited_registry, st.path_tracker, st.vis, st.frames⟩
      else
        let visited1 := listInsert pos st.visited_registry
        let vis1 : VisState :=
          ⟨if st.vis.front_nodes.contains pos then st.vis.front_nodes.erase pos
            else st.vis.front_nodes,
           listInsert pos st.vis.history, some pos, st.vis.trajectory⟩
        let frames1 := refresh_view latency "DFS Algorithm" "" vis1 st.frames
        if pos = g.goal_pos then
          match trace_back_path (st.path_tracker.length + 1) st.path_tracker
              g.goal_pos g.start_pos with
          | none => none
          | some route =>
            let vis2 : VisState := ⟨vis1.front_nodes, vis1.history, none, route⟩
            some (some route,
              ⟨rest, visited1, st.path_tracker, vis2,
               refresh_view latency "DFS Algorithm" " - Goal Reached!" vis2 frames1⟩)
        else
          dfsLoop g latency fuel
            (dfsScan g pos node (fetch_adjacent_nodes pos g.rows g.cols).reverse
              ⟨rest, visited1, st.path_tracker, vis1, frames1⟩)

/-- Canonical fuel for `run_dfs`: each of the at most `rows*cols + 1`
expansions pushes at most 6 nodes; every iteration pops one. -/
def dfsFuel (g : NavigationGrid) : ℕ :=
  6 * (g.rows * g.cols).toNat + 8

/-- Initial state of `run_dfs`. -/
def dfsInit (g : NavigationGrid) : DfsState :=
  ⟨[SearchNode.new g.start_pos none 0], [], [(g.start_pos, none)],
   ⟨[g.start_pos], [], none, []⟩, []⟩

/-- `SearchTechniques.run_dfs`. -/
def run_dfs (g : NavigationGrid) (wait_time : ℚ) :
    Option (Option (List Coord) × List Frame) :=
  (dfsLoop g wait_time (dfsFuel g) (dfsInit g)).map fun r => (r.1, r.2.frames)

/-! ## Uniform-Cost Search (`SearchTechniques.run_ucs`) -/

/-- Per-run state of `run_ucs`. -/
structure UcsState : Type where
  priority_heap : PathfindingHeap
  permanent_set : List Coord
  path_tracker : Links
  accumulated_costs : CostMap
  overwrote : Bool
  vis : VisState
  frames : List Frame

/-- The `for neighbor in fetch_adjacent_nodes(...)` body of `run_ucs`:
classic Dijkstra relaxation.  `posCost` is `accumulated_costs[pos]`,
constant throughout the loop. -/
def ucsScan (g : NavigationGrid) (pos : Coord) (node : SearchNode)
    (posCost : ℚ) : List Coord → UcsState → UcsState
  | [], st => st
  | nb :: rest, st =>
    if g.is_traversable nb then
      let newCost := ratAdd posCost (compute_step_weight pos nb)
      if (match st.accumulated_costs.lookup nb with
          | none => true
          | some c => ratBlt newCost c) then
        ucsScan g pos node posCost rest
          ⟨st.priority_heap.push (SearchNode.new nb (some node) newCost) newCost,
           st.permanent_set,
           (nb, some pos) :: st.path_tracker,
           (nb, newCost) :: st.accumulated_costs,
           st.overwrote || (st.path_tracker.lookup nb).isSome,
           ⟨listInsert nb st.vis.front_nodes, st.vis.history, st.vis.active_node,
            st.vis.trajectory⟩,
           st.frames⟩
      else
        ucsScan g pos node posCost rest st
    else
      ucsScan g pos node posCost rest st

/-- The `while not priority_heap.is_empty()` loop of `run_ucs`. -/
def ucsLoop (g : NavigationGrid) (latency : ℚ) :
    ℕ → UcsState → Option (Option (List Coord) × UcsState)
  | 0, _ => none
  | fuel + 1, st =>
    match st.priority_heap.popEntry with
    | none => some (none, st)
    | some ((_, _, node), heap1) =>
      let pos := node.coord
      if st.permanent_set.contains pos then
        ucsLoop g latency fuel
          ⟨heap1, st.permanent_set, st.path_tracker, st.accumulated_costs,
           st.overwrote, st.vis, st.frames⟩
      else
        let permanent1 := listInsert pos st.permanent_set
        let vis1 : VisState :=
          ⟨if st.vis.front_nodes.contains pos then st.vis.front_nodes.erase pos
            else st.vis.front_nodes,
           listInsert pos st.vis.history, some pos, st.vis.trajectory⟩
        let frames1 := refresh_view latency "UCS Algorithm" "" vis1 st.frames
        if pos = g.goal_pos then
          match trace_back_path (st.path_tracker.length + 1) st.path_tracker
              g.goal_pos g.start_pos with
          | none => none
          | some route =>
            let vis2 : VisState := ⟨vis1.front_nodes, vis1.history, none, route⟩
            some (some route,
              ⟨heap1, permanent1, st.path_tracker, st.accumulated_costs,
               st.overwrote, vis2,
               refresh_view latency "UCS Algorithm"
                 (" - Optimized Path Found! Cost: " ++
                   toString ((st.accumulated_costs.lookup g.goal_pos).getD 0))
                 vis2 frames1⟩)
        else
          match st.accumulated_costs.lookup pos with
          | none => none
          | some posCost =>
            ucsLoop g latency fuel
              (ucsScan g pos node posCost (fetch_adjacent_nodes pos g.rows g.cols)
                ⟨heap1, permanent1, st.path_tracker, st.accumulated_costs,
                 st.overwrote, vis1, frames1⟩)

/-- Canonical fuel for `run_ucs`: at most `rows*cols + 1` expansions, each
pushing at most 6 entries, and each iteration pops one entry. -/
def ucsFuel (g : NavigationGrid) : ℕ :=
  6 * (g.rows * g.cols).toNat + 8

/-- Initial state of `run_ucs`. -/
def ucsInit (g : NavigationGrid) : UcsState :=
  ⟨PathfindingHeap.push ⟨[], 0⟩ (SearchNode.new g.start_pos none 0) 0,
   [], [(g.start_pos, none)], [(g.start_pos, 0)], false,
   ⟨[g.start_pos], [], none, []⟩, []⟩

/-- `SearchTechniques.run_ucs`. -/
def run_ucs (g : NavigationGrid) (wait_time : ℚ) :
    Option (Option (List Coord) × List Frame) :=
  (ucsLoop g wait_time (ucsFuel g) (ucsInit g)).map fun r => (r.1, r.2.frames)

/-- Ghost observation: did `run_ucs` ever rewrite an existing parent entry? -/
def ucs_overwrote (g : NavigationGrid) (wait_time : ℚ) : Option Bool :=
  (ucsLoop g wait_time (ucsFuel g) (ucsInit g)).map fun r => r.2.overwrote

/-! ## Depth-Limited Search (`SearchTechniques.run_dls`) -/

/-- Per-call state of `_perform_recursive_dls`: the shared `links` map and
`explored` set, plus visualization. -/
structure DlsState : Type where
  links : Links
  explored : List Coord
  vis : VisState
  frames : List Frame

/-- The first `for loc in adjacent` loop of `_perform_recursive_dls`
(frontier marking, visualization only). -/
def dlsMarkFrontier (g : NavigationGrid) (explored : List Coord) :
    List Coord → VisState → VisState
  | [], vis => vis
  | loc :: rest, vis =>
    if !(explored.contains loc) && g.is_traversable loc then
      dlsMarkFrontier g explored rest
        ⟨listInsert loc vis.front_nodes, vis.history, vis.active_node,
         vis.trajectory⟩
    else
      dlsMarkFrontier g explored rest vis

/-- The second `for loc in adjacent` loop of `_perform_recursive_dls`:
record the parent link, recurse (through `visit`), and return the first
truthy outcome.  A falsy outcome is discarded and the loop continues. -/
def dlsChildren (g : NavigationGrid)
    (visit : Coord → DlsState → Option (Option (List Coord) × DlsState))
    (current : Coord) :
    List Coord → DlsState → Option (Option (List Coord) × DlsState)
  | [], st => some (none, st)
  | loc :: rest, st =>
    if !(st.explored.contains loc) && g.is_traversable loc then
      match visit loc ⟨(loc, some current) :: st.links, st.explored, st.vis,
          st.frames⟩ with
      | none => none
      | some (outcome, st2) =>
        if optListTruthy outcome then
          some (outcome, st2)
        else
          dlsChildren g visit current rest st2
    else
      dlsChildren g visit current rest st

/-- `SearchTechniques._perform_recursive_dls(current, remaining_depth, links,
explored)`, with fuel (at the canonical fuel the `0` case is unreachable). -/
def dlsVisit (g : NavigationGrid) (latency : ℚ) (tag : String) :
    ℕ → Coord → ℤ → DlsState → Option (Option (List Coord) × DlsState)
  | 0, _, _, _ => none
  | fuel + 1, current, remaining_depth, st =>
    let vis1 : VisState :=
      ⟨if st.vis.front_nodes.contains current then st.vis.front_nodes.erase current
        else st.vis.front_nodes,
       listInsert current st.vis.history, some current, st.vis.trajectory⟩
    let frames1 := refresh_view latency tag "" vis1 st.frames
    if current = g.goal_pos then
      match trace_back_path (st.links.length + 1) st.links g.goal_pos
          g.start_pos with
      | none => none
      | some route =>
        let vis2 : VisState := ⟨vis1.front_nodes, vis1.history, none, route⟩
        some (some route,
          ⟨st.links, st.explored, vis2,
           refresh_view latency tag " - Path Found!" vis2 frames1⟩)
    else if remaining_depth ≤ 0 then
      some (none, ⟨st.links, st.explored, vis1, frames1⟩)
    else
      let explored1 := listInsert current st.explored
      let adjacent := fetch_adjacent_nodes current g.rows g.cols
      let vis2 := dlsMarkFrontier g explored1 adjacent vis1
      match dlsChildren g
          (fun loc st1 => dlsVisit g latency tag fuel loc (remaining_depth - 1) st1)
          current adjacent ⟨st.links, explored1, vis2, frames1⟩ with
      | none => none
      | some (outcome, st2) =>
        if optListTruthy outcome then
          some (outcome, st2)
        else
          some (none, ⟨st2.links, st2.explored.erase current, st2.vis, st2.frames⟩)

/-- `SearchTechniques.run_dls(depth_cap)`. -/
def run_dls (g : NavigationGrid) (depth_cap : ℤ) (wait_time : ℚ) :
    Option (Option (List Coord) × List Frame) :=
  (dlsVisit g wait_time ("DLS (Max Depth: " ++ toString depth_cap ++ ")")
      (depth_cap.toNat + 1) g.start_pos depth_cap
      ⟨[(g.start_pos, none)], [], clearRenderState, []⟩).map
    fun r => (r.1, r.2.frames)

/-! ## Iterative Deepening DFS (`SearchTechniques.run_iddfs`) -/

/-- The `for current_max in range(upper_limit + 1)` loop of `run_iddfs`:
each iteration resets the render state, links and explored set, and keeps
the first truthy result. -/
def iddfsGo (g : NavigationGrid) (latency : ℚ) :
    List ℤ → List Frame → Option (Option (List Coord) × List Frame)
  | [], frames => some (none, frames)
  | current_max :: rest, frames =>
    match dlsVisit g latency "IDDFS Search" (current_max.toNat + 1) g.start_pos
        current_max ⟨[(g.start_pos, none)], [], clearRenderState, frames⟩ with
    | none => none
    | some (found_path, st) =>
      if optListTruthy found_path then
        some (found_path, st.frames)
      else
        iddfsGo g latency rest st.frames

/-- `SearchTechniques.run_iddfs(upper_limit)`; `range(upper_limit + 1)` is
empty when `upper_limit < 0`. -/
def run_iddfs (g : NavigationGrid) (upper_limit : ℤ) (wait_time : ℚ) :
    Option (Option (List Coord) × List Frame) :=
  iddfsGo g wait_time ((List.range (upper_limit + 1).toNat).map Int.ofNat) []

/-! ## Bidirectional BFS (`SearchTechniques.run_bi_search`) -/

/-- Per-run state of `run_bi_search`: the two queues, the two parent maps,
ghost overwrite flags for both maps, and visualization. -/
structure BiState : Type where
  fwd_work : List Coord
  bwd_work : List Coord
  fwd_map : Links
  bwd_map : Links
  fwdOverwrote : Bool
  bwdOverwrote : Bool
  vis : VisState
  frames : List Frame

/-- One neighbor-expansion loop of `run_bi_search` over a generic parent
map and queue (used for both directions): undiscovered traversable
neighbors get a parent, are enqueued, and join the frontier display. -/
def biScan (g : NavigationGrid) (from_node : Coord) :
    List Coord → Links → List Coord → Bool → VisState →
    Links × List Coord × Bool × VisState
  | [], links, queue, ow, vis => (links, queue, ow, vis)
  | adj :: rest, links, queue, ow, vis =>
    if (links.lookup adj).isNone && g.is_traversable adj then
      biScan g from_node rest
        ((adj, some from_node) :: links)
        (queue ++ [adj])
        (ow || (links.lookup adj).isSome)
        ⟨listInsert adj vis.front_nodes, vis.history, vis.active_node,
         vis.trajectory⟩
    else
      biScan g from_node rest links queue ow vis

/-- The `while scanner is not None` walks of `_bridge_bi_directional_paths`:
follow parent links, collecting the visited cells in order.  `none` on a
missing key (Python `KeyError`) or fuel exhaustion. -/
def walkChain (links : Links) : ℕ → Option Coord → List Coord →
    Option (List Coord)
  | 0, _, _ => none
  | _ + 1, none, acc => some acc
  | fuel + 1, some scanner, acc =>
    match links.lookup scanner with
    | none => none
    | some parent => walkChain links fuel parent (acc ++ [scanner])

/-- `SearchTechniques._bridge_bi_directional_paths(f_links, b_links,
junction)`. -/
def bridge_bi_directional_paths (f_links b_links : Links) (junction : Coord)
    (latency : ℚ) (vis : VisState) (frames : List Frame) :
    Option (List Coord × VisState × List Frame) :=
  match walkChain f_links (f_links.length + 1) (some junction) [] with
  | none => none
  | some f_part_rev =>
    match b_links.lookup junction with
    | none => none
    | some bParent =>
      match walkChain b_links (b_links.length + 1) bParent [] with
      | none => none
      | some b_part =>
        let complete_route := f_part_rev.reverse ++ b_part
        let vis2 : VisState :=
          ⟨vis.front_nodes, vis.history, none, complete_route⟩
        some (complete_route, vis2,
          refresh_view latency "Bidirectional Pathmaking"
            " - Bi-directional Match Found!" vis2 frames)

/-- The `while fwd_work and bwd_work` loop of `run_bi_search`: one forward
pop-check-expand, then one backward pop-check-expand per round. -/
def biLoop (g : NavigationGrid) (latency : ℚ) :
    ℕ → BiState → Option (Option (List Coord) × BiState)
  | 0, _ => none
  | fuel + 1, st =>
    match st.fwd_work, st.bwd_work with
    | [], _ => some (none, st)
    | _ :: _, [] => some (none, st)
    | node_f :: fRest, node_b :: bRest =>
      let visF : VisState :=
        ⟨st.vis.front_nodes, listInsert node_f st.vis.history, some node_f,
         st.vis.trajectory⟩
      let framesF := refresh_view latency "Bidirectional Pathmaking"
        " (Exploring Forward)" visF st.frames
      if (st.bwd_map.lookup node_f).isSome then
        match bridge_bi_directional_paths st.fwd_map st.bwd_map node_f latency
            visF framesF with
        | none => none
        | some (route, vis2, frames2) =>
          some (some route,
            ⟨fRest, st.bwd_work, st.fwd_map, st.bwd_map, st.fwdOverwrote,
             st.bwdOverwrote, vis2, frames2⟩)
      else
        let scF := biScan g node_f (fetch_adjacent_nodes node_f g.rows g.cols)
          st.fwd_map fRest st.fwdOverwrote visF
        let fwd_map1 := scF.1
        let fQueue1 := scF.2.1
        let fOw1 := scF.2.2.1
        let visF1 := scF.2.2.2
        let visB : VisState :=
          ⟨visF1.front_nodes, listInsert node_b visF1.history, some node_b,
           visF1.trajectory⟩
        let framesB := refresh_view latency "Bidirectional Pathmaking"
          " (Exploring Backward)" visB framesF
        if (fwd_map1.lookup node_b).isSome then
          match bridge_bi_directional_paths fwd_map1 st.bwd_map node_b latency
              visB framesB with
          | none => none
          | some (route, vis2, frames2) =>
            some (some route,
              ⟨fQueue1, bRest, fwd_map1, st.bwd_map, fOw1, st.bwdOverwrote,
               vis2, frames2⟩)
        else
          let scB := biScan g node_b (fetch_adjacent_nodes node_b g.rows g.cols)
            st.bwd_map bRest st.bwdOverwrote visB
          biLoop g latency fuel
            ⟨fQueue1, scB.2.1, fwd_map1, scB.1, fOw1, scB.2.2.1, scB.2.2.2,
             framesB⟩

/-- Canonical fuel for `run_bi_search`: each round pops one forward node,
and a coordinate enters the forward queue at most once. -/
def biFuel (g : NavigationGrid) : ℕ :=
  (g.rows * g.cols).toNat + 2

/-- Initial state of `run_bi_search`. -/
def biInit (g : NavigationGrid) : BiState :=
  ⟨[g.start_pos], [g.goal_pos], [(g.start_pos, none)], [(g.goal_pos, none)],
   false, false,
   ⟨listInsert g.goal_pos (listInsert g.start_pos []), [], none, []⟩, []⟩

/-- `SearchTechniques.run_bi_search`. -/
def run_bi_search (g : NavigationGrid) (wait_time : ℚ) :
    Option (Option (List Coord) × List Frame) :=
  (biLoop g wait_time (biFuel g) (biInit g)).map fun r => (r.1, r.2.frames)

/-- Ghost observation: overwrite flags of the two parent maps of
`run_bi_search`. -/
def bi_overwrote (g : NavigationGrid) (wait_time : ℚ) : Option (Bool × Bool) :=
  (biLoop g wait_time (biFuel g) (biInit g)).map
    fun r => (r.2.fwdOverwrote, r.2.bwdOverwrote)

/-! ## Claim-facing notions -/

/-- The route component of a run result (drops the recorded frames). -/
def pathOf (r : Option (Option (List Coord) × List Frame)) :
    Option (Option (List Coord)) :=
  r.map Prod.fst

/-- `b` is reachable from `a` in one movement step on `g`. -/
def Adjacent (g : NavigationGrid) (a b : Coord) : Prop :=
  b ∈ fetch_adjacent_nodes a g.rows g.cols

instance (g : NavigationGrid) : DecidableRel (Adjacent g) := fun a b =>
  inferInstanceAs (Decidable (b ∈ fetch_adjacent_nodes a g.rows g.cols))

/-- A traversable path of `g` from start to goal: non-empty, endpoints
correct, every cell traversable, consecutive cells adjacent. -/
def ValidPath (g : NavigationGrid) (p : List Coord) : Prop :=
  p ≠ [] ∧ p.head? = some g.start_pos ∧ p.getLast? = some g.goal_pos ∧
    (∀ c ∈ p, g.is_traversable c = true) ∧ p.Chain' (Adjacent g)

instance (g : NavigationGrid) (p : List Coord) : Decidable (ValidPath g p) :=
  inferInstanceAs (Decidable (p ≠ [] ∧ p.head? = some g.start_pos ∧
    p.getLast? = some g.goal_pos ∧ (∀ c ∈ p, g.is_traversable c = true) ∧
    p.Chain' (Adjacent g)))

/-- Total cost of a path under the step-weight model. -/
def pathCost : List Coord → ℚ
  | [] => 0
  | [_] => 0
  | a :: b :: rest => compute_step_weight a b + pathCost (b :: rest)

/-- A malformed grid in the sense of the specification's error-handling
section, in the forms expressible in the embedding: start equals goal, or
the start or goal cell is not traversable.  (The "missing start/goal"
case is a `None` field in Python and has no counterpart here.) -/
def Malformed (g : NavigationGrid) : Prop :=
  g.start_pos = g.goal_pos ∨ g.is_traversable g.start_pos = false ∨
    g.is_traversable g.goal_pos = false

instance (g : NavigationGrid) : Decidable (Malformed g) := by
  unfold Malformed
  infer_instance

/-! ## The parent-map walk: characterization of `trace_back_path` -/

/-- `Traces m origin x p`: following the parent map `m` backwards from `x`
reaches `origin`, and `p` (listed from `origin` to `x`) is the walked
chain. -/
inductive Traces (m : Links) (origin : Coord) : Coord → List Coord → Prop
  | base : Traces m origin origin [origin]
  | step (x parent : Coord) (p : List Coord) :
      x ≠ origin → m.lookup x = some (some parent) →
      Traces m origin parent p → Traces m origin x (p ++ [x])

theorem Traces.ne_nil {m : Links} {origin x : Coord} {p : List Coord}
    (h : Traces m origin x p) : p ≠ [] := by
  cases h <;> simp

theorem Traces.getLast {m : Links} {origin x : Coord} {p : List Coord}
    (h : Traces m origin x p) : p.getLast? = some x := by
  cases h with
  | base => rfl
  | step x parent p hne hl hp => simp

theorem Traces.head {m : Links} {origin x : Coord} {p : List Coord}
    (h : Traces m origin x p) : p.head? = some origin := by
  induction h with
  | base => rfl
  | step x parent p hne hl hp ih =>
    rcases p with - | ⟨a, rest⟩
    · exact absurd rfl hp.ne_nil
    · simpa using ih

theorem traceBackAux_of_traces {m : Links} {origin x : Coord} {p : List Coord}
    (h : Traces m origin x p) :
    ∀ fuel acc, p.length ≤ fuel →
      traceBackAux m origin fuel x acc = some (p.dropLast ++ acc.reverse) := by
  induction h with
  | base =>
    intro fuel acc hf
    match fuel with
    | f + 1 => simp [traceBackAux]
  | step x parent p hne hl hp ih =>
    intro fuel acc hf
    match fuel with
    | 0 => simp at hf
    | f + 1 =>
      have hlen : p.length ≤ f := by
        simp at hf
        omega
      have hlast : p.dropLast ++ [parent] = p := by
        have := hp.getLast
        have hpn := hp.ne_nil
        rw [List.getLast?_eq_getLast p hpn] at this
        conv_rhs => rw [← List.dropLast_append_getLast hpn]
        simp at this
        rw [this]
      rw [traceBackAux, if_neg hne, hl]
      show traceBackAux m origin f parent (acc ++ [parent]) = _
      rw [ih f (acc ++ [parent]) hlen]
      rw [← hlast]
      simp

/-- `trace_back_path` returns exactly the chain described by `Traces`,
given enough fuel. -/
theorem trace_back_path_of_traces {m : Links} {origin x : Coord}
    {p : List Coord} (h : Traces m origin x p) (fuel : ℕ)
    (hf : p.length ≤ fuel) :
    trace_back_path fuel m x origin = some p := by
  rw [trace_back_path, traceBackAux_of_traces h fuel [x] hf]
  have hlast : p.dropLast ++ [x] = p := by
    have := h.getLast
    have hpn := h.ne_nil
    rw [List.getLast?_eq_getLast p hpn] at this
    conv_rhs => rw [← List.dropLast_append_getLast hpn]
    simp at this
    rw [this]
  simp [hlast]

/-- A traced chain only consults the map at its own non-origin cells, so
adding a binding for a key outside the chain preserves it. -/
theorem Traces.cons_of_notMem {m : Links} {origin x k : Coord}
    {v : Option Coord} {p : List Coord} (h : Traces m origin x p)
    (hk : k ∉ p) : Traces ((k, v) :: m) origin x p := by
  induction h with
  | base => exact .base
  | step x parent p hne hl hp ih =>
    refine .step x parent p hne ?_ (ih ?_)
    · have hxk : ¬(x == k) := by
        simp only [List.mem_append, List.mem_singleton, not_or] at hk
        simp [beq_iff_eq]
        rintro rfl
        exact hk.2 rfl
      simp [List.lookup, hxk, hl]
    · intro hmem
      exact hk (by simp [hmem])

/-- Chain cells other than the endpoint are exactly the keys consulted;
if every consulted cell keeps its binding, the chain survives a map
update.  Stated for a single shadowing update `(k, v) ::` where `k` may
appear only as the endpoint `x`. -/
theorem Traces.cons_of_endpoint {m : Links} {origin x k : Coord}
    {v : Option Coord} {p : List Coord} (h : Traces m origin x p)
    (hk : k ∉ p.dropLast) (hkx : k ≠ x) : Traces ((k, v) :: m) origin x p := by
  cases h with
  | base => exact .base
  | step x parent p hne hl hp =>
    rw [List.dropLast_concat] at hk
    refine .step x parent p hne ?_ (hp.cons_of_notMem hk)
    have hxk : (x == k) = false := by
      simp [beq_iff_eq]
      exact Ne.symm hkx
    simp [List.lookup, hxk, hl]

/-! ## Neighbor enumeration (claim C7) -/

/-- The specification's description of neighbor enumeration (§4.2): map
the six offsets, written out literally and in the spec's order, over the
location and keep exactly the in-bounds results, preserving order. -/
def neighbors_spec (location : Coord) (rows cols : ℤ) : List Coord :=
  (([(-1, 0), (0, 1), (1, 0), (1, 1), (0, -1), (-1, -1)] :
      List (ℤ × ℤ)).map fun d => (location.1 + d.1, location.2 + d.2)).filter
    fun q => decide (0 ≤ q.1 ∧ q.1 < rows ∧ 0 ≤ q.2 ∧ q.2 < cols)

theorem fetchAdjacentAux_eq_filter_map (r c mr mc : ℤ) :
    ∀ l : List (ℤ × ℤ),
      fetchAdjacentAux r c mr mc l =
        (l.map fun d => (r + d.1, c + d.2)).filter
          fun q => decide (0 ≤ q.1 ∧ q.1 < mr ∧ 0 ≤ q.2 ∧ q.2 < mc) := by
  intro l
  induction l with
  | nil => rfl
  | cons d rest ih =>
    obtain ⟨dr, dc⟩ := d
    rw [fetchAdjacentAux]
    by_cases h : 0 ≤ r + dr ∧ r + dr < mr ∧ 0 ≤ c + dc ∧ c + dc < mc
    · rw [if_pos h]
      simp only [List.map_cons, List.filter_cons]
      rw [if_pos (by simpa using h)]
      rw [ih]
    · rw [if_neg h]
      simp only [List.map_cons, List.filter_cons]
      rw [if_neg (by simpa using h)]
      rw [ih]

/-! ## The priority structure (claim C8) -/

theorem heapEntryLt_irrefl (a : HeapEntry) : ¬heapEntryLt a a := by
  unfold heapEntryLt
  rintro (h | ⟨-, h⟩)
  · exact lt_irrefl _ h
  · exact lt_irrefl _ h

/-- `x < e` and `e ≤ m` (in the selection order used by `heapPop`)
give `x < m`. -/
theorem heapEntryLt_trans_sel {x e m : HeapEntry} (h1 : heapEntryLt x e)
    (h2 : heapEntryLt e m ∨ (e.1 = m.1 ∧ e.2.1 = m.2.1)) : heapEntryLt x m := by
  rcases h1 with h1 | ⟨he1, h1⟩ <;>
    rcases h2 with (h2 | ⟨he2, h2⟩) | ⟨he2, h2⟩
  · exact Or.inl (lt_trans h1 h2)
  · exact Or.inl (he2 ▸ h1)
  · exact Or.inl (he2 ▸ h1)
  · exact Or.inl (he1 ▸ h2)
  · exact Or.inr ⟨he1.trans he2, lt_trans h1 h2⟩
  · exact Or.inr ⟨he1.trans he2, h2 ▸ h1⟩

theorem heapPop_eq_none {l : List HeapEntry} : heapPop l = none ↔ l = [] := by
  cases l with
  | nil => simp [heapPop]
  | cons e es =>
    simp only [heapPop]
    constructor
    · intro h
      rcases hes : heapPop es with - | p <;> rw [hes] at h
      · simp at h
      · obtain ⟨m, rest⟩ := p
        by_cases hc : heapEntryLt e m ∨ (e.1 = m.1 ∧ e.2.1 = m.2.1) <;>
          simp [hc] at h
    · intro h
      cases h

/-- `heapPop` returns an element of the list, minimal in the strict
lexicographic order, and the rest is the list with that one occurrence
removed (as a sublist / up to permutation). -/
theorem heapPop_spec {l : List HeapEntry} :
    ∀ {m : HeapEntry} {rest : List HeapEntry}, heapPop l = some (m, rest) →
      m ∈ l ∧ (∀ e ∈ l, ¬heapEntryLt e m) ∧ l.Perm (m :: rest) ∧
        rest.Sublist l := by
  induction l with
  | nil =>
    intro m rest h
    cases h
  | cons e es ih =>
    intro m rest h
    rcases hes : heapPop es with - | p
    · obtain rfl : es = [] := heapPop_eq_none.mp hes
      simp only [heapPop, hes] at h
      obtain ⟨h1, h2⟩ : e = m ∧ [] = rest := by simpa using h
      rw [← h1, ← h2]
      refine ⟨by simp, ?_, by simp, by simp⟩
      intro x hx
      obtain rfl : x = e := by simpa using hx
      exact heapEntryLt_irrefl x
    · obtain ⟨m', rest'⟩ := p
      obtain ⟨hmem', hmin', hperm', hsub'⟩ := ih hes
      simp only [heapPop, hes] at h
      by_cases hc : heapEntryLt e m' ∨ (e.1 = m'.1 ∧ e.2.1 = m'.2.1)
      · rw [if_pos hc] at h
        obtain ⟨h1, h2⟩ : e = m ∧ es = rest := by simpa using h
        rw [← h1, ← h2]
        refine ⟨by simp, ?_, by simp, by simp⟩
        intro x hx
        rcases List.mem_cons.mp hx with rfl | hx
        · exact heapEntryLt_irrefl x
        · intro hlt
          rcases hc with hc | hc
          · exact hmin' x hx (heapEntryLt_trans_sel hlt (Or.inl hc))
          · exact hmin' x hx (heapEntryLt_trans_sel hlt (Or.inr hc))
      · rw [if_neg hc] at h
        obtain ⟨h1, h2⟩ : m' = m ∧ e :: rest' = rest := by simpa using h
        rw [← h1, ← h2]
        refine ⟨List.mem_cons_of_mem e hmem', ?_, ?_, ?_⟩
        · intro x hx
          rcases List.mem_cons.mp hx with rfl | hx
          · intro hlt
            exact hc (Or.inl hlt)
          · exact hmin' x hx
        · exact (hperm'.cons e).trans (List.Perm.swap m' e rest')
        · exact hsub'.cons₂ e

/-- A client operation on the priority structure.  (`pop` on an empty
heap raises in Python and is modelled as a no-op; the repository's only
client guards every `pop()` behind `is_empty()`.) -/
inductive HeapOp : Type where
  | push (entry : SearchNode) (rank : ℚ)
  | pop

/-- Apply one operation. -/
def applyOp (h : PathfindingHeap) : HeapOp → PathfindingHeap
  | .push e r => h.push e r
  | .pop =>
    match h.popEntry with
    | none => h
    | some (_, h2) => h2

/-- The heap resulting from a sequence of operations on a fresh
`PathfindingHeap()`. -/
def applyOps (ops : List HeapOp) : PathfindingHeap :=
  ops.foldl applyOp ⟨[], 0⟩

/-- Well-formedness maintained by the operations: every stored sequence
number is below the counter, and stored entries are listed in strictly
increasing sequence order (so list order is push order). -/
def HeapWf (h : PathfindingHeap) : Prop :=
  (∀ e ∈ h._data, e.2.1 < h._insertion_order) ∧
    h._data.Pairwise (fun a b => a.2.1 < b.2.1)

theorem heapWf_applyOp {h : PathfindingHeap} (hw : HeapWf h) (op : HeapOp) :
    HeapWf (applyOp h op) := by
  obtain ⟨hbound, hpair⟩ := hw
  cases op with
  | push e r =>
    simp only [applyOp, PathfindingHeap.push]
    constructor
    · intro x hx
      rcases List.mem_append.mp hx with hx | hx
      · exact lt_trans (hbound x hx) (Nat.lt_succ_self _)
      · obtain rfl : x = (r, h._insertion_order, e) := by simpa using hx
        exact Nat.lt_succ_self _
    · rw [List.pairwise_append]
      refine ⟨hpair, by simp, ?_⟩
      intro a ha b hb
      obtain rfl : b = (r, h._insertion_order, e) := by simpa using hb
      exact hbound a ha
  | pop =>
    rw [applyOp]
    rcases hp : h.popEntry with - | q
    · exact ⟨hbound, hpair⟩
    · obtain ⟨ent, h2⟩ := q
      rw [PathfindingHeap.popEntry] at hp
      rcases hpp : heapPop h._data with - | pr <;> rw [hpp] at hp
      · cases hp
      · obtain ⟨m, rest⟩ := pr
        obtain ⟨hm1, hm2⟩ : (m = ent ∧ (⟨rest, h._insertion_order⟩ :
            PathfindingHeap) = h2) := by simpa using hp
        obtain ⟨-, -, -, hsub⟩ := heapPop_spec hpp
        rw [← hm2]
        exact ⟨fun e he => hbound e (hsub.subset he), hpair.sublist hsub⟩

theorem heapWf_applyOps (ops : List HeapOp) : HeapWf (applyOps ops) := by
  rw [applyOps]
  have h0 : HeapWf (⟨[], 0⟩ : PathfindingHeap) := by
    constructor <;> simp [HeapWf]
  generalize (⟨[], 0⟩ : PathfindingHeap) = h at h0 ⊢
  induction ops generalizing h with
  | nil => exact h0
  | cons op rest ih => exact ih _ (heapWf_applyOp h0 op)

/-- C8: after any sequence of operations, the stored sequence numbers
are strictly increasing in push order and bounded by the counter, and
`pop` returns an entry whose rank is minimal among all stored entries,
taking the smallest sequence number (earliest push) among equal ranks. -/
theorem pathfinding_heap_pop_spec (ops : List HeapOp) :
    (∀ e ∈ (applyOps ops)._data,
      e.2.1 < (applyOps ops)._insertion_order) ∧
    ((applyOps ops)._data.Pairwise fun a b => a.2.1 < b.2.1) ∧
    ∀ ent rest, (applyOps ops).popEntry = some (ent, rest) →
      ent ∈ (applyOps ops)._data ∧
        ∀ e ∈ (applyOps ops)._data,
          ent.1 ≤ e.1 ∧ (ent.1 = e.1 → ent.2.1 ≤ e.2.1) := by
  obtain ⟨hbound, hpair⟩ := heapWf_applyOps ops
  refine ⟨hbound, hpair, ?_⟩
  intro ent rest hpop
  rw [PathfindingHeap.popEntry] at hpop
  rcases hpp : heapPop (applyOps ops)._data with - | pr <;> rw [hpp] at hpop
  · cases hpop
  · obtain ⟨m, r0⟩ := pr
    obtain ⟨hm, -⟩ : m = ent ∧ _ = rest := by simpa using hpop
    subst hm
    obtain ⟨hmem, hmin, -, -⟩ := heapPop_spec hpp
    refine ⟨hmem, ?_⟩
    intro e he
    have := hmin e he
    rw [heapEntryLt] at this
    push_neg at this
    exact ⟨this.1, fun hr => this.2 hr.symm⟩

/-- Witness for C8 (three pushes with a rank tie between the second and
third): pop selects the rank-1 entry pushed first. -/
theorem pathfinding_heap_pop_spec_witness :
    (applyOps [.push (SearchNode.new (5, 5) none 2) 2,
        .push (SearchNode.new (1, 0) none 1) 1,
        .push (SearchNode.new (0, 1) none 1) 1]).popEntry =
      some ((1, 1, SearchNode.new (1, 0) none 1),
        ⟨[(2, 0, SearchNode.new (5, 5) none 2),
          (1, 2, SearchNode.new (0, 1) none 1)], 3⟩) ∧
    ((1, 1, SearchNode.new (1, 0) none 1) ∈
        (applyOps [.push (SearchNode.new (5, 5) none 2) 2,
          .push (SearchNode.new (1, 0) none 1) 1,
          .push (SearchNode.new (0, 1) none 1) 1])._data ∧
      ∀ e ∈ (applyOps [.push (SearchNode.new (5, 5) none 2) 2,
          .push (SearchNode.new (1, 0) none 1) 1,
          .push (SearchNode.new (0, 1) none 1) 1])._data,
        (1 : ℚ) ≤ e.1 ∧ ((1 : ℚ) = e.1 → 1 ≤ e.2.1)) :=
  ⟨by rfl,
   (pathfinding_heap_pop_spec
      [.push (SearchNode.new (5, 5) none 2) 2,
       .push (SearchNode.new (1, 0) none 1) 1,
       .push (SearchNode.new (0, 1) none 1) 1]).2.2
     (1, 1, SearchNode.new (1, 0) none 1)
     ⟨[(2, 0, SearchNode.new (5, 5) none 2),
       (1, 2, SearchNode.new (0, 1) none 1)], 3⟩ (by rfl)⟩

/-- C7: neighbor enumeration applies exactly the six offsets, in their
fixed order, and keeps exactly the in-bounds results in that order. -/
theorem fetch_adjacent_nodes_spec (location : Coord) (rows cols : ℤ) :
    fetch_adjacent_nodes location rows cols =
      neighbors_spec location rows cols := by
  rw [fetch_adjacent_nodes, neighbors_spec, fetchAdjacentAux_eq_filter_map]
  rfl

/-- C9: the step cost is `1.414` exactly when the two cells differ by
exactly one in both coordinates, and `1.0` otherwise. -/
theorem compute_step_weight_spec (src dest : Coord) :
    (((src.1 = dest.1 + 1 ∨ dest.1 = src.1 + 1) ∧
        (src.2 = dest.2 + 1 ∨ dest.2 = src.2 + 1)) →
      compute_step_weight src dest = 1.414) ∧
    (¬((src.1 = dest.1 + 1 ∨ dest.1 = src.1 + 1) ∧
        (src.2 = dest.2 + 1 ∨ dest.2 = src.2 + 1)) →
      compute_step_weight src dest = 1.0) := by
  constructor
  · intro h
    rw [compute_step_weight, if_pos]
    · rw [Rat.divInt_eq_div]
      norm_num
    · constructor <;> rw [abs_eq (by norm_num : (0 : ℤ) ≤ 1)] <;> omega
  · intro h
    rw [compute_step_weight, if_neg]
    · norm_num
    · intro hc
      apply h
      obtain ⟨h1, h2⟩ := hc
      rw [abs_eq (by norm_num : (0 : ℤ) ≤ 1)] at h1 h2
      constructor <;> omega

/-- Witness for C9 at a diagonal pair and an orthogonal pair. -/
theorem compute_step_weight_spec_witness :
    compute_step_weight (0, 0) (1, 1) = 1.414 ∧
      compute_step_weight (0, 0) (0, 1) = 1.0 :=
  ⟨(compute_step_weight_spec (0, 0) (1, 1)).1 (by decide),
   (compute_step_weight_spec (0, 0) (0, 1)).2 (by decide)⟩

/-! ## Malformed grids and parent overwriting (claims C1, C2, C5) -/

/-- A malformed grid: start and goal coincide at `(0,0)`. -/
def gStartEqGoal : NavigationGrid := ⟨2, 2, [], (0, 0), (0, 0)⟩

/-- A grid on which UCS relaxes a cost, rewriting a parent entry: the
detour around the walls first reaches `(0, 1)` diagonally from `(1, 2)`
at cost `957/125`, then cheaper orthogonally from `(0, 0)` at cost
`3707/500`. -/
def gUcsRelax : NavigationGrid :=
  ⟨5, 5, [(0, 3), (2, 1), (2, 2), (3, 1), (3, 3)], (3, 2), (1, 1)⟩

/-- Counterexample to C1: on a malformed grid (start = goal) every search
runs to completion and silently returns the one-cell path `[(0, 0)]`;
none of them fails fast with a configuration error. -/
theorem malformed_grid_no_failfast_cex :
    Malformed gStartEqGoal ∧
    pathOf (run_bfs gStartEqGoal 0) = some (some [(0, 0)]) ∧
    pathOf (run_dfs gStartEqGoal 0) = some (some [(0, 0)]) ∧
    pathOf (run_ucs gStartEqGoal 0) = some (some [(0, 0)]) ∧
    pathOf (run_dls gStartEqGoal 15 0) = some (some [(0, 0)]) ∧
    pathOf (run_iddfs gStartEqGoal 25 0) = some (some [(0, 0)]) ∧
    pathOf (run_bi_search gStartEqGoal 0) = some (some [(0, 0)]) := by
  refine ⟨by decide, by decide, by decide, by decide, by decide, by decide,
    by decide⟩

/-- Counterexample to C2: on `gUcsRelax`, `run_ucs` rewrites an existing
parent entry (first-discoverer-wins fails for UCS). -/
theorem ucs_overwrites_parent_cex : ucs_overwrote gUcsRelax 0 = some true := by
  decide

/-- Counterexample to C5: with a negative `depth_cap` and start = goal,
`run_dls` returns a 1-cell path although `depth_cap + 1 = 0`. -/
theorem dls_negative_cap_cex :
    pathOf (run_dls gStartEqGoal (-1) 0) = some (some [(0, 0)]) ∧
      ¬((([((0 : ℤ), (0 : ℤ))] : List Coord).length : ℤ) ≤ (-1 : ℤ) + 1) := by
  refine ⟨by decide, by decide⟩

/-- Amended C1: the searches perform no malformed-grid validation.  On
any grid whose start equals its goal — even with the cell blocked — each
search returns the silent one-cell path `[start]` (IDDFS provided its
iteration range `0..upper_limit` is non-empty); no configuration error
exists anywhere in the interface. -/
theorem searches_no_validation_start_eq_goal (g : NavigationGrid)
    (latency : ℚ) (depth_cap upper_limit : ℤ)
    (h : g.start_pos = g.goal_pos) :
    pathOf (run_bfs g latency) = some (some [g.start_pos]) ∧
    pathOf (run_dfs g latency) = some (some [g.start_pos]) ∧
    pathOf (run_ucs g latency) = some (some [g.start_pos]) ∧
    pathOf (run_dls g depth_cap latency) = some (some [g.start_pos]) ∧
    (0 ≤ upper_limit →
      pathOf (run_iddfs g upper_limit latency) = some (some [g.start_pos])) ∧
    pathOf (run_bi_search g latency) = some (some [g.start_pos]) := by
  refine ⟨?_, ?_, ?_, ?_, ?_, ?_⟩
  · rw [run_bfs, bfsInit, bfsFuel]
    simp [pathOf, bfsLoop, SearchNode.new, SearchNode.coord, h,
      trace_back_path, traceBackAux, List.lookup]
  · rw [run_dfs, dfsInit, dfsFuel]
    simp [pathOf, dfsLoop, SearchNode.new, SearchNode.coord, h,
      trace_back_path, traceBackAux, List.lookup]
  · rw [run_ucs, ucsInit, ucsFuel]
    simp [pathOf, ucsLoop, PathfindingHeap.push, PathfindingHeap.popEntry,
      heapPop, SearchNode.new, SearchNode.coord, h, trace_back_path,
      traceBackAux, List.lookup]
  · rw [run_dls]
    simp [pathOf, dlsVisit, h, trace_back_path, traceBackAux, List.lookup]
  · intro hlim
    rw [run_iddfs]
    obtain ⟨k, hk⟩ : ∃ k, (upper_limit + 1).toNat = k + 1 :=
      ⟨upper_limit.toNat, by omega⟩
    rw [hk, List.range_succ_eq_map]
    simp [pathOf, iddfsGo, dlsVisit, h, trace_back_path, traceBackAux,
      List.lookup, optListTruthy]
  · rw [run_bi_search, biInit, biFuel]
    simp [pathOf, biLoop, bridge_bi_directional_paths, walkChain, h,
      List.lookup, listInsert]

/-- Witness for the amended C1 at a concrete malformed grid. -/
theorem searches_no_validation_start_eq_goal_witness :
    gStartEqGoal.start_pos = gStartEqGoal.goal_pos ∧
    (pathOf (run_bfs gStartEqGoal 1) = some (some [gStartEqGoal.start_pos]) ∧
     pathOf (run_dfs gStartEqGoal 1) = some (some [gStartEqGoal.start_pos]) ∧
     pathOf (run_ucs gStartEqGoal 1) = some (some [gStartEqGoal.start_pos]) ∧
     pathOf (run_dls gStartEqGoal 15 1) =
        some (some [gStartEqGoal.start_pos]) ∧
     (0 ≤ (25 : ℤ) →
        pathOf (run_iddfs gStartEqGoal 25 1) =
          some (some [gStartEqGoal.start_pos])) ∧
     pathOf (run_bi_search gStartEqGoal 1) =
        some (some [gStartEqGoal.start_pos])) :=
  ⟨by decide, searches_no_validation_start_eq_goal gStartEqGoal 1 15 25
    (by decide)⟩

/-! ## BFS and bidirectional BFS never overwrite a parent (amended C2) -/

theorem contains_listInsert_self (x : Coord) (s : List Coord) :
    (listInsert x s).contains x = true := by
  rw [listInsert]
  by_cases h : s.contains x = true
  · rw [if_pos h]
    exact h
  · rw [if_neg h]
    simp

theorem contains_listInsert_mono {y : Coord} {s : List Coord}
    (h : s.contains y = true) (x : Coord) :
    (listInsert x s).contains y = true := by
  rw [listInsert]
  by_cases hx : s.contains x = true
  · rw [if_pos hx]
    exact h
  · rw [if_neg hx]
    simp at h ⊢
    exact Or.inr h

/-- Parent-map keys of a BFS state are discovered coordinates. -/
def BfsKeysSeen (st : BfsState) : Prop :=
  ∀ k : Coord, (st.path_tracker.lookup k).isSome = true →
    st.seen_coords.contains k = true

theorem bfsScan_no_overwrite (g : NavigationGrid) (pos : Coord)
    (node : SearchNode) :
    ∀ (nbs : List Coord) (st : BfsState), BfsKeysSeen st →
      st.overwrote = false →
      BfsKeysSeen (bfsScan g pos node nbs st) ∧
        (bfsScan g pos node nbs st).overwrote = false := by
  intro nbs
  induction nbs with
  | nil => exact fun st hk ho => ⟨hk, ho⟩
  | cons nb rest ih =>
    intro st hk ho
    rw [bfsScan]
    by_cases hg : (!(st.seen_coords.contains nb) && g.is_traversable nb) = true
    · rw [if_pos hg]
      have hnb : st.seen_coords.contains nb = false := by
        rw [Bool.and_eq_true] at hg
        have := hg.1
        rwa [Bool.not_eq_true'] at this
      have hlk : (st.path_tracker.lookup nb).isSome = false := by
        by_contra hc
        rw [Bool.not_eq_false] at hc
        have := hk nb hc
        rw [this] at hnb
        cases hnb
      refine ih _ ?_ ?_
      · intro k hlook
        cases hbe : (k == nb) with
        | false =>
          simp only [List.lookup, hbe] at hlook
          exact contains_listInsert_mono (hk k hlook) nb
        | true =>
          have : k = nb := by simpa using hbe
          rw [this]
          exact contains_listInsert_self nb st.seen_coords
      · simp [ho, hlk]
    · rw [if_neg hg]
      exact ih st hk ho

theorem bfsLoop_no_overwrite (g : NavigationGrid) (latency : ℚ) :
    ∀ (fuel : ℕ) (st : BfsState), BfsKeysSeen st → st.overwrote = false →
      ∀ res stF, bfsLoop g latency fuel st = some (res, stF) →
        stF.overwrote = false := by
  intro fuel
  induction fuel with
  | zero =>
    intro st hk ho res stF h
    cases h
  | succ fuel ih =>
    intro st hk ho res stF h
    rcases hq : st.work_queue with - | ⟨node, rest⟩
    · simp only [bfsLoop, hq] at h
      obtain ⟨-, h2⟩ := h
      exact ho
    · simp only [bfsLoop, hq] at h
      by_cases hgoal : node.coord = g.goal_pos
      · rw [if_pos hgoal] at h
        rcases htr : trace_back_path (st.path_tracker.length + 1)
            st.path_tracker g.goal_pos g.start_pos with - | route <;>
          simp only [htr] at h
        · cases h
        · obtain ⟨-, h2⟩ := h
          exact ho
      · rw [if_neg hgoal] at h
        have hscan := bfsScan_no_overwrite g node.coord node
          (fetch_adjacent_nodes node.coord g.rows g.cols)
          ⟨rest, st.seen_coords, st.path_tracker, st.overwrote,
           ⟨if st.vis.front_nodes.contains node.coord then
              st.vis.front_nodes.erase node.coord else st.vis.front_nodes,
            listInsert node.coord st.vis.history, some node.coord,
            st.vis.trajectory⟩,
           refresh_view latency "BFS Algorithm" ""
             ⟨if st.vis.front_nodes.contains node.coord then
                st.vis.front_nodes.erase node.coord else st.vis.front_nodes,
              listInsert node.coord st.vis.history, some node.coord,
              st.vis.trajectory⟩ st.frames⟩ hk ho
        exact ih _ hscan.1 hscan.2 res stF h

theorem biScan_no_overwrite (g : NavigationGrid) (from_node : Coord) :
    ∀ (nbs : List Coord) (links : Links) (queue : List Coord) (ow : Bool)
      (vis : VisState), ow = false →
      (biScan g from_node nbs links queue ow vis).2.2.1 = false := by
  intro nbs
  induction nbs with
  | nil =>
    intro links queue ow vis ho
    exact ho
  | cons adj rest ih =>
    intro links queue ow vis ho
    rw [biScan]
    by_cases hg : ((links.lookup adj).isNone && g.is_traversable adj) = true
    · rw [if_pos hg]
      refine ih _ _ _ _ ?_
      have hn : (links.lookup adj).isNone = true := by
        rw [Bool.and_eq_true] at hg
        exact hg.1
      have hs : (links.lookup adj).isSome = false := by
        rcases hl : links.lookup adj with - | v
        · rfl
        · rw [hl] at hn
          cases hn
      simp [ho, hs]
    · rw [if_neg hg]
      exact ih _ _ _ _ ho

theorem biLoop_no_overwrite (g : NavigationGrid) (latency : ℚ) :
    ∀ (fuel : ℕ) (st : BiState), st.fwdOverwrote = false →
      st.bwdOverwrote = false →
      ∀ res stF, biLoop g latency fuel st = some (res, stF) →
        stF.fwdOverwrote = false ∧ stF.bwdOverwrote = false := by
  intro fuel
  induction fuel with
  | zero =>
    intro st hf hb res stF h
    cases h
  | succ fuel ih =>
    intro st hf hb res stF h
    rcases hfq : st.fwd_work with - | ⟨node_f, fRest⟩
    · simp only [biLoop, hfq] at h
      obtain ⟨-, h2⟩ := h
      exact ⟨hf, hb⟩
    · rcases hbq : st.bwd_work with - | ⟨node_b, bRest⟩
      · simp only [biLoop, hfq, hbq] at h
        obtain ⟨-, h2⟩ := h
        exact ⟨hf, hb⟩
      · simp only [biLoop, hfq, hbq] at h
        split_ifs at h with hm1 hm2
        · split at h
          · cases h
          · rename_i route vis2 frames2 hbr
            obtain ⟨-, h2⟩ := h
            exact ⟨hf, hb⟩
        · split at h
          · cases h
          · rename_i route vis2 frames2 hbr
            obtain ⟨-, h2⟩ := h
            refine ⟨?_, hb⟩
            exact biScan_no_overwrite g node_f
              (fetch_adjacent_nodes node_f g.rows g.cols) st.fwd_map fRest
              st.fwdOverwrote _ hf
        · refine ih _ ?_ ?_ res stF h
          · exact biScan_no_overwrite g node_f
              (fetch_adjacent_nodes node_f g.rows g.cols) st.fwd_map fRest
              st.fwdOverwrote _ hf
          · exact biScan_no_overwrite g node_b
              (fetch_adjacent_nodes node_b g.rows g.cols) st.bwd_map bRest
              st.bwdOverwrote _ hb

/-- Amended C2: in every completed run, BFS and both sides of
bidirectional BFS never rewrite an existing parent entry
(first-discoverer wins); UCS, by contrast, rewrites a parent entry
exactly when relaxation finds a strictly cheaper path before
finalization (see `ucs_overwrites_parent_cex`). -/
theorem bfs_bi_first_discoverer_wins (g : NavigationGrid) (latency : ℚ) :
    (∀ b, bfs_overwrote g latency = some b → b = false) ∧
    (∀ bf bb, bi_overwrote g latency = some (bf, bb) →
      bf = false ∧ bb = false) := by
  constructor
  · intro b hb
    rw [bfs_overwrote] at hb
    rcases hrun : bfsLoop g latency (bfsFuel g) (bfsInit g) with - | r <;>
      rw [hrun] at hb
    · cases hb
    · obtain ⟨res, stF⟩ := r
      have hinit : BfsKeysSeen (bfsInit g) := by
        intro k hlk
        rw [bfsInit] at hlk ⊢
        cases hbe : (k == g.start_pos) with
        | false =>
          simp only [List.lookup, hbe, Option.isSome_none] at hlk
          cases hlk
        | true =>
          have : k = g.start_pos := by simpa using hbe
          simp [this]
      have hF := bfsLoop_no_overwrite g latency (bfsFuel g) (bfsInit g)
        hinit rfl res stF hrun
      have : stF.overwrote = b := by simpa using hb
      rw [← this, hF]
  · intro bf bb hb
    rw [bi_overwrote] at hb
    rcases hrun : biLoop g latency (biFuel g) (biInit g) with - | r <;>
      rw [hrun] at hb
    · cases hb
    · obtain ⟨res, stF⟩ := r
      have hF := biLoop_no_overwrite g latency (biFuel g) (biInit g)
        rfl rfl res stF hrun
      have hpair : (stF.fwdOverwrote, stF.bwdOverwrote) = (bf, bb) := by
        simpa using hb
      have h1 : stF.fwdOverwrote = bf := congrArg Prod.fst hpair
      have h2 : stF.bwdOverwrote = bb := congrArg Prod.snd hpair
      exact ⟨h1 ▸ hF.1, h2 ▸ hF.2⟩

/-- Witness for the amended C2 on a concrete grid. -/
theorem bfs_bi_first_discoverer_wins_witness :
    (bfs_overwrote gUcsRelax 0 = some false ∧ (false : Bool) = false) ∧
    (bi_overwrote gUcsRelax 0 = some (false, false) ∧
      (false : Bool) = false ∧ (false : Bool) = false) :=
  ⟨⟨by decide, (bfs_bi_first_discoverer_wins gUcsRelax 0).1 false (by decide)⟩,
   ⟨by decide,
    (bfs_bi_first_discoverer_wins gUcsRelax 0).2 false false (by decide)⟩⟩

/-! ## The instrumentation callback is advisory (claim C10)

The search state proper (queues, discovered sets, parent maps, costs,
ghost flags) evolves independently of `wait_time` and of the
visualization fields; only the recorded frames differ.  One lemma per
algorithm. -/

/-- The algorithmic core of a BFS state. -/
def BfsState.core (st : BfsState) : List SearchNode × List Coord × Links × Bool :=
  (st.work_queue, st.seen_coords, st.path_tracker, st.overwrote)

theorem bfsScan_core (g : NavigationGrid) (pos : Coord) (node : SearchNode) :
    ∀ (nbs : List Coord) (st st' : BfsState), st.core = st'.core →
      (bfsScan g pos node nbs st).core = (bfsScan g pos node nbs st').core := by
  intro nbs
  induction nbs with
  | nil => exact fun st st' h => h
  | cons nb rest ih =>
    intro st st' h
    obtain ⟨q, s, t, ow, v, fr⟩ := st
    obtain ⟨q', s', t', ow', v', fr'⟩ := st'
    simp only [BfsState.core, Prod.mk.injEq] at h
    obtain ⟨rfl, rfl, rfl, rfl⟩ := h
    simp only [bfsScan]
    split_ifs with hg
    · exact ih _ _ rfl
    · exact ih _ _ rfl

theorem bfsLoop_core (g : NavigationGrid) (l l' : ℚ) :
    ∀ (fuel : ℕ) (st st' : BfsState), st.core = st'.core →
      (bfsLoop g l fuel st).map (fun r => (r.1, r.2.core)) =
        (bfsLoop g l' fuel st').map (fun r => (r.1, r.2.core)) := by
  intro fuel
  induction fuel with
  | zero => intro st st' h; rfl
  | succ fuel ih =>
    intro st st' h
    obtain ⟨q, s, t, ow, v, fr⟩ := st
    obtain ⟨q', s', t', ow', v', fr'⟩ := st'
    simp only [BfsState.core, Prod.mk.injEq] at h
    obtain ⟨rfl, rfl, rfl, rfl⟩ := h
    cases q with
    | nil => rfl
    | cons node rest =>
      simp only [bfsLoop]
      by_cases hgoal : node.coord = g.goal_pos
      · rw [if_pos hgoal, if_pos hgoal]
        rcases trace_back_path (t.length + 1) t g.goal_pos g.start_pos with
          - | route
        · rfl
        · simp [BfsState.core]
      · rw [if_neg hgoal, if_neg hgoal]
        exact ih _ _ (bfsScan_core g node.coord node _ _ _ rfl)

/-- The algorithmic core of a DFS state. -/
def DfsState.core (st : DfsState) : List SearchNode × List Coord × Links :=
  (st.work_stack, st.visited_registry, st.path_tracker)

theorem dfsScan_core (g : NavigationGrid) (pos : Coord) (node : SearchNode) :
    ∀ (nbs : List Coord) (st st' : DfsState), st.core = st'.core →
      (dfsScan g pos node nbs st).core = (dfsScan g pos node nbs st').core := by
  intro nbs
  induction nbs with
  | nil => exact fun st st' h => h
  | cons nb rest ih =>
    intro st st' h
    obtain ⟨q, s, t, v, fr⟩ := st
    obtain ⟨q', s', t', v', fr'⟩ := st'
    simp only [DfsState.core, Prod.mk.injEq] at h
    obtain ⟨rfl, rfl, rfl⟩ := h
    simp only [dfsScan]
    split_ifs with hg
    · exact ih _ _ rfl
    · exact ih _ _ rfl

theorem dfsLoop_core (g : NavigationGrid) (l l' : ℚ) :
    ∀ (fuel : ℕ) (st st' : DfsState), st.core = st'.core →
      (dfsLoop g l fuel st).map (fun r => (r.1, r.2.core)) =
        (dfsLoop g l' fuel st').map (fun r => (r.1, r.2.core)) := by
  intro fuel
  induction fuel with
  | zero => intro st st' h; rfl
  | succ fuel ih =>
    intro st st' h
    obtain ⟨q, s, t, v, fr⟩ := st
    obtain ⟨q', s', t', v', fr'⟩ := st'
    simp only [DfsState.core, Prod.mk.injEq] at h
    obtain ⟨rfl, rfl, rfl⟩ := h
    cases q with
    | nil => rfl
    | cons node rest =>
      simp only [dfsLoop]
      by_cases hvis : s.contains node.coord = true
      · rw [if_pos hvis, if_pos hvis]
        exact ih _ _ rfl
      · rw [if_neg hvis, if_neg hvis]
        by_cases hgoal : node.coord = g.goal_pos
        · rw [if_pos hgoal, if_pos hgoal]
          rcases trace_back_path (t.length + 1) t g.goal_pos g.start_pos with
            - | route
          · rfl
          · simp [DfsState.core]
        · rw [if_neg hgoal, if_neg hgoal]
          exact ih _ _ (dfsScan_core g node.coord node _ _ _ rfl)

/-- The algorithmic core of a UCS state. -/
def UcsState.core (st : UcsState) :
    PathfindingHeap × List Coord × Links × CostMap × Bool :=
  (st.priority_heap, st.permanent_set, st.path_tracker, st.accumulated_costs,
   st.overwrote)

theorem ucsScan_core (g : NavigationGrid) (pos : Coord) (node : SearchNode)
    (posCost : ℚ) :
    ∀ (nbs : List Coord) (st st' : UcsState), st.core = st'.core →
      (ucsScan g pos node posCost nbs st).core =
        (ucsScan g pos node posCost nbs st').core := by
  intro nbs
  induction nbs with
  | nil => exact fun st st' h => h
  | cons nb rest ih =>
    intro st st' h
    obtain ⟨hp, ps, t, ac, ow, v, fr⟩ := st
    obtain ⟨hp', ps', t', ac', ow', v', fr'⟩ := st'
    simp only [UcsState.core, Prod.mk.injEq] at h
    obtain ⟨rfl, rfl, rfl, rfl, rfl⟩ := h
    simp only [ucsScan]
    split_ifs with hg hrelax
    · exact ih _ _ rfl
    · exact ih _ _ rfl
    · exact ih _ _ rfl

theorem ucsLoop_core (g : NavigationGrid) (l l' : ℚ) :
    ∀ (fuel : ℕ) (st st' : UcsState), st.core = st'.core →
      (ucsLoop g l fuel st).map (fun r => (r.1, r.2.core)) =
        (ucsLoop g l' fuel st').map (fun r => (r.1, r.2.core)) := by
  intro fuel
  induction fuel with
  | zero => intro st st' h; rfl
  | succ fuel ih =>
    intro st st' h
    obtain ⟨hp, ps, t, ac, ow, v, fr⟩ := st
    obtain ⟨hp', ps', t', ac', ow', v', fr'⟩ := st'
    simp only [UcsState.core, Prod.mk.injEq] at h
    obtain ⟨rfl, rfl, rfl, rfl, rfl⟩ := h
    simp only [ucsLoop]
    rcases hpp : hp.popEntry with - | ⟨⟨rank, seq, node⟩, heap1⟩ <;>
      simp only [hpp]
    · rfl
    · by_cases hperm : ps.contains node.coord = true
      · rw [if_pos hperm, if_pos hperm]
        exact ih _ _ rfl
      · rw [if_neg hperm, if_neg hperm]
        by_cases hgoal : node.coord = g.goal_pos
        · rw [if_pos hgoal, if_pos hgoal]
          rcases trace_back_path (t.length + 1) t g.goal_pos g.start_pos with
            - | route
          · rfl
          · simp [UcsState.core]
        · rw [if_neg hgoal, if_neg hgoal]
          rcases ac.lookup node.coord with - | posCost
          · rfl
          · exact ih _ _ (ucsScan_core g node.coord node posCost _ _ _ rfl)

/-- The algorithmic core of a DLS state. -/
def DlsState.core (st : DlsState) : Links × List Coord :=
  (st.links, st.explored)

theorem dlsChildren_core (g : NavigationGrid)
    (visit visit' : Coord → DlsState → Option (Option (List Coord) × DlsState))
    (hv : ∀ loc st st1, st.core = st1.core →
      (visit loc st).map (fun r => (r.1, r.2.core)) =
        (visit' loc st1).map (fun r => (r.1, r.2.core))) (current : Coord) :
    ∀ (nbs : List Coord) (st st' : DlsState), st.core = st'.core →
      (dlsChildren g visit current nbs st).map (fun r => (r.1, r.2.core)) =
        (dlsChildren g visit' current nbs st').map (fun r => (r.1, r.2.core)) := by
  intro nbs
  induction nbs with
  | nil =>
    intro st st' h
    simp only [dlsChildren]
    simp [h]
  | cons loc rest ih =>
    intro st st' h
    obtain ⟨lk, ex, v, fr⟩ := st
    obtain ⟨lk', ex', v', fr'⟩ := st'
    simp only [DlsState.core, Prod.mk.injEq] at h
    obtain ⟨rfl, rfl⟩ := h
    simp only [dlsChildren]
    split_ifs with hg
    · have hmap := hv loc ⟨(loc, some current) :: lk, ex, v, fr⟩
        ⟨(loc, some current) :: lk, ex, v', fr'⟩ rfl
      rcases h1 : visit loc ⟨(loc, some current) :: lk, ex, v, fr⟩ with
        - | ⟨out, st2⟩ <;>
        rcases h2 : visit' loc ⟨(loc, some current) :: lk, ex, v', fr'⟩ with
          - | ⟨out2, st3⟩ <;> rw [h1, h2] at hmap <;> simp only [h1, h2]
      · simp at hmap
      · simp at hmap
      · obtain ⟨hout, hcore⟩ : (out = out2 ∧ st2.core = st3.core) := by
          simpa using hmap
        rw [← hout]
        by_cases htr : optListTruthy out = true
        · rw [if_pos htr, if_pos htr]
          simp [hcore]
        · rw [if_neg htr, if_neg htr]
          exact ih st2 st3 hcore
    · exact ih _ _ rfl

theorem dlsVisit_core (g : NavigationGrid) (l l' : ℚ) (tag tag' : String) :
    ∀ (fuel : ℕ) (current : Coord) (rd : ℤ) (st st' : DlsState),
      st.core = st'.core →
      (dlsVisit g l tag fuel current rd st).map (fun r => (r.1, r.2.core)) =
        (dlsVisit g l' tag' fuel current rd st').map
          (fun r => (r.1, r.2.core)) := by
  intro fuel
  induction fuel with
  | zero => intro current rd st st' h; rfl
  | succ fuel ih =>
    intro current rd st st' h
    obtain ⟨lk, ex, v, fr⟩ := st
    obtain ⟨lk', ex', v', fr'⟩ := st'
    simp only [DlsState.core, Prod.mk.injEq] at h
    obtain ⟨rfl, rfl⟩ := h
    simp only [dlsVisit]
    by_cases hgoal : current = g.goal_pos
    · rw [if_pos hgoal, if_pos hgoal]
      rcases trace_back_path (lk.length + 1) lk g.goal_pos g.start_pos with
        - | route
      · rfl
      · simp [DlsState.core]
    · rw [if_neg hgoal, if_neg hgoal]
      by_cases hrd : rd ≤ 0
      · rw [if_pos hrd, if_pos hrd]
        simp [DlsState.core]
      · rw [if_neg hrd, if_neg hrd]
        have hch := dlsChildren_core g
          (fun loc st1 => dlsVisit g l tag fuel loc (rd - 1) st1)
          (fun loc st1 => dlsVisit g l' tag' fuel loc (rd - 1) st1)
          (fun loc st1 st2 hc => ih loc (rd - 1) st1 st2 hc) current
          (fetch_adjacent_nodes current g.rows g.cols)
          ⟨lk, listInsert current ex,
           dlsMarkFrontier g (listInsert current ex)
             (fetch_adjacent_nodes current g.rows g.cols)
             ⟨if v.front_nodes.contains current then v.front_nodes.erase current
               else v.front_nodes,
              listInsert current v.history, some current, v.trajectory⟩,
           refresh_view l tag ""
             ⟨if v.front_nodes.contains current then v.front_nodes.erase current
               else v.front_nodes,
              listInsert current v.history, some current, v.trajectory⟩ fr⟩
          ⟨lk, listInsert current ex,
           dlsMarkFrontier g (listInsert current ex)
             (fetch_adjacent_nodes current g.rows g.cols)
             ⟨if v'.front_nodes.contains current then
                v'.front_nodes.erase current else v'.front_nodes,
              listInsert current v'.history, some current, v'.trajectory⟩,
           refresh_view l' tag' ""
             ⟨if v'.front_nodes.contains current then
                v'.front_nodes.erase current else v'.front_nodes,
              listInsert current v'.history, some current, v'.trajectory⟩ fr'⟩
          rfl
        rcases h1 : dlsChildren g
            (fun loc st1 => dlsVisit g l tag fuel loc (rd - 1) st1) current
            (fetch_adjacent_nodes current g.rows g.cols) _ with - | ⟨out, st2⟩ <;>
          rcases h2 : dlsChildren g
              (fun loc st1 => dlsVisit g l' tag' fuel loc (rd - 1) st1) current
              (fetch_adjacent_nodes current g.rows g.cols) _ with
            - | ⟨out2, st3⟩ <;> rw [h1, h2] at hch <;> simp only [h1, h2]
        · simp at hch
        · simp at hch
        · obtain ⟨hout, hcore⟩ : (out = out2 ∧ st2.core = st3.core) := by
            simpa using hch
          rw [← hout]
          by_cases htr : optListTruthy out = true
          · rw [if_pos htr, if_pos htr]
            simp [hcore]
          · rw [if_neg htr, if_neg htr]
            obtain ⟨hl2, he2⟩ : (st2.links = st3.links ∧
                st2.explored = st3.explored) := by
              have := hcore
              simp only [DlsState.core, Prod.mk.injEq] at this
              exact this
            simp [DlsState.core, hl2, he2]

theorem iddfsGo_core (g : NavigationGrid) (l l' : ℚ) :
    ∀ (cms : List ℤ) (fr fr' : List Frame),
      (iddfsGo g l cms fr).map (fun r => r.1) =
        (iddfsGo g l' cms fr').map (fun r => r.1) := by
  intro cms
  induction cms with
  | nil => intro fr fr'; rfl
  | cons cm rest ih =>
    intro fr fr'
    simp only [iddfsGo]
    have hv := dlsVisit_core g l l' "IDDFS Search" "IDDFS Search"
      (cm.toNat + 1) g.start_pos cm
      ⟨[(g.start_pos, none)], [], clearRenderState, fr⟩
      ⟨[(g.start_pos, none)], [], clearRenderState, fr'⟩ rfl
    rcases h1 : dlsVisit g l "IDDFS Search" (cm.toNat + 1) g.start_pos cm
        ⟨[(g.start_pos, none)], [], clearRenderState, fr⟩ with - | ⟨out, st2⟩ <;>
      rcases h2 : dlsVisit g l' "IDDFS Search" (cm.toNat + 1) g.start_pos cm
          ⟨[(g.start_pos, none)], [], clearRenderState, fr'⟩ with
        - | ⟨out2, st3⟩ <;> rw [h1, h2] at hv <;> simp only [h1, h2]
    · simp at hv
    · simp at hv
    · obtain ⟨hout, -⟩ : (out = out2 ∧ st2.core = st3.core) := by simpa using hv
      rw [← hout]
      by_cases htr : optListTruthy out = true
      · rw [if_pos htr, if_pos htr]
        simp
      · rw [if_neg htr, if_neg htr]
        exact ih _ _

theorem bridge_core (f b : Links) (j : Coord) (l l' : ℚ) (v v' : VisState)
    (fr fr' : List Frame) :
    (bridge_bi_directional_paths f b j l v fr).map (fun r => r.1) =
      (bridge_bi_directional_paths f b j l' v' fr').map (fun r => r.1) := by
  rw [bridge_bi_directional_paths, bridge_bi_directional_paths]
  rcases hw1 : walkChain f (f.length + 1) (some j) [] with - | fpart <;>
    simp only [hw1]
  rcases hl : b.lookup j with - | bParent <;> simp only [hl]
  rcases hw2 : walkChain b (b.length + 1) bParent [] with - | bpart <;>
    simp only [hw2]
  simp

theorem biScan_core (g : NavigationGrid) (n : Coord) :
    ∀ (nbs : List Coord) (links : Links) (queue : List Coord) (ow : Bool)
      (v v' : VisState),
      ((biScan g n nbs links queue ow v).1, (biScan g n nbs links queue ow v).2.1,
        (biScan g n nbs links queue ow v).2.2.1) =
      ((biScan g n nbs links queue ow v').1,
        (biScan g n nbs links queue ow v').2.1,
        (biScan g n nbs links queue ow v').2.2.1) := by
  intro nbs
  induction nbs with
  | nil => intro links queue ow v v'; rfl
  | cons adj rest ih =>
    intro links queue ow v v'
    simp only [biScan]
    split_ifs with hg
    · exact ih _ _ _ _ _
    · exact ih _ _ _ _ _

/-- The algorithmic core of a bidirectional-search state. -/
def BiState.core (st : BiState) :
    List Coord × List Coord × Links × Links × Bool × Bool :=
  (st.fwd_work, st.bwd_work, st.fwd_map, st.bwd_map, st.fwdOverwrote,
   st.bwdOverwrote)

theorem biLoop_core (g : NavigationGrid) (l l' : ℚ) :
    ∀ (fuel : ℕ) (st st' : BiState), st.core = st'.core →
      (biLoop g l fuel st).map (fun r => (r.1, r.2.core)) =
        (biLoop g l' fuel st').map (fun r => (r.1, r.2.core)) := by
  intro fuel
  induction fuel with
  | zero => intro st st' h; rfl
  | succ fuel ih =>
    intro st st' h
    obtain ⟨fq, bq, fm, bm, fo, bo, v, fr⟩ := st
    obtain ⟨fq', bq', fm', bm', fo', bo', v', fr'⟩ := st'
    simp only [BiState.core, Prod.mk.injEq] at h
    obtain ⟨rfl, rfl, rfl, rfl, rfl, rfl⟩ := h
    cases fq with
    | nil => rfl
    | cons node_f fRest =>
      cases bq with
      | nil => rfl
      | cons node_b bRest =>
        simp only [biLoop]
        by_cases hm1 : (bm.lookup node_f).isSome = true
        · rw [if_pos hm1, if_pos hm1]
          have hbr := bridge_core fm bm node_f l l'
            ⟨v.front_nodes, listInsert node_f v.history, some node_f,
             v.trajectory⟩
            ⟨v'.front_nodes, listInsert node_f v'.history, some node_f,
             v'.trajectory⟩
            (refresh_view l "Bidirectional Pathmaking" " (Exploring Forward)"
              ⟨v.front_nodes, listInsert node_f v.history, some node_f,
               v.trajectory⟩ fr)
            (refresh_view l' "Bidirectional Pathmaking" " (Exploring Forward)"
              ⟨v'.front_nodes, listInsert node_f v'.history, some node_f,
               v'.trajectory⟩ fr')
          rcases h1 : bridge_bi_directional_paths fm bm node_f l _ _ with
            - | ⟨route, vis2, frames2⟩ <;>
            rcases h2 : bridge_bi_directional_paths fm bm node_f l' _ _ with
              - | ⟨route2, vis3, frames3⟩ <;> rw [h1, h2] at hbr <;>
            simp only [h1, h2]
          · simp at hbr
          · simp at hbr
          · have hroute : route = route2 := by simpa using hbr
            simp [BiState.core, hroute]
        · rw [if_neg hm1, if_neg hm1]
          rcases hscF1 : biScan g node_f
              (fetch_adjacent_nodes node_f g.rows g.cols) fm fRest fo
              ⟨v.front_nodes, listInsert node_f v.history, some node_f,
               v.trajectory⟩ with ⟨fm1, fq1, fo1, vF1⟩
          rcases hscF2 : biScan g node_f
              (fetch_adjacent_nodes node_f g.rows g.cols) fm fRest fo
              ⟨v'.front_nodes, listInsert node_f v'.history, some node_f,
               v'.trajectory⟩ with ⟨fm2, fq2, fo2, vF2⟩
          have hsc := biScan_core g node_f
            (fetch_adjacent_nodes node_f g.rows g.cols) fm fRest fo
            ⟨v.front_nodes, listInsert node_f v.history, some node_f,
             v.trajectory⟩
            ⟨v'.front_nodes, listInsert node_f v'.history, some node_f,
             v'.trajectory⟩
          rw [hscF1, hscF2] at hsc
          obtain ⟨hfm, hfq, hfo⟩ : (fm1 = fm2 ∧ fq1 = fq2 ∧ fo1 = fo2) := by
            simpa using hsc
          rw [← hfm, ← hfq, ← hfo]
          dsimp only
          by_cases hm2 : (fm1.lookup node_b).isSome = true
          · rw [if_pos hm2, if_pos hm2]
            have hbr := bridge_core fm1 bm node_b l l'
              ⟨vF1.front_nodes, listInsert node_b vF1.history, some node_b,
               vF1.trajectory⟩
              ⟨vF2.front_nodes, listInsert node_b vF2.history, some node_b,
               vF2.trajectory⟩
              (refresh_view l "Bidirectional Pathmaking"
                " (Exploring Backward)"
                ⟨vF1.front_nodes, listInsert node_b vF1.history, some node_b,
                 vF1.trajectory⟩
                (refresh_view l "Bidirectional Pathmaking"
                  " (Exploring Forward)"
                  ⟨v.front_nodes, listInsert node_f v.history, some node_f,
                   v.trajectory⟩ fr))
              (refresh_view l' "Bidirectional Pathmaking"
                " (Exploring Backward)"
                ⟨vF2.front_nodes, listInsert node_b vF2.history, some node_b,
                 vF2.trajectory⟩
                (refresh_view l' "Bidirectional Pathmaking"
                  " (Exploring Forward)"
                  ⟨v'.front_nodes, listInsert node_f v'.history, some node_f,
                   v'.trajectory⟩ fr'))
            rcases h1 : bridge_bi_directional_paths fm1 bm node_b l
                ⟨vF1.front_nodes, listInsert node_b vF1.history, some node_b,
                 vF1.trajectory⟩
                (refresh_view l "Bidirectional Pathmaking"
                  " (Exploring Backward)"
                  ⟨vF1.front_nodes, listInsert node_b vF1.history, some node_b,
                   vF1.trajectory⟩
                  (refresh_view l "Bidirectional Pathmaking"
                    " (Exploring Forward)"
                    ⟨v.front_nodes, listInsert node_f v.history, some node_f,
                     v.trajectory⟩ fr)) with - | ⟨route, vis2, frames2⟩ <;>
              rcases h2 : bridge_bi_directional_paths fm1 bm node_b l'
                  ⟨vF2.front_nodes, listInsert node_b vF2.history, some node_b,
                   vF2.trajectory⟩
                  (refresh_view l' "Bidirectional Pathmaking"
                    " (Exploring Backward)"
                    ⟨vF2.front_nodes, listInsert node_b vF2.history,
                     some node_b, vF2.trajectory⟩
                    (refresh_view l' "Bidirectional Pathmaking"
                      " (Exploring Forward)"
                      ⟨v'.front_nodes, listInsert node_f v'.history,
                       some node_f, v'.trajectory⟩ fr')) with
                - | ⟨route2, vis3, frames3⟩ <;> rw [h1, h2] at hbr <;>
              simp only [h1, h2]
            · simp at hbr
            · simp at hbr
            · have hroute : route = route2 := by simpa using hbr
              simp [BiState.core, hroute]
          · rw [if_neg hm2, if_neg hm2]
            rcases hscB1 : biScan g node_b
                (fetch_adjacent_nodes node_b g.rows g.cols) bm bRest bo
                ⟨vF1.front_nodes, listInsert node_b vF1.history, some node_b,
                 vF1.trajectory⟩ with ⟨bm1, bq1, bo1, vB1⟩
            rcases hscB2 : biScan g node_b
                (fetch_adjacent_nodes node_b g.rows g.cols) bm bRest bo
                ⟨vF2.front_nodes, listInsert node_b vF2.history, some node_b,
                 vF2.trajectory⟩ with ⟨bm2, bq2, bo2, vB2⟩
            have hscB := biScan_core g node_b
              (fetch_adjacent_nodes node_b g.rows g.cols) bm bRest bo
              ⟨vF1.front_nodes, listInsert node_b vF1.history, some node_b,
               vF1.trajectory⟩
              ⟨vF2.front_nodes, listInsert node_b vF2.history, some node_b,
               vF2.trajectory⟩
            rw [hscB1, hscB2] at hscB
            obtain ⟨hbm, hbq, hbo⟩ : (bm1 = bm2 ∧ bq1 = bq2 ∧ bo1 = bo2) := by
              simpa using hscB
            rw [← hbm, ← hbq, ← hbo]
            dsimp only
            exact ih _ _ rfl

theorem pathOf_run_bfs (g : NavigationGrid) (l : ℚ) :
    pathOf (run_bfs g l) =
      (bfsLoop g l (bfsFuel g) (bfsInit g)).map (fun r => r.1) := by
  rw [run_bfs, pathOf, Option.map_map]
  rfl

theorem pathOf_run_dfs (g : NavigationGrid) (l : ℚ) :
    pathOf (run_dfs g l) =
      (dfsLoop g l (dfsFuel g) (dfsInit g)).map (fun r => r.1) := by
  rw [run_dfs, pathOf, Option.map_map]
  rfl

theorem pathOf_run_ucs (g : NavigationGrid) (l : ℚ) :
    pathOf (run_ucs g l) =
      (ucsLoop g l (ucsFuel g) (ucsInit g)).map (fun r => r.1) := by
  rw [run_ucs, pathOf, Option.map_map]
  rfl

theorem pathOf_run_dls (g : NavigationGrid) (cap : ℤ) (l : ℚ) :
    pathOf (run_dls g cap l) =
      (dlsVisit g l ("DLS (Max Depth: " ++ toString cap ++ ")")
        (cap.toNat + 1) g.start_pos cap
        ⟨[(g.start_pos, none)], [], clearRenderState, []⟩).map
          (fun r => r.1) := by
  rw [run_dls, pathOf, Option.map_map]
  rfl

theorem pathOf_run_bi (g : NavigationGrid) (l : ℚ) :
    pathOf (run_bi_search g l) =
      (biLoop g l (biFuel g) (biInit g)).map (fun r => r.1) := by
  rw [run_bi_search, pathOf, Option.map_map]
  rfl

theorem run_bfs_latency (g : NavigationGrid) (l l' : ℚ) :
    pathOf (run_bfs g l) = pathOf (run_bfs g l') := by
  rw [pathOf_run_bfs, pathOf_run_bfs]
  have h := bfsLoop_core g l l' (bfsFuel g) (bfsInit g) (bfsInit g) rfl
  have h2 := congrArg (Option.map Prod.fst) h
  rw [Option.map_map, Option.map_map] at h2
  exact h2

theorem run_dfs_latency (g : NavigationGrid) (l l' : ℚ) :
    pathOf (run_dfs g l) = pathOf (run_dfs g l') := by
  rw [pathOf_run_dfs, pathOf_run_dfs]
  have h := dfsLoop_core g l l' (dfsFuel g) (dfsInit g) (dfsInit g) rfl
  have h2 := congrArg (Option.map Prod.fst) h
  rw [Option.map_map, Option.map_map] at h2
  exact h2

theorem run_ucs_latency (g : NavigationGrid) (l l' : ℚ) :
    pathOf (run_ucs g l) = pathOf (run_ucs g l') := by
  rw [pathOf_run_ucs, pathOf_run_ucs]
  have h := ucsLoop_core g l l' (ucsFuel g) (ucsInit g) (ucsInit g) rfl
  have h2 := congrArg (Option.map Prod.fst) h
  rw [Option.map_map, Option.map_map] at h2
  exact h2

theorem run_dls_latency (g : NavigationGrid) (cap : ℤ) (l l' : ℚ) :
    pathOf (run_dls g cap l) = pathOf (run_dls g cap l') := by
  rw [pathOf_run_dls, pathOf_run_dls]
  have h := dlsVisit_core g l l' ("DLS (Max Depth: " ++ toString cap ++ ")")
    ("DLS (Max Depth: " ++ toString cap ++ ")") (cap.toNat + 1)
    g.start_pos cap
    ⟨[(g.start_pos, none)], [], clearRenderState, []⟩
    ⟨[(g.start_pos, none)], [], clearRenderState, []⟩ rfl
  have h2 := congrArg (Option.map Prod.fst) h
  rw [Option.map_map, Option.map_map] at h2
  exact h2

theorem run_iddfs_latency (g : NavigationGrid) (lim : ℤ) (l l' : ℚ) :
    pathOf (run_iddfs g lim l) = pathOf (run_iddfs g lim l') := by
  rw [run_iddfs, run_iddfs, pathOf, pathOf]
  exact iddfsGo_core g l l' _ [] []

theorem run_bi_latency (g : NavigationGrid) (l l' : ℚ) :
    pathOf (run_bi_search g l) = pathOf (run_bi_search g l') := by
  rw [pathOf_run_bi, pathOf_run_bi]
  have h := biLoop_core g l l' (biFuel g) (biInit g) (biInit g) rfl
  have h2 := congrArg (Option.map Prod.fst) h
  rw [Option.map_map, Option.map_map] at h2
  exact h2

/-- C10: the instrumentation callback is advisory.  The returned route
(including the `None` no-path outcome) is identical whether the callback
fires (`wait_time > 0`) or is suppressed (`wait_time = 0`), for every
grid and every algorithm. -/
theorem instrumentation_advisory (g : NavigationGrid) (w : ℚ) (hw : 0 < w)
    (depth_cap upper_limit : ℤ) :
    pathOf (run_bfs g 0) = pathOf (run_bfs g w) ∧
    pathOf (run_dfs g 0) = pathOf (run_dfs g w) ∧
    pathOf (run_ucs g 0) = pathOf (run_ucs g w) ∧
    pathOf (run_dls g depth_cap 0) = pathOf (run_dls g depth_cap w) ∧
    pathOf (run_iddfs g upper_limit 0) =
      pathOf (run_iddfs g upper_limit w) ∧
    pathOf (run_bi_search g 0) = pathOf (run_bi_search g w) := by
  exact ⟨run_bfs_latency g 0 w, run_dfs_latency g 0 w, run_ucs_latency g 0 w,
    run_dls_latency g depth_cap 0 w, run_iddfs_latency g upper_limit 0 w,
    run_bi_latency g 0 w⟩

/-- Witness for C10 at a concrete grid and `wait_time = 1`. -/
theorem instrumentation_advisory_witness :
    (0 : ℚ) < 1 ∧
    (pathOf (run_bfs gUcsRelax 0) = pathOf (run_bfs gUcsRelax 1) ∧
     pathOf (run_dfs gUcsRelax 0) = pathOf (run_dfs gUcsRelax 1) ∧
     pathOf (run_ucs gUcsRelax 0) = pathOf (run_ucs gUcsRelax 1) ∧
     pathOf (run_dls gUcsRelax 15 0) = pathOf (run_dls gUcsRelax 15 1) ∧
     pathOf (run_iddfs gUcsRelax 25 0) = pathOf (run_iddfs gUcsRelax 25 1) ∧
     pathOf (run_bi_search gUcsRelax 0) = pathOf (run_bi_search gUcsRelax 1)) :=
  ⟨by decide, instrumentation_advisory gUcsRelax 1 (by decide) 15 25⟩

theorem refresh_view_zero (tag extra : String) (v : VisState)
    (fs : List Frame) : refresh_view 0 tag extra v fs = fs := by
  simp [refresh_view]

theorem dlsVisit_step (g : NavigationGrid) (tag : String) (fuel : ℕ)
    (cur : Coord) (rd : ℤ) (L : Links) (E : List Coord) (V : VisState)
    (F : List Frame) (hne : ¬cur = g.goal_pos) (hrd : ¬rd ≤ 0) :
    dlsVisit g 0 tag (fuel + 1) cur rd ⟨L, E, V, F⟩ =
      match dlsChildren g
          (fun loc st1 => dlsVisit g 0 tag fuel loc (rd - 1) st1) cur
          (fetch_adjacent_nodes cur g.rows g.cols)
          ⟨L, listInsert cur E,
           dlsMarkFrontier g (listInsert cur E)
             (fetch_adjacent_nodes cur g.rows g.cols)
             ⟨if V.front_nodes.contains cur then V.front_nodes.erase cur
               else V.front_nodes,
              listInsert cur V.history, some cur, V.trajectory⟩,
           F⟩ with
      | none => none
      | some (outcome, st2) =>
        if optListTruthy outcome then some (outcome, st2)
        else some (none, ⟨st2.links, st2.explored.erase cur, st2.vis,
          st2.frames⟩) := by
  simp only [dlsVisit, refresh_view_zero]
  rw [if_neg hne, if_neg hrd]

def gScenario : NavigationGrid := ⟨8, 8, [], (4, 4), (3, 4)⟩

theorem dls_scenario_l0 (cap : ℤ) (hcap : 1 ≤ cap) :
    pathOf (run_dls gScenario cap 0) = some (some [(4, 4), (3, 4)]) := by
  obtain ⟨k, hk⟩ : ∃ k : ℕ, cap.toNat = k + 1 := ⟨cap.toNat - 1, by omega⟩
  rw [run_dls, hk]
  rw [dlsVisit_step gScenario _ (k + 1) gScenario.start_pos cap
    [(gScenario.start_pos, none)] [] clearRenderState []
    (by decide) (by omega)]
  rfl

theorem iddfs_scenario_l0 (lim : ℤ) (hlim : 1 ≤ lim) :
    pathOf (run_iddfs gScenario lim 0) = some (some [(4, 4), (3, 4)]) := by
  obtain ⟨m, hm⟩ : ∃ m : ℕ, (lim + 1).toNat = m + 1 + 1 :=
    ⟨(lim + 1).toNat - 2, by omega⟩
  rw [run_iddfs, hm, List.range_succ_eq_map, List.range_succ_eq_map]
  rfl

/-- C6: on the 8×8 open grid with start `(4,4)` and goal `(3,4)`,
`run_bfs`, `run_dfs`, `run_ucs`, `run_dls` with `depth_cap ≥ 1` and
`run_iddfs` with `upper_limit ≥ 1` all return exactly the two-cell path
`[(4,4), (3,4)]`, at every callback latency. -/
theorem scenario_up_two_cell_path (latency : ℚ) (depth_cap upper_limit : ℤ)
    (hcap : 1 ≤ depth_cap) (hlim : 1 ≤ upper_limit) :
    pathOf (run_bfs gScenario latency) = some (some [(4, 4), (3, 4)]) ∧
    pathOf (run_dfs gScenario latency) = some (some [(4, 4), (3, 4)]) ∧
    pathOf (run_ucs gScenario latency) = some (some [(4, 4), (3, 4)]) ∧
    pathOf (run_dls gScenario depth_cap latency) =
      some (some [(4, 4), (3, 4)]) ∧
    pathOf (run_iddfs gScenario upper_limit latency) =
      some (some [(4, 4), (3, 4)]) := by
  refine ⟨?_, ?_, ?_, ?_, ?_⟩
  · rw [run_bfs_latency gScenario latency 0]; decide
  · rw [run_dfs_latency gScenario latency 0]; decide
  · rw [run_ucs_latency gScenario latency 0]; decide
  · rw [run_dls_latency gScenario depth_cap latency 0]
    exact dls_scenario_l0 depth_cap hcap
  · rw [run_iddfs_latency gScenario upper_limit latency 0]
    exact iddfs_scenario_l0 upper_limit hlim

/-- Witness for C6 at `latency = 1`, `depth_cap = 1`, `upper_limit = 1`. -/
theorem scenario_up_two_cell_path_witness :
    ((1 : ℤ) ≤ 1 ∧ (1 : ℤ) ≤ 1) ∧
    (pathOf (run_bfs gScenario 1) = some (some [(4, 4), (3, 4)]) ∧
     pathOf (run_dfs gScenario 1) = some (some [(4, 4), (3, 4)]) ∧
     pathOf (run_ucs gScenario 1) = some (some [(4, 4), (3, 4)]) ∧
     pathOf (run_dls gScenario 1 1) = some (some [(4, 4), (3, 4)]) ∧
     pathOf (run_iddfs gScenario 1 1) = some (some [(4, 4), (3, 4)])) :=
  ⟨⟨by decide, by decide⟩,
   scenario_up_two_cell_path 1 1 1 (by decide) (by decide)⟩

theorem Traces.unique {m : Links} {origin x : Coord} {p p' : List Coord}
    (h : Traces m origin x p) (h' : Traces m origin x p') : p = p' := by
  induction h generalizing p' with
  | base =>
    cases h' with
    | base => rfl
    | step x parent q hne hl hq => exact absurd rfl hne
  | step x parent p hne hl hp ih =>
    cases h' with
    | base => exact absurd rfl hne
    | step x parent' q hne' hl' hq =>
      rw [hl] at hl'
      have hpar : parent = parent' := by
        have := Option.some.inj hl'
        exact Option.some.inj this
      rw [← hpar] at hq
      rw [ih hq]

theorem Traces.append_of_notMem {m new : Links} {origin x : Coord}
    {p : List Coord} (h : Traces m origin x p)
    (hnew : ∀ e ∈ new, e.1 ∉ p) : Traces (new ++ m) origin x p := by
  induction new with
  | nil => exact h
  | cons e rest ih =>
    have h1 := ih (fun e' he' => hnew e' (List.mem_cons_of_mem e he'))
    have h2 := h1.cons_of_notMem (v := e.2) (hnew e (List.mem_cons_self e rest))
    exact h2

theorem traceBackAux_sound {m : Links} {origin : Coord} :
    ∀ (fuel : ℕ) (cur : Coord) (acc r : List Coord),
      traceBackAux m origin fuel cur acc = some r →
      ∃ p, Traces m origin cur p ∧ r = p.dropLast ++ acc.reverse := by
  intro fuel
  induction fuel with
  | zero => intro cur acc r h; exact absurd h (by simp [traceBackAux])
  | succ fuel ih =>
    intro cur acc r h
    rw [traceBackAux] at h
    by_cases hc : cur = origin
    · rw [if_pos hc] at h
      refine ⟨[origin], hc ▸ Traces.base, ?_⟩
      simpa using h.symm.trans rfl
    · rw [if_neg hc] at h
      rcases hl : m.lookup cur with - | op <;> rw [hl] at h
      · cases h
      · rcases op with - | parent
        · cases h
        · obtain ⟨p', hp', hr⟩ := ih parent (acc ++ [parent]) r h
          refine ⟨p' ++ [cur], Traces.step cur parent p' hc hl hp', ?_⟩
          have hlast : p'.dropLast ++ [parent] = p' := by
            have hg := hp'.getLast
            have hpn := hp'.ne_nil
            rw [List.getLast?_eq_getLast p' hpn] at hg
            conv_rhs => rw [← List.dropLast_append_getLast hpn]
            simp at hg
            rw [hg]
          rw [List.dropLast_concat, ← hlast]
          rw [hr]
          simp

/-- Soundness of the walk: a successful `trace_back_path` output is the
(unique) `Traces` chain. -/
theorem trace_back_path_sound {m : Links} {origin x : Coord}
    {fuel : ℕ} {r : List Coord}
    (h : trace_back_path fuel m x origin = some r) : Traces m origin x r := by
  obtain ⟨p, hp, hr⟩ := traceBackAux_sound fuel x [x] r h
  have hlast : p.dropLast ++ [x] = p := by
    have hg := hp.getLast
    have hpn := hp.ne_nil
    rw [List.getLast?_eq_getLast p hpn] at hg
    conv_rhs => rw [← List.dropLast_append_getLast hpn]
    simp at hg
    rw [hg]
  rw [show r = p from by rw [hr, ← hlast]; simp]
  exact hp


theorem dlsChildren_links_explored (g : NavigationGrid)
    (visit : Coord → DlsState → Option (Option (List Coord) × DlsState))
    (current : Coord)
    (hv : ∀ loc st1 res st2, st1.explored.contains loc = false →
      visit loc st1 = some (res, st2) →
      (∃ new : Links, st2.links = new ++ st1.links ∧
        ∀ e ∈ new, st1.explored.contains e.1 = false) ∧
      (optListTruthy res = false → st2.explored = st1.explored)) :
    ∀ (lst : List Coord) (st : DlsState) (res : Option (List Coord))
      (st2 : DlsState),
      dlsChildren g visit current lst st = some (res, st2) →
      (∃ new : Links, st2.links = new ++ st.links ∧
        ∀ e ∈ new, st.explored.contains e.1 = false) ∧
      (optListTruthy res = false → st2.explored = st.explored) := by
  intro lst
  induction lst with
  | nil =>
    intro st res st2 h
    rw [dlsChildren] at h
    obtain ⟨hres, hst⟩ : (none = res ∧ st = st2) := by
      simpa using h
    subst hres
    subst hst
    exact ⟨⟨[], by simp, by simp⟩, fun _ => rfl⟩
  | cons loc rest ih =>
    intro st res st2 h
    rw [dlsChildren] at h
    by_cases hc : (!(st.explored.contains loc) && g.is_traversable loc) = true
    · rw [if_pos hc] at h
      have hnloc : st.explored.contains loc = false := by
        rw [Bool.and_eq_true] at hc
        have := hc.1
        rwa [Bool.not_eq_true'] at this
      rcases hvis : visit loc ⟨(loc, some current) :: st.links, st.explored,
          st.vis, st.frames⟩ with - | ⟨outcome, stA⟩
      · rw [hvis] at h
        simp at h
      · simp only [hvis] at h
        have hA := hv loc ⟨(loc, some current) :: st.links, st.explored,
          st.vis, st.frames⟩ outcome stA hnloc hvis
        simp only at hA
        obtain ⟨⟨newA, hlA, hnA⟩, hEA⟩ := hA
        by_cases ht : optListTruthy outcome = true
        · rw [if_pos ht] at h
          obtain ⟨hres, hst⟩ : (outcome = res ∧ stA = st2) := by
            simpa using h
          subst hres
          subst hst
          refine ⟨⟨newA ++ [(loc, some current)], ?_, ?_⟩, ?_⟩
          · rw [hlA]; simp
          · intro e he
            rcases List.mem_append.mp he with he1 | he2
            · exact hnA e he1
            · have : e = (loc, some current) := by simpa using he2
              rw [this]
              exact hnloc
          · intro hfalse
            rw [hfalse] at ht
            cases ht
        · rw [if_neg ht] at h
          have ht' : optListTruthy outcome = false := by
            rwa [Bool.not_eq_true] at ht
          have hEA' : stA.explored = st.explored := hEA ht'
          obtain ⟨⟨newB, hlB, hnB⟩, hEB⟩ := ih stA res st2 h
          refine ⟨⟨newB ++ (newA ++ [(loc, some current)]), ?_, ?_⟩, ?_⟩
          · rw [hlB, hlA]; simp
          · intro e he
            rcases List.mem_append.mp he with he1 | he2
            · have := hnB e he1
              rwa [hEA'] at this
            · rcases List.mem_append.mp he2 with he3 | he4
              · exact hnA e he3
              · have : e = (loc, some current) := by simpa using he4
                rw [this]
                exact hnloc
          · intro hfalse
            rw [hEB hfalse, hEA']
    · rw [if_neg hc] at h
      exact ih st res st2 h

theorem dlsVisit_links_explored (g : NavigationGrid) (l : ℚ) (tag : String) :
    ∀ (fuel : ℕ) (cur : Coord) (rd : ℤ) (st : DlsState)
      (res : Option (List Coord)) (st2 : DlsState),
      st.explored.contains cur = false →
      dlsVisit g l tag fuel cur rd st = some (res, st2) →
      (∃ new : Links, st2.links = new ++ st.links ∧
        ∀ e ∈ new, st.explored.contains e.1 = false) ∧
      (optListTruthy res = false → st2.explored = st.explored) := by
  intro fuel
  induction fuel with
  | zero =>
    intro cur rd st res st2 hcur h
    exact absurd h (by simp [dlsVisit])
  | succ fuel ih =>
    intro cur rd st res st2 hcur h
    simp only [dlsVisit] at h
    by_cases hg : cur = g.goal_pos
    · rw [if_pos hg] at h
      rcases htr : trace_back_path (st.links.length + 1) st.links g.goal_pos
          g.start_pos with - | route
      · rw [htr] at h
        simp at h
      · simp only [htr] at h
        obtain ⟨hres, hst⟩ : (some route = res ∧
            (⟨st.links, st.explored, _, _⟩ : DlsState) = st2) := by
          simpa using h
        subst hres
        rw [← hst]
        exact ⟨⟨[], by simp, by simp⟩, fun _ => rfl⟩
    · rw [if_neg hg] at h
      by_cases hrd : rd ≤ 0
      · rw [if_pos hrd] at h
        obtain ⟨hres, hst⟩ : (none = res ∧
            (⟨st.links, st.explored, _, _⟩ : DlsState) = st2) := by
          simpa using h
        subst hres
        rw [← hst]
        exact ⟨⟨[], by simp, by simp⟩, fun _ => rfl⟩
      · rw [if_neg hrd] at h
        rcases hch : dlsChildren g
            (fun loc st1 => dlsVisit g l tag fuel loc (rd - 1) st1) cur
            (fetch_adjacent_nodes cur g.rows g.cols)
            ⟨st.links, listInsert cur st.explored,
             dlsMarkFrontier g (listInsert cur st.explored)
               (fetch_adjacent_nodes cur g.rows g.cols)
               ⟨if st.vis.front_nodes.contains cur then
                  st.vis.front_nodes.erase cur else st.vis.front_nodes,
                listInsert cur st.vis.history, some cur, st.vis.trajectory⟩,
             refresh_view l tag ""
               ⟨if st.vis.front_nodes.contains cur then
                  st.vis.front_nodes.erase cur else st.vis.front_nodes,
                listInsert cur st.vis.history, some cur, st.vis.trajectory⟩
               st.frames⟩ with - | ⟨outcome, stA⟩
        · rw [hch] at h
          simp at h
        · simp only [hch] at h
          have hA := dlsChildren_links_explored g
            (fun loc st1 => dlsVisit g l tag fuel loc (rd - 1) st1) cur
            (fun loc st1 res1 st3 hl1 hv1 => ih loc (rd - 1) st1 res1 st3 hl1 hv1)
            (fetch_adjacent_nodes cur g.rows g.cols) _ outcome stA hch
          simp only at hA
          obtain ⟨⟨newA, hlA, hnA⟩, hEA⟩ := hA
          have hnA' : ∀ e ∈ newA, st.explored.contains e.1 = false := by
            intro e he
            have := hnA e he
            by_contra hcon
            rw [Bool.not_eq_false] at hcon
            rw [contains_listInsert_mono hcon cur] at this
            cases this
          by_cases ht : optListTruthy outcome = true
          · rw [if_pos ht] at h
            obtain ⟨hres, hst⟩ : (outcome = res ∧ stA = st2) := by
              simpa using h
            subst hres
            subst hst
            refine ⟨⟨newA, by simpa using hlA, hnA'⟩, ?_⟩
            intro hfalse
            rw [hfalse] at ht
            cases ht
          · rw [if_neg ht] at h
            have ht' : optListTruthy outcome = false := by
              rwa [Bool.not_eq_true] at ht
            obtain ⟨hres, hst⟩ : (none = res ∧
                (⟨stA.links, stA.explored.erase cur, stA.vis, stA.frames⟩ :
                  DlsState) = st2) := by
              simpa using h
            subst hres
            rw [← hst]
            refine ⟨⟨newA, by simpa using hlA, hnA'⟩, fun _ => ?_⟩
            have hErest := hEA ht'
            simp only at hErest
            simp only [hErest]
            rw [listInsert, if_neg (by rw [hcur]; exact Bool.false_ne_true)]
            exact List.erase_cons_head cur st.explored

theorem dlsChildren_route_bound (g : NavigationGrid)
    (visit : Coord → DlsState → Option (Option (List Coord) × DlsState))
    (current : Coord) (D : ℤ)
    (hv1 : ∀ loc st1 res st2, st1.explored.contains loc = false →
      visit loc st1 = some (res, st2) →
      (∃ new : Links, st2.links = new ++ st1.links ∧
        ∀ e ∈ new, st1.explored.contains e.1 = false) ∧
      (optListTruthy res = false → st2.explored = st1.explored))
    (hv2 : ∀ loc st1 chain1 route st2,
      visit loc st1 = some (some route, st2) →
      Traces st1.links g.start_pos loc chain1 →
      (∀ c ∈ chain1.dropLast, st1.explored.contains c = true) →
      (route.length : ℤ) ≤ chain1.length + D) :
    ∀ (lst : List Coord) (st : DlsState) (chain route : List Coord)
      (st2 : DlsState),
      dlsChildren g visit current lst st = some (some route, st2) →
      Traces st.links g.start_pos current chain →
      (∀ c ∈ chain, st.explored.contains c = true) →
      (route.length : ℤ) ≤ chain.length + D + 1 := by
  intro lst
  induction lst with
  | nil =>
    intro st chain route st2 h hch hsub
    rw [dlsChildren] at h
    simp at h
  | cons loc rest ih =>
    intro st chain route st2 h hch hsub
    rw [dlsChildren] at h
    by_cases hc : (!(st.explored.contains loc) && g.is_traversable loc) = true
    · rw [if_pos hc] at h
      have hnloc : st.explored.contains loc = false := by
        rw [Bool.and_eq_true] at hc
        have := hc.1
        rwa [Bool.not_eq_true'] at this
      have hlocchain : loc ∉ chain := by
        intro hm
        rw [hsub loc hm] at hnloc
        cases hnloc
      rcases hvis : visit loc ⟨(loc, some current) :: st.links, st.explored,
          st.vis, st.frames⟩ with - | ⟨outcome, stA⟩
      · rw [hvis] at h
        simp at h
      · simp only [hvis] at h
        have horig : g.start_pos ∈ chain := by
          have hh := hch.head
          rcases chain with - | ⟨c0, crest⟩
          · cases hh
          · have hc0 : c0 = g.start_pos := by simpa using hh
            rw [hc0]
            exact List.mem_cons_self _ _
        have hlocne : loc ≠ g.start_pos := fun he => hlocchain (he ▸ horig)
        have hch1 : Traces ((loc, some current) :: st.links) g.start_pos loc
            (chain ++ [loc]) := by
          refine Traces.step loc current chain hlocne ?_
            (hch.cons_of_notMem hlocchain)
          simp [List.lookup]
        by_cases ht : optListTruthy outcome = true
        · rw [if_pos ht] at h
          obtain ⟨hres, hst⟩ : (outcome = some route ∧ stA = st2) := by
            simpa using h
          rw [hres] at hvis
          have hb := hv2 loc ⟨(loc, some current) :: st.links, st.explored,
            st.vis, st.frames⟩ (chain ++ [loc]) route stA hvis hch1 ?_
          · have hlen : ((chain ++ [loc]).length : ℤ) = chain.length + 1 := by
              simp
            omega
          · intro c hcm
            rw [List.dropLast_concat] at hcm
            exact hsub c hcm
        · rw [if_neg ht] at h
          have ht' : optListTruthy outcome = false := by
            rwa [Bool.not_eq_true] at ht
          have hA := hv1 loc ⟨(loc, some current) :: st.links, st.explored,
            st.vis, st.frames⟩ outcome stA hnloc hvis
          simp only at hA
          obtain ⟨⟨newA, hlA, hnA⟩, hEA⟩ := hA
          have hEA' : stA.explored = st.explored := hEA ht'
          have hchA : Traces stA.links g.start_pos current chain := by
            rw [hlA]
            refine Traces.append_of_notMem (hch.cons_of_notMem hlocchain) ?_
            intro e he hmem
            have := hnA e he
            rw [hsub e.1 hmem] at this
            cases this
          refine ih stA chain route st2 h hchA ?_
          rw [hEA']
          exact hsub
    · rw [if_neg hc] at h
      exact ih st chain route st2 h hch hsub

theorem dlsVisit_route_bound (g : NavigationGrid) (l : ℚ) (tag : String) :
    ∀ (fuel : ℕ) (cur : Coord) (rd : ℤ) (st : DlsState)
      (chain route : List Coord) (st2 : DlsState),
      dlsVisit g l tag fuel cur rd st = some (some route, st2) →
      Traces st.links g.start_pos cur chain →
      (∀ c ∈ chain.dropLast, st.explored.contains c = true) →
      0 ≤ rd →
      (route.length : ℤ) ≤ chain.length + rd := by
  intro fuel
  induction fuel with
  | zero =>
    intro cur rd st chain route st2 h hch hsub hrd0
    exact absurd h (by simp [dlsVisit])
  | succ fuel ih =>
    intro cur rd st chain route st2 h hch hsub hrd0
    simp only [dlsVisit] at h
    by_cases hg : cur = g.goal_pos
    · rw [if_pos hg] at h
      rcases htr : trace_back_path (st.links.length + 1) st.links g.goal_pos
          g.start_pos with - | route'
      · rw [htr] at h
        simp at h
      · simp only [htr] at h
        obtain ⟨hres, -⟩ : (route' = route ∧
            (⟨st.links, st.explored, _, _⟩ : DlsState) = st2) := by
          simpa using h
        rw [hg] at hch
        have hsound : Traces st.links g.start_pos g.goal_pos route' :=
          trace_back_path_sound htr
        have hrc : route' = chain := Traces.unique hsound hch
        rw [← hres, hrc]
        omega
    · rw [if_neg hg] at h
      by_cases hrd : rd ≤ 0
      · rw [if_pos hrd] at h
        simp at h
      · rw [if_neg hrd] at h
        rcases hch2 : dlsChildren g
            (fun loc st1 => dlsVisit g l tag fuel loc (rd - 1) st1) cur
            (fetch_adjacent_nodes cur g.rows g.cols)
            ⟨st.links, listInsert cur st.explored,
             dlsMarkFrontier g (listInsert cur st.explored)
               (fetch_adjacent_nodes cur g.rows g.cols)
               ⟨if st.vis.front_nodes.contains cur then
                  st.vis.front_nodes.erase cur else st.vis.front_nodes,
                listInsert cur st.vis.history, some cur, st.vis.trajectory⟩,
             refresh_view l tag ""
               ⟨if st.vis.front_nodes.contains cur then
                  st.vis.front_nodes.erase cur else st.vis.front_nodes,
                listInsert cur st.vis.history, some cur, st.vis.trajectory⟩
               st.frames⟩ with - | ⟨outcome, stA⟩
        · rw [hch2] at h
          simp at h
        · simp only [hch2] at h
          by_cases ht : optListTruthy outcome = true
          · rw [if_pos ht] at h
            obtain ⟨hres, hst⟩ : (outcome = some route ∧ stA = st2) := by
              simpa using h
            rw [hres] at hch2
            have hb := dlsChildren_route_bound g
              (fun loc st1 => dlsVisit g l tag fuel loc (rd - 1) st1) cur
              (rd - 1)
              (fun loc st1 res st3 hl hv =>
                dlsVisit_links_explored g l tag fuel loc (rd - 1) st1 res st3
                  hl hv)
              (fun loc st1 chain1 route1 st3 hv htr1 hsub1 =>
                ih loc (rd - 1) st1 chain1 route1 st3 hv htr1 hsub1
                  (by omega))
              (fetch_adjacent_nodes cur g.rows g.cols) _ chain route stA
              hch2 hch ?_
            · omega
            · intro c hcm
              have hne := hch.ne_nil
              have hgl := hch.getLast
              rw [List.getLast?_eq_getLast chain hne] at hgl
              have hglc : chain.getLast hne = cur := by simpa using hgl
              rw [← List.dropLast_append_getLast hne] at hcm
              rcases List.mem_append.mp hcm with hmem | hmem
              · exact contains_listInsert_mono (hsub c hmem) cur
              · have hccur : c = cur := by
                  rw [← hglc]
                  simpa using hmem
                rw [hccur]
                exact contains_listInsert_self cur st.explored
          · rw [if_neg ht] at h
            simp at h

/-- C5 (corrected): for every grid and every `depth_cap ≥ 0`, a path
returned by `run_dls(depth_cap)` has at most `depth_cap + 1` cells.  (For
negative caps the bound fails, see the counterexample.) -/
theorem run_dls_depth_bound (g : NavigationGrid) (depth_cap : ℤ)
    (wait_time : ℚ) (p : List Coord) (hcap : 0 ≤ depth_cap)
    (h : pathOf (run_dls g depth_cap wait_time) = some (some p)) :
    (p.length : ℤ) ≤ depth_cap + 1 := by
  rw [run_dls, pathOf, Option.map_map] at h
  rcases hv : dlsVisit g wait_time
      ("DLS (Max Depth: " ++ toString depth_cap ++ ")")
      (depth_cap.toNat + 1) g.start_pos depth_cap
      ⟨[(g.start_pos, none)], [], clearRenderState, []⟩ with - | ⟨res, st2⟩
  · rw [hv] at h
    simp at h
  · rw [hv] at h
    have hres : res = some p := by simpa using h
    rw [hres] at hv
    have hb := dlsVisit_route_bound g wait_time
      ("DLS (Max Depth: " ++ toString depth_cap ++ ")")
      (depth_cap.toNat + 1) g.start_pos depth_cap
      ⟨[(g.start_pos, none)], [], clearRenderState, []⟩
      [g.start_pos] p st2 hv Traces.base (by simp) hcap
    have hlen : (([g.start_pos] : List Coord).length : ℤ) = 1 := by simp
    omega

/-- Witness for C5's amended bound at `depth_cap = 1` on the open
scenario grid. -/
theorem run_dls_depth_bound_witness :
    ((0 : ℤ) ≤ 1 ∧
     pathOf (run_dls gScenario 1 0) = some (some [(4, 4), (3, 4)])) ∧
    (([((4, 4) : Coord), (3, 4)].length : ℤ)) ≤ 1 + 1 :=
  ⟨⟨by decide, by decide⟩,
   run_dls_depth_bound gScenario 1 0 [(4, 4), (3, 4)] (by decide) (by decide)⟩

theorem contains_true_iff (s : List Coord) (c : Coord) :
    s.contains c = true ↔ c ∈ s := by
  induction s with
  | nil => simp
  | cons a as ih =>
    simp only [List.contains_cons, Bool.or_eq_true, beq_iff_eq, ih,
      List.mem_cons]

theorem contains_false_iff (s : List Coord) (c : Coord) :
    s.contains c = false ↔ c ∉ s := by
  rw [← Bool.not_eq_true, not_iff_not]
  exact contains_true_iff s c

theorem contains_listInsert_false {x c : Coord} {s : List Coord}
    (hne : c ≠ x) (hs : s.contains c = false) :
    (listInsert x s).contains c = false := by
  rw [listInsert]
  by_cases h : s.contains x = true
  · rw [if_pos h]
    exact hs
  · rw [if_neg h]
    rw [contains_false_iff] at hs ⊢
    simp [hne, hs]

theorem Traces.origin_mem {m : Links} {origin x : Coord} {p : List Coord}
    (h : Traces m origin x p) : origin ∈ p := by
  have hh := h.head
  rcases p with - | ⟨c0, rest⟩
  · cases hh
  · have hc0 : c0 = origin := by simpa using hh
    rw [hc0]
    exact List.mem_cons_self _ _

theorem chain_contains_insert {cur : Coord} {chain E : List Coord}
    (hne : chain ≠ []) (hgl : chain.getLast? = some cur)
    (hsub : ∀ c ∈ chain.dropLast, E.contains c = true) :
    ∀ c ∈ chain, (listInsert cur E).contains c = true := by
  intro c hc
  rw [List.getLast?_eq_getLast chain hne] at hgl
  have hglc : chain.getLast hne = cur := by simpa using hgl
  rw [← List.dropLast_append_getLast hne] at hc
  rcases List.mem_append.mp hc with hmem | hmem
  · exact contains_listInsert_mono (hsub c hmem) cur
  · have hccur : c = cur := by
      rw [← hglc]
      simpa using hmem
    rw [hccur]
    exact contains_listInsert_self cur E

theorem dlsChildren_ne_none (g : NavigationGrid)
    (visit : Coord → DlsState → Option (Option (List Coord) × DlsState))
    (current : Coord) (L0 : Links) (E0 : List Coord)
    (hrest : ∀ loc st1 res st2, st1.explored.contains loc = false →
      visit loc st1 = some (res, st2) →
      (∃ new : Links, st2.links = new ++ st1.links ∧
        ∀ e ∈ new, st1.explored.contains e.1 = false) ∧
      (optListTruthy res = false → st2.explored = st1.explored))
    (hterm : ∀ (loc : Coord) (L1 : Links) (V1 : VisState) (F1 : List Frame),
      (∃ new : Links, L1 = new ++ L0 ∧ ∀ e ∈ new, E0.contains e.1 = false) →
      E0.contains loc = false → g.is_traversable loc = true →
      visit loc ⟨(loc, some current) :: L1, E0, V1, F1⟩ ≠ none) :
    ∀ (lst : List Coord) (st : DlsState), st.explored = E0 →
      (∃ new : Links, st.links = new ++ L0 ∧
        ∀ e ∈ new, E0.contains e.1 = false) →
      dlsChildren g visit current lst st ≠ none := by
  intro lst
  induction lst with
  | nil =>
    intro st hE hL
    rw [dlsChildren]
    simp
  | cons loc rest ih =>
    intro st hE hL h
    rw [dlsChildren] at h
    by_cases hc : (!(st.explored.contains loc) && g.is_traversable loc) = true
    · rw [if_pos hc] at h
      have hnloc : st.explored.contains loc = false := by
        rw [Bool.and_eq_true] at hc
        have := hc.1
        rwa [Bool.not_eq_true'] at this
      have htrav : g.is_traversable loc = true := by
        rw [Bool.and_eq_true] at hc
        exact hc.2
      rcases hvis : visit loc ⟨(loc, some current) :: st.links, st.explored,
          st.vis, st.frames⟩ with - | ⟨outcome, stA⟩
      · rw [hE] at hvis
        exact hterm loc st.links st.vis st.frames hL
          (by rw [← hE]; exact hnloc) htrav hvis
      · simp only [hvis] at h
        by_cases ht : optListTruthy outcome = true
        · rw [if_pos ht] at h
          cases h
        · rw [if_neg ht] at h
          have hA := hrest loc ⟨(loc, some current) :: st.links, st.explored,
            st.vis, st.frames⟩ outcome stA hnloc hvis
          simp only at hA
          obtain ⟨⟨newA, hlA, hnA⟩, hEA⟩ := hA
          have ht' : optListTruthy outcome = false := by
            rwa [Bool.not_eq_true] at ht
          refine ih stA ?_ ?_ h
          · rw [hEA ht']
            exact hE
          · obtain ⟨new, hln, hnew⟩ := hL
            refine ⟨newA ++ ((loc, some current) :: new), ?_, ?_⟩
            · rw [hlA, hln]
              simp
            · intro e he
              rcases List.mem_append.mp he with he1 | he2
              · have := hnA e he1
                rwa [hE] at this
              · rcases List.mem_cons.mp he2 with he3 | he4
                · rw [he3]
                  rw [← hE]
                  exact hnloc
                · exact hnew e he4
    · rw [if_neg hc] at h
      exact ih st hE hL h

theorem dlsVisit_ne_none (g : NavigationGrid) (l : ℚ) (tag : String) :
    ∀ (fuel : ℕ) (cur : Coord) (rd : ℤ) (st : DlsState) (chain : List Coord),
      rd.toNat < fuel →
      Traces st.links g.start_pos cur chain →
      chain.length ≤ st.links.length + 1 →
      (∀ c ∈ chain.dropLast, st.explored.contains c = true) →
      dlsVisit g l tag fuel cur rd st ≠ none := by
  intro fuel
  induction fuel with
  | zero =>
    intro cur rd st chain hf
    exact absurd hf (Nat.not_lt_zero _)
  | succ fuel ih =>
    intro cur rd st chain hf hch hlen hsub h
    simp only [dlsVisit] at h
    by_cases hg : cur = g.goal_pos
    · rw [if_pos hg] at h
      rw [hg] at hch
      have htr := trace_back_path_of_traces hch (st.links.length + 1)
        (by omega)
      rw [htr] at h
      simp at h
    · rw [if_neg hg] at h
      by_cases hrd : rd ≤ 0
      · rw [if_pos hrd] at h
        cases h
      · rw [if_neg hrd] at h
        have hchainE : ∀ c ∈ chain,
            (listInsert cur st.explored).contains c = true :=
          chain_contains_insert hch.ne_nil hch.getLast hsub
        rcases hch2 : dlsChildren g
            (fun loc st1 => dlsVisit g l tag fuel loc (rd - 1) st1) cur
            (fetch_adjacent_nodes cur g.rows g.cols)
            ⟨st.links, listInsert cur st.explored,
             dlsMarkFrontier g (listInsert cur st.explored)
               (fetch_adjacent_nodes cur g.rows g.cols)
               ⟨if st.vis.front_nodes.contains cur then
                  st.vis.front_nodes.erase cur else st.vis.front_nodes,
                listInsert cur st.vis.history, some cur, st.vis.trajectory⟩,
             refresh_view l tag ""
               ⟨if st.vis.front_nodes.contains cur then
                  st.vis.front_nodes.erase cur else st.vis.front_nodes,
                listInsert cur st.vis.history, some cur, st.vis.trajectory⟩
               st.frames⟩ with - | ⟨outcome, stA⟩
        · refine dlsChildren_ne_none g
            (fun loc st1 => dlsVisit g l tag fuel loc (rd - 1) st1) cur
            st.links (listInsert cur st.explored)
            (fun loc st1 res st2 hl hv =>
              dlsVisit_links_explored g l tag fuel loc (rd - 1) st1 res st2
                hl hv)
            ?_ (fetch_adjacent_nodes cur g.rows g.cols) _ rfl
            ⟨[], by simp, by simp⟩ hch2
          intro loc L1 V1 F1 hL1 hloc htrav hvisnone
          obtain ⟨new, hln, hnew⟩ := hL1
          have hchain1 : Traces ((loc, some cur) :: L1) g.start_pos loc
              (chain ++ [loc]) := by
            have hlocchain : loc ∉ chain := by
              intro hm
              rw [hchainE loc hm] at hloc
              cases hloc
            have hbase : Traces L1 g.start_pos cur chain := by
              rw [hln]
              refine Traces.append_of_notMem hch ?_
              intro e he hmem
              have := hnew e he
              rw [hchainE e.1 hmem] at this
              cases this
            have hlocne : loc ≠ g.start_pos :=
              fun he => hlocchain (he ▸ hbase.origin_mem)
            refine Traces.step loc cur chain hlocne ?_
              (hbase.cons_of_notMem hlocchain)
            simp [List.lookup]
          refine ih loc (rd - 1) ⟨(loc, some cur) :: L1,
            listInsert cur st.explored, V1, F1⟩ (chain ++ [loc])
            (by omega) hchain1 ?_ ?_ hvisnone
          · dsimp only
            have hll : L1.length = new.length + st.links.length := by
              rw [hln]
              simp
            have h1 : (chain ++ [loc]).length = chain.length + 1 := by simp
            have h2 : (((loc, some cur) :: L1 : Links)).length =
                L1.length + 1 := by simp
            omega
          · intro c hcm
            rw [List.dropLast_concat] at hcm
            exact hchainE c hcm
        · simp only [hch2] at h
          by_cases ht : optListTruthy outcome = true
          · rw [if_pos ht] at h
            cases h
          · rw [if_neg ht] at h
            cases h

theorem dlsChildren_complete (g : NavigationGrid)
    (visit : Coord → DlsState → Option (Option (List Coord) × DlsState))
    (current v1 : Coord) (L0 : Links) (E0 : List Coord)
    (hrest : ∀ loc st1 res st2, st1.explored.contains loc = false →
      visit loc st1 = some (res, st2) →
      (∃ new : Links, st2.links = new ++ st1.links ∧
        ∀ e ∈ new, st1.explored.contains e.1 = false) ∧
      (optListTruthy res = false → st2.explored = st1.explored))
    (hterm : ∀ (loc : Coord) (L1 : Links) (V1 : VisState) (F1 : List Frame),
      (∃ new : Links, L1 = new ++ L0 ∧ ∀ e ∈ new, E0.contains e.1 = false) →
      E0.contains loc = false → g.is_traversable loc = true →
      visit loc ⟨(loc, some current) :: L1, E0, V1, F1⟩ ≠ none)
    (hsucc : ∀ (L1 : Links) (V1 : VisState) (F1 : List Frame),
      (∃ new : Links, L1 = new ++ L0 ∧ ∀ e ∈ new, E0.contains e.1 = false) →
      ∃ route st2, visit v1 ⟨(v1, some current) :: L1, E0, V1, F1⟩ =
        some (some route, st2) ∧ route ≠ [])
    (hv1E : E0.contains v1 = false) (hv1T : g.is_traversable v1 = true) :
    ∀ (lst : List Coord) (st : DlsState), v1 ∈ lst → st.explored = E0 →
      (∃ new : Links, st.links = new ++ L0 ∧
        ∀ e ∈ new, E0.contains e.1 = false) →
      ∃ route st2, dlsChildren g visit current lst st =
        some (some route, st2) ∧ route ≠ [] := by
  intro lst
  induction lst with
  | nil =>
    intro st hmem
    exact absurd hmem (List.not_mem_nil v1)
  | cons loc rest ih =>
    intro st hmem hE hL
    rw [dlsChildren]
    by_cases hc : (!(st.explored.contains loc) && g.is_traversable loc) = true
    · rw [if_pos hc]
      have hnloc : st.explored.contains loc = false := by
        rw [Bool.and_eq_true] at hc
        have := hc.1
        rwa [Bool.not_eq_true'] at this
      have htrav : g.is_traversable loc = true := by
        rw [Bool.and_eq_true] at hc
        exact hc.2
      rcases hvis : visit loc ⟨(loc, some current) :: st.links, st.explored,
          st.vis, st.frames⟩ with - | ⟨outcome, stA⟩
      · rw [hE] at hvis
        exact absurd hvis (hterm loc st.links st.vis st.frames hL
          (by rw [← hE]; exact hnloc) htrav)
      · simp only [hvis]
        by_cases ht : optListTruthy outcome = true
        · rw [if_pos ht]
          rcases outcome with - | r
          · cases ht
          · rcases r with - | ⟨c, cs⟩
            · cases ht
            · exact ⟨c :: cs, stA, rfl, by simp⟩
        · rw [if_neg ht]
          by_cases hlv : loc = v1
          · exfalso
            rw [hlv, hE] at hvis
            obtain ⟨route, st2, hveq, hrne⟩ :=
              hsucc st.links st.vis st.frames hL
            rw [hveq] at hvis
            obtain ⟨hout, -⟩ : (some route = outcome ∧ st2 = stA) := by
              simpa using hvis
            rcases route with - | ⟨c, cs⟩
            · exact hrne rfl
            · rw [← hout] at ht
              exact ht rfl
          · have hmem' : v1 ∈ rest := by
              rcases List.mem_cons.mp hmem with h1 | h1
              · exact absurd h1.symm hlv
              · exact h1
            have hA := hrest loc ⟨(loc, some current) :: st.links,
              st.explored, st.vis, st.frames⟩ outcome stA hnloc hvis
            simp only at hA
            obtain ⟨⟨newA, hlA, hnA⟩, hEA⟩ := hA
            have ht' : optListTruthy outcome = false := by
              rwa [Bool.not_eq_true] at ht
            refine ih stA hmem' ?_ ?_
            · rw [hEA ht']
              exact hE
            · obtain ⟨new, hln, hnew⟩ := hL
              refine ⟨newA ++ ((loc, some current) :: new), ?_, ?_⟩
              · rw [hlA, hln]
                simp
              · intro e he
                rcases List.mem_append.mp he with he1 | he2
                · have := hnA e he1
                  rwa [hE] at this
                · rcases List.mem_cons.mp he2 with he3 | he4
                  · rw [he3]
                    rw [← hE]
                    exact hnloc
                  · exact hnew e he4
    · rw [if_neg hc]
      have hlv : loc ≠ v1 := by
        intro he
        apply hc
        rw [he, hE, Bool.and_eq_true]
        constructor
        · rw [hv1E]
          rfl
        · exact hv1T
      have hmem' : v1 ∈ rest := by
        rcases List.mem_cons.mp hmem with h1 | h1
        · exact absurd h1.symm hlv
        · exact h1
      exact ih st hmem' hE hL

theorem dlsVisit_complete (g : NavigationGrid) (l : ℚ) (tag : String) :
    ∀ (fuel : ℕ) (cur : Coord) (rd : ℤ) (st : DlsState)
      (chain path : List Coord),
      rd.toNat < fuel →
      Traces st.links g.start_pos cur chain →
      chain.length ≤ st.links.length + 1 →
      (∀ c ∈ chain.dropLast, st.explored.contains c = true) →
      path.head? = some cur →
      path.getLast? = some g.goal_pos →
      List.Chain' (Adjacent g) path →
      (∀ c ∈ path, g.is_traversable c = true) →
      path.Nodup →
      (∀ c ∈ path, st.explored.contains c = false) →
      (path.length : ℤ) ≤ rd + 1 →
      ∃ route st2, dlsVisit g l tag fuel cur rd st =
        some (some route, st2) ∧ route ≠ [] := by
  intro fuel
  induction fuel with
  | zero =>
    intro cur rd st chain path hf
    exact absurd hf (Nat.not_lt_zero _)
  | succ fuel ih =>
    intro cur rd st chain path hf hch hclen hcsub hhead hlast hchain'
      htrav hnodup havoid hplen
    by_cases hg : cur = g.goal_pos
    · rw [hg] at hch
      have htr := trace_back_path_of_traces hch (st.links.length + 1)
        (by omega)
      simp only [dlsVisit]
      rw [if_pos hg, htr]
      exact ⟨chain, _, rfl, hch.ne_nil⟩
    · rcases path with - | ⟨a, path1⟩
      · cases hhead
      · have ha : a = cur := by simpa using hhead
        subst ha
        rcases path1 with - | ⟨v1, rest2⟩
        · have : a = g.goal_pos := by simpa using hlast
          exact absurd this hg
        · simp only [List.length_cons] at hplen
          push_cast at hplen
          have hrd1 : 1 ≤ rd := by omega
          simp only [dlsVisit]
          rw [if_neg hg, if_neg (by omega : ¬rd ≤ 0)]
          have hadj : Adjacent g a v1 := (List.chain'_cons.mp hchain').1
          have hchain2 : List.Chain' (Adjacent g) (v1 :: rest2) :=
            (List.chain'_cons.mp hchain').2
          have hcurne : a ∉ v1 :: rest2 := (List.nodup_cons.mp hnodup).1
          have hnodup2 : (v1 :: rest2).Nodup := (List.nodup_cons.mp hnodup).2
          have hv1cur : v1 ≠ a := fun he =>
            hcurne (by rw [← he]; exact List.mem_cons_self _ _)
          have hv1E : (listInsert a st.explored).contains v1 = false :=
            contains_listInsert_false hv1cur (havoid v1 (by simp))
          have havoid2 : ∀ c ∈ v1 :: rest2,
              (listInsert a st.explored).contains c = false := by
            intro c hcm
            refine contains_listInsert_false ?_
              (havoid c (List.mem_cons_of_mem _ hcm))
            intro he
            rw [he] at hcm
            exact hcurne hcm
          have hchainE : ∀ c ∈ chain,
              (listInsert a st.explored).contains c = true :=
            chain_contains_insert hch.ne_nil hch.getLast hcsub
          have hterm : ∀ (loc : Coord) (L1 : Links) (V1 : VisState)
              (F1 : List Frame),
              (∃ new : Links, L1 = new ++ st.links ∧
                ∀ e ∈ new, (listInsert a st.explored).contains e.1 = false) →
              (listInsert a st.explored).contains loc = false →
              g.is_traversable loc = true →
              dlsVisit g l tag fuel loc (rd - 1)
                ⟨(loc, some a) :: L1, listInsert a st.explored, V1, F1⟩ ≠
                  none := by
            intro loc L1 V1 F1 hL1 hloc htrv
            obtain ⟨new, hln, hnew⟩ := hL1
            have hlocchain : loc ∉ chain := by
              intro hm
              rw [hchainE loc hm] at hloc
              cases hloc
            have hbase : Traces L1 g.start_pos a chain := by
              rw [hln]
              refine Traces.append_of_notMem hch ?_
              intro e he hmem
              have := hnew e he
              rw [hchainE e.1 hmem] at this
              cases this
            have hlocne : loc ≠ g.start_pos := fun he =>
              hlocchain (he ▸ hbase.origin_mem)
            have hchain1 : Traces ((loc, some a) :: L1) g.start_pos loc
                (chain ++ [loc]) := by
              refine Traces.step loc a chain hlocne ?_
                (hbase.cons_of_notMem hlocchain)
              simp [List.lookup]
            refine dlsVisit_ne_none g l tag fuel loc (rd - 1)
              ⟨(loc, some a) :: L1, listInsert a st.explored, V1, F1⟩
              (chain ++ [loc]) (by omega) hchain1 ?_ ?_
            · dsimp only
              have hll : L1.length = new.length + st.links.length := by
                rw [hln]
                simp
              have h1 : (chain ++ [loc]).length = chain.length + 1 := by simp
              have h2 : (((loc, some a) :: L1 : Links)).length =
                  L1.length + 1 := by simp
              omega
            · intro c hcm
              rw [List.dropLast_concat] at hcm
              exact hchainE c hcm
          have hsucc : ∀ (L1 : Links) (V1 : VisState) (F1 : List Frame),
              (∃ new : Links, L1 = new ++ st.links ∧
                ∀ e ∈ new, (listInsert a st.explored).contains e.1 = false) →
              ∃ route st2, dlsVisit g l tag fuel v1 (rd - 1)
                ⟨(v1, some a) :: L1, listInsert a st.explored, V1, F1⟩ =
                  some (some route, st2) ∧ route ≠ [] := by
            intro L1 V1 F1 hL1
            obtain ⟨new, hln, hnew⟩ := hL1
            have hlocchain : v1 ∉ chain := by
              intro hm
              rw [hchainE v1 hm] at hv1E
              cases hv1E
            have hbase : Traces L1 g.start_pos a chain := by
              rw [hln]
              refine Traces.append_of_notMem hch ?_
              intro e he hmem
              have := hnew e he
              rw [hchainE e.1 hmem] at this
              cases this
            have hlocne : v1 ≠ g.start_pos := fun he =>
              hlocchain (he ▸ hbase.origin_mem)
            have hchain1 : Traces ((v1, some a) :: L1) g.start_pos v1
                (chain ++ [v1]) := by
              refine Traces.step v1 a chain hlocne ?_
                (hbase.cons_of_notMem hlocchain)
              simp [List.lookup]
            refine ih v1 (rd - 1)
              ⟨(v1, some a) :: L1, listInsert a st.explored, V1, F1⟩
              (chain ++ [v1]) (v1 :: rest2) (by omega) hchain1 ?_ ?_
              rfl ?_ hchain2
              (fun c hc => htrav c (List.mem_cons_of_mem _ hc)) hnodup2
              havoid2 ?_
            · dsimp only
              have hll : L1.length = new.length + st.links.length := by
                rw [hln]
                simp
              have h1 : (chain ++ [v1]).length = chain.length + 1 := by simp
              have h2 : (((v1, some a) :: L1 : Links)).length =
                  L1.length + 1 := by simp
              omega
            · intro c hcm
              rw [List.dropLast_concat] at hcm
              exact hchainE c hcm
            · rwa [List.getLast?_cons_cons] at hlast
            · simp only [List.length_cons]
              push_cast
              omega
          obtain ⟨route, stA, hdc, hrne⟩ := dlsChildren_complete g
            (fun loc st1 => dlsVisit g l tag fuel loc (rd - 1) st1) a v1
            st.links (listInsert a st.explored)
            (fun loc st1 res st2 hl hv =>
              dlsVisit_links_explored g l tag fuel loc (rd - 1) st1 res st2
                hl hv)
            hterm hsucc hv1E (htrav v1 (by simp))
            (fetch_adjacent_nodes a g.rows g.cols)
            ⟨st.links, listInsert a st.explored,
             dlsMarkFrontier g (listInsert a st.explored)
               (fetch_adjacent_nodes a g.rows g.cols)
               ⟨if st.vis.front_nodes.contains a then
                  st.vis.front_nodes.erase a else st.vis.front_nodes,
                listInsert a st.vis.history, some a, st.vis.trajectory⟩,
             refresh_view l tag ""
               ⟨if st.vis.front_nodes.contains a then
                  st.vis.front_nodes.erase a else st.vis.front_nodes,
                listInsert a st.vis.history, some a, st.vis.trajectory⟩
               st.frames⟩
            hadj rfl ⟨[], by simp, by simp⟩
          rw [hdc]
          rcases route with - | ⟨c, cs⟩
          · exact absurd rfl hrne
          · exact ⟨c :: cs, stA, rfl, by simp⟩

theorem exists_nodup_path (g : NavigationGrid) :
    ∀ (n : ℕ) (p : List Coord) (a b : Coord), p.length ≤ n →
      p.head? = some a → p.getLast? = some b →
      List.Chain' (Adjacent g) p →
      (∀ c ∈ p, g.is_traversable c = true) →
      ∃ q : List Coord, q.head? = some a ∧ q.getLast? = some b ∧
        List.Chain' (Adjacent g) q ∧
        (∀ c ∈ q, g.is_traversable c = true) ∧ q.Nodup ∧
        (∀ x ∈ q, x ∈ p) ∧ q.length ≤ p.length := by
  intro n
  induction n with
  | zero =>
    intro p a b hn hhead hlast hchain htrav
    rcases p with - | ⟨c, rest⟩
    · cases hhead
    · simp at hn
  | succ n ih =>
    intro p a b hn hhead hlast hchain htrav
    rcases p with - | ⟨c, rest⟩
    · cases hhead
    · have hac : c = a := by simpa using hhead
      subst hac
      by_cases hmem : c ∈ rest
      · obtain ⟨s, t, hst⟩ := List.append_of_mem hmem
        subst hst
        have hsplit : c :: (s ++ c :: t) = (c :: s) ++ (c :: t) := by simp
        have hlenct : (c :: t).length ≤ n := by
          simp only [List.length_cons, List.length_append] at hn ⊢
          omega
        have hlast' : (c :: t).getLast? = some b := by
          rw [hsplit] at hlast
          rwa [List.getLast?_append_cons] at hlast
        have hchain2 : List.Chain' (Adjacent g) (c :: t) := by
          rw [hsplit] at hchain
          exact hchain.right_of_append
        have htrav' : ∀ x ∈ c :: t, g.is_traversable x = true := by
          intro x hx
          refine htrav x ?_
          rcases List.mem_cons.mp hx with h1 | h1
          · rw [h1]
            exact List.mem_cons_self _ _
          · exact List.mem_cons_of_mem _ (by simp [h1])
        obtain ⟨q, hq1, hq2, hq3, hq4, hq5, hq6, hq7⟩ :=
          ih (c :: t) c b hlenct rfl hlast' hchain2 htrav'
        refine ⟨q, hq1, hq2, hq3, hq4, hq5, ?_, ?_⟩
        · intro x hx
          rcases List.mem_cons.mp (hq6 x hx) with h1 | h1
          · rw [h1]
            exact List.mem_cons_self _ _
          · exact List.mem_cons_of_mem _ (by simp [h1])
        · simp only [List.length_cons, List.length_append] at hq7 ⊢
          omega
      · rcases rest with - | ⟨d, rest'⟩
        · exact ⟨[c], rfl, hlast, List.chain'_singleton _, htrav, by simp,
            by simp, le_rfl⟩
        · have hlenr : (d :: rest').length ≤ n := by
            simp only [List.length_cons] at hn ⊢
            omega
          have hlastr : (d :: rest').getLast? = some b := by
            rwa [List.getLast?_cons_cons] at hlast
          have hchr : List.Chain' (Adjacent g) (d :: rest') :=
            (List.chain'_cons.mp hchain).2
          have hRcd : Adjacent g c d := (List.chain'_cons.mp hchain).1
          obtain ⟨q, hq1, hq2, hq3, hq4, hq5, hq6, hq7⟩ :=
            ih (d :: rest') d b hlenr rfl hlastr hchr
              (fun x hx => htrav x (List.mem_cons_of_mem _ hx))
          refine ⟨c :: q, rfl, ?_, ?_, ?_, ?_, ?_, ?_⟩
          · rcases q with - | ⟨q0, qrest⟩
            · cases hq1
            · rw [List.getLast?_cons_cons]
              exact hq2
          · refine List.chain'_cons'.mpr ⟨?_, hq3⟩
            intro y hy
            rw [hq1] at hy
            have hyd : d = y := by simpa using hy
            rw [← hyd]
            exact hRcd
          · intro x hx
            rcases List.mem_cons.mp hx with h1 | h1
            · rw [h1]
              exact htrav c (List.mem_cons_self _ _)
            · exact htrav x (List.mem_cons_of_mem _ (hq6 x h1))
          · rw [List.nodup_cons]
            exact ⟨fun hxc => hmem (hq6 c hxc), hq5⟩
          · intro x hx
            rcases List.mem_cons.mp hx with h1 | h1
            · rw [h1]
              exact List.mem_cons_self _ _
            · exact List.mem_cons_of_mem _ (hq6 x h1)
          · simp only [List.length_cons] at hq7 ⊢
            omega

theorem iddfsGo_complete (g : NavigationGrid) (l : ℚ) (q : List Coord)
    (hq1 : q.head? = some g.start_pos) (hq2 : q.getLast? = some g.goal_pos)
    (hq3 : List.Chain' (Adjacent g) q)
    (hq4 : ∀ c ∈ q, g.is_traversable c = true) (hq5 : q.Nodup) :
    ∀ (cms : List ℤ) (fr : List Frame),
      (∃ cm ∈ cms, (q.length : ℤ) ≤ cm + 1) →
      ∃ route fr2, iddfsGo g l cms fr = some (some route, fr2) := by
  intro cms
  induction cms with
  | nil =>
    intro fr hw
    obtain ⟨cm, hcm, -⟩ := hw
    exact absurd hcm (List.not_mem_nil cm)
  | cons cm rest ih =>
    intro fr hw
    simp only [iddfsGo]
    rcases hv : dlsVisit g l "IDDFS Search" (cm.toNat + 1) g.start_pos cm
        ⟨[(g.start_pos, none)], [], clearRenderState, fr⟩ with - | ⟨out, st2⟩
    · exact absurd hv (dlsVisit_ne_none g l "IDDFS Search" (cm.toNat + 1)
        g.start_pos cm ⟨[(g.start_pos, none)], [], clearRenderState, fr⟩
        [g.start_pos] (by omega) Traces.base (by simp) (by simp))
    · simp only [hv]
      by_cases ht : optListTruthy out = true
      · rw [if_pos ht]
        rcases out with - | r
        · cases ht
        · rcases r with - | ⟨c, cs⟩
          · cases ht
          · exact ⟨c :: cs, st2.frames, rfl⟩
      · rw [if_neg ht]
        refine ih st2.frames ?_
        obtain ⟨cmw, hcmw, hbound⟩ := hw
        rcases List.mem_cons.mp hcmw with h1 | h1
        · exfalso
          obtain ⟨route, stB, hveq, hrne⟩ := dlsVisit_complete g l
            "IDDFS Search" (cm.toNat + 1) g.start_pos cm
            ⟨[(g.start_pos, none)], [], clearRenderState, fr⟩
            [g.start_pos] q (by omega) Traces.base (by simp) (by simp)
            hq1 hq2 hq3 hq4 hq5 (by simp) (by rw [← h1]; exact hbound)
          rw [hveq] at hv
          obtain ⟨hout, -⟩ : (some route = out ∧ stB = st2) := by
            simpa using hv
          rcases route with - | ⟨c, cs⟩
          · exact hrne rfl
          · rw [← hout] at ht
            exact ht rfl
        · exact ⟨cmw, h1, hbound⟩

theorem run_iddfs_complete (g : NavigationGrid) (lim : ℤ) (l : ℚ)
    (p : List Coord) (hp : ValidPath g p) (hlen : (p.length : ℤ) ≤ lim + 1) :
    ∃ route, pathOf (run_iddfs g lim l) = some (some route) := by
  obtain ⟨hne, hhead, hlast, htravp, hchainp⟩ := hp
  obtain ⟨q, hq1, hq2, hq3, hq4, hq5, -, hq7⟩ :=
    exists_nodup_path g p.length p g.start_pos g.goal_pos le_rfl hhead
      hlast hchainp htravp
  have hqlen : (q.length : ℤ) ≤ lim + 1 := by
    have : (q.length : ℤ) ≤ p.length := by exact_mod_cast hq7
    omega
  have hlim0 : 0 ≤ lim := by
    have : 1 ≤ q.length := by
      rcases q with - | ⟨c, cs⟩
      · cases hq1
      · simp
    omega
  have hwit : ∃ cm ∈ (List.range (lim + 1).toNat).map Int.ofNat,
      (q.length : ℤ) ≤ cm + 1 := by
    refine ⟨lim, ?_, hqlen⟩
    rw [List.mem_map]
    refine ⟨lim.toNat, ?_, ?_⟩
    · rw [List.mem_range]
      omega
    · exact Int.toNat_of_nonneg hlim0
  obtain ⟨route, fr2, hgo⟩ := iddfsGo_complete g l q hq1 hq2 hq3 hq4 hq5
    ((List.range (lim + 1).toNat).map Int.ofNat) [] hwit
  rw [run_iddfs, pathOf, hgo]
  exact ⟨route, rfl⟩

def allCells (g : NavigationGrid) : List Coord :=
  (List.range g.rows.toNat).flatMap fun r =>
    (List.range g.cols.toNat).map fun c => (Int.ofNat r, Int.ofNat c)

theorem mem_allCells {g : NavigationGrid} {c : Coord}
    (h : g.is_traversable c = true) : c ∈ allCells g := by
  rw [NavigationGrid.is_traversable, Bool.and_eq_true] at h
  have hb := h.1
  rw [decide_eq_true_eq] at hb
  obtain ⟨h1, h2, h3, h4⟩ := hb
  rw [allCells]
  simp only [List.mem_flatMap, List.mem_map, List.mem_range]
  refine ⟨c.1.toNat, by omega, c.2.toNat, by omega, ?_⟩
  have e1 : Int.ofNat c.1.toNat = c.1 := Int.toNat_of_nonneg h1
  have e2 : Int.ofNat c.2.toNat = c.2 := Int.toNat_of_nonneg h3
  rw [e1, e2]

theorem countP_lt_of_flip {l : List Coord} {p q : Coord → Bool} {x : Coord}
    (hx : x ∈ l) (hpx : p x = true) (hqx : q x = false)
    (himp : ∀ c, q c = true → p c = true) :
    l.countP q < l.countP p := by
  induction l with
  | nil => cases hx
  | cons a as ih =>
    rw [List.countP_cons, List.countP_cons]
    have hmono : as.countP q ≤ as.countP p :=
      List.countP_mono_left (fun c _ hq => himp c hq)
    rcases List.mem_cons.mp hx with h1 | h1
    · rw [← h1, hpx, hqx]
      simp
      omega
    · have hlt := ih h1
      cases hqa : q a
      · cases hpa : p a <;> simp <;> omega
      · rw [himp a hqa]
        simp
        omega

/-- A cell all of whose traversable neighbors are already discovered. -/
def bfsClosed (g : NavigationGrid) (seen : List Coord) (c : Coord) : Prop :=
  ∀ nb ∈ fetch_adjacent_nodes c g.rows g.cols,
    g.is_traversable nb = true → seen.contains nb = true

/-- Number of traversable cells not yet discovered. -/
def bfsUnseenCount (g : NavigationGrid) (seen : List Coord) : ℕ :=
  (allCells g).countP fun c => g.is_traversable c && !(seen.contains c)

theorem contains_listInsert_cases {x c : Coord} {s : List Coord}
    (h : (listInsert x s).contains c = true) :
    s.contains c = true ∨ c = x := by
  rw [listInsert] at h
  by_cases hx : s.contains x = true
  · rw [if_pos hx] at h
    exact Or.inl h
  · rw [if_neg hx] at h
    rw [List.contains_cons, Bool.or_eq_true] at h
    rcases h with h1 | h1
    · exact Or.inr (by simpa using h1)
    · exact Or.inl h1

theorem bfsScan_seen_mono (g : NavigationGrid) (pos : Coord)
    (node : SearchNode) : ∀ (nbs : List Coord) (st : BfsState) (c : Coord),
    st.seen_coords.contains c = true →
    (bfsScan g pos node nbs st).seen_coords.contains c = true := by
  intro nbs
  induction nbs with
  | nil => intro st c hc; exact hc
  | cons nb rest ih =>
    intro st c hc
    rw [bfsScan]
    by_cases hcnd : (!(st.seen_coords.contains nb) && g.is_traversable nb) =
        true
    · rw [if_pos hcnd]
      exact ih _ c (contains_listInsert_mono hc nb)
    · rw [if_neg hcnd]
      exact ih st c hc

theorem bfsScan_queue_mono (g : NavigationGrid) (pos : Coord)
    (node : SearchNode) : ∀ (nbs : List Coord) (st : BfsState)
    (n : SearchNode), n ∈ st.work_queue →
    n ∈ (bfsScan g pos node nbs st).work_queue := by
  intro nbs
  induction nbs with
  | nil => intro st n hn; exact hn
  | cons nb rest ih =>
    intro st n hn
    rw [bfsScan]
    by_cases hcnd : (!(st.seen_coords.contains nb) && g.is_traversable nb) =
        true
    · rw [if_pos hcnd]
      exact ih _ n (by simp only [List.mem_append]; exact Or.inl hn)
    · rw [if_neg hcnd]
      exact ih st n hn

theorem bfsScan_seen_src (g : NavigationGrid) (pos : Coord)
    (node : SearchNode) : ∀ (nbs : List Coord) (st : BfsState) (c : Coord),
    (bfsScan g pos node nbs st).seen_coords.contains c = true →
    st.seen_coords.contains c = true ∨
      ∃ n ∈ (bfsScan g pos node nbs st).work_queue, n.coord = c := by
  intro nbs
  induction nbs with
  | nil => intro st c hc; exact Or.inl hc
  | cons nb rest ih =>
    intro st c hc
    rw [bfsScan] at hc
    by_cases hcnd : (!(st.seen_coords.contains nb) && g.is_traversable nb) =
        true
    · rw [if_pos hcnd] at hc
      rcases ih _ c hc with h1 | h1
      · rcases contains_listInsert_cases h1 with h2 | h2
        · exact Or.inl h2
        · refine Or.inr ⟨SearchNode.new nb (some node) 0, ?_, by rw [h2]; rfl⟩
          rw [bfsScan, if_pos hcnd]
          exact bfsScan_queue_mono g pos node rest _ _
            (by simp only [List.mem_append]; exact Or.inr (by simp))
      · refine Or.inr ?_
        rw [bfsScan, if_pos hcnd]
        exact h1
    · rw [if_neg hcnd] at hc
      rcases ih st c hc with h1 | h1
      · exact Or.inl h1
      · refine Or.inr ?_
        rw [bfsScan, if_neg hcnd]
        exact h1

theorem bfsScan_scanned_seen (g : NavigationGrid) (pos : Coord)
    (node : SearchNode) : ∀ (nbs : List Coord) (st : BfsState) (nb : Coord),
    nb ∈ nbs → g.is_traversable nb = true →
    (bfsScan g pos node nbs st).seen_coords.contains nb = true := by
  intro nbs
  induction nbs with
  | nil => intro st nb hnb; exact absurd hnb (List.not_mem_nil nb)
  | cons a rest ih =>
    intro st nb hnb htv
    rcases List.mem_cons.mp hnb with h1 | h1
    · rw [bfsScan]
      by_cases hcnd : (!(st.seen_coords.contains a) && g.is_traversable a) =
          true
      · rw [if_pos hcnd]
        refine bfsScan_seen_mono g pos node rest _ nb ?_
        rw [h1]
        exact contains_listInsert_self a st.seen_coords
      · rw [if_neg hcnd]
        have hseen : st.seen_coords.contains a = true := by
          by_contra hcon
          apply hcnd
          rw [Bool.not_eq_true] at hcon
          rw [Bool.and_eq_true]
          exact ⟨by rw [hcon]; rfl, by rw [← h1]; exact htv⟩
        refine bfsScan_seen_mono g pos node rest st nb ?_
        rw [h1]
        exact hseen
    · rw [bfsScan]
      by_cases hcnd : (!(st.seen_coords.contains a) && g.is_traversable a) =
          true
      · rw [if_pos hcnd]
        exact ih _ nb h1 htv
      · rw [if_neg hcnd]
        exact ih st nb h1 htv

theorem bfsScan_queue_coords (g : NavigationGrid) (pos : Coord)
    (node : SearchNode) : ∀ (nbs : List Coord) (st : BfsState),
    (∀ n ∈ st.work_queue, st.seen_coords.contains n.coord = true) →
    ∀ n ∈ (bfsScan g pos node nbs st).work_queue,
      (bfsScan g pos node nbs st).seen_coords.contains n.coord = true := by
  intro nbs
  induction nbs with
  | nil => intro st hq; exact hq
  | cons nb rest ih =>
    intro st hq
    rw [bfsScan]
    by_cases hcnd : (!(st.seen_coords.contains nb) && g.is_traversable nb) =
        true
    · rw [if_pos hcnd]
      refine ih _ ?_
      intro n hn
      simp only at hn ⊢
      rcases List.mem_append.mp hn with h1 | h1
      · exact contains_listInsert_mono (hq n h1) nb
      · have hnn : n = SearchNode.new nb (some node) 0 := by simpa using h1
        rw [hnn]
        exact contains_listInsert_self nb st.seen_coords
    · rw [if_neg hcnd]
      exact ih st hq

theorem bfsScan_traces (g : NavigationGrid) (pos : Coord)
    (node : SearchNode) : ∀ (nbs : List Coord) (st : BfsState),
    st.seen_coords.contains pos = true →
    st.seen_coords.contains g.start_pos = true →
    (∀ c, st.seen_coords.contains c = true →
      ∃ p, Traces st.path_tracker g.start_pos c p ∧
        p.length ≤ st.path_tracker.length + 1 ∧
        ∀ x ∈ p, st.seen_coords.contains x = true) →
    ∀ c, (bfsScan g pos node nbs st).seen_coords.contains c = true →
      ∃ p, Traces (bfsScan g pos node nbs st).path_tracker g.start_pos c p ∧
        p.length ≤ (bfsScan g pos node nbs st).path_tracker.length + 1 ∧
        ∀ x ∈ p, (bfsScan g pos node nbs st).seen_coords.contains x =
          true := by
  intro nbs
  induction nbs with
  | nil => intro st hpos hstart htr; exact htr
  | cons nb rest ih =>
    intro st hpos hstart htr
    rw [bfsScan]
    by_cases hcnd : (!(st.seen_coords.contains nb) && g.is_traversable nb) =
        true
    · rw [if_pos hcnd]
      have hnb : st.seen_coords.contains nb = false := by
        rw [Bool.and_eq_true] at hcnd
        have := hcnd.1
        rwa [Bool.not_eq_true'] at this
      refine ih _ (contains_listInsert_mono hpos nb)
        (contains_listInsert_mono hstart nb) ?_
      intro c hc
      simp only at hc ⊢
      rcases contains_listInsert_cases hc with h1 | h1
      · obtain ⟨p, hp, hpl, hps⟩ := htr c h1
        have hnbp : nb ∉ p := by
          intro hm
          rw [hps nb hm] at hnb
          cases hnb
        refine ⟨p, hp.cons_of_notMem hnbp, ?_, ?_⟩
        · simp only [List.length_cons]
          omega
        · intro x hx
          exact contains_listInsert_mono (hps x hx) nb
      · subst h1
        obtain ⟨p, hp, hpl, hps⟩ := htr pos hpos
        have hnbp : c ∉ p := by
          intro hm
          rw [hps c hm] at hnb
          cases hnb
        have hcne : c ≠ g.start_pos := by
          intro he
          rw [he, hstart] at hnb
          cases hnb
        refine ⟨p ++ [c], ?_, ?_, ?_⟩
        · refine Traces.step c pos p hcne ?_ (hp.cons_of_notMem hnbp)
          simp [List.lookup]
        · have h2 : (p ++ [c]).length = p.length + 1 := by simp
          simp only [List.length_cons]
          omega
        · intro x hx
          rcases List.mem_append.mp hx with h2 | h2
          · exact contains_listInsert_mono (hps x h2) c
          · have : x = c := by simpa using h2
            rw [this]
            exact contains_listInsert_self c st.seen_coords
    · rw [if_neg hcnd]
      exact ih st hpos hstart htr

theorem bfsScan_measure (g : NavigationGrid) (pos : Coord)
    (node : SearchNode) : ∀ (nbs : List Coord) (st : BfsState),
    (bfsScan g pos node nbs st).work_queue.length +
      bfsUnseenCount g (bfsScan g pos node nbs st).seen_coords ≤
    st.work_queue.length + bfsUnseenCount g st.seen_coords := by
  intro nbs
  induction nbs with
  | nil => intro st; exact le_rfl
  | cons nb rest ih =>
    intro st
    rw [bfsScan]
    by_cases hcnd : (!(st.seen_coords.contains nb) && g.is_traversable nb) =
        true
    · rw [if_pos hcnd]
      have hnb : st.seen_coords.contains nb = false := by
        rw [Bool.and_eq_true] at hcnd
        have := hcnd.1
        rwa [Bool.not_eq_true'] at this
      have htv : g.is_traversable nb = true := by
        rw [Bool.and_eq_true] at hcnd
        exact hcnd.2
      have hcount : bfsUnseenCount g (listInsert nb st.seen_coords) <
          bfsUnseenCount g st.seen_coords := by
        refine countP_lt_of_flip (mem_allCells htv) ?_ ?_ ?_
        · rw [htv, hnb]
          rfl
        · rw [contains_listInsert_self nb st.seen_coords]
          simp
        · intro c hqc
          rw [Bool.and_eq_true] at hqc ⊢
          refine ⟨hqc.1, ?_⟩
          have := hqc.2
          rw [Bool.not_eq_true'] at this ⊢
          by_contra hcon
          rw [Bool.not_eq_false] at hcon
          rw [contains_listInsert_mono hcon nb] at this
          cases this
      have hstep := ih ⟨st.work_queue ++ [SearchNode.new nb (some node) 0],
        listInsert nb st.seen_coords, (nb, some pos) :: st.path_tracker,
        st.overwrote || (st.path_tracker.lookup nb).isSome,
        ⟨listInsert nb st.vis.front_nodes, st.vis.history,
         st.vis.active_node, st.vis.trajectory⟩, st.frames⟩
      simp only [List.length_append, List.length_singleton] at hstep
      omega
    · rw [if_neg hcnd]
      exact ih st

theorem bfsLoop_complete (g : NavigationGrid) (l : ℚ) (p0 : List Coord)
    (hvp : ValidPath g p0) :
    ∀ (fuel : ℕ) (st : BfsState),
      (∀ n ∈ st.work_queue, st.seen_coords.contains n.coord = true) →
      st.seen_coords.contains g.start_pos = true →
      (∀ c, st.seen_coords.contains c = true →
        (∃ n ∈ st.work_queue, n.coord = c) ∨ bfsClosed g st.seen_coords c) →
      (st.seen_coords.contains g.goal_pos = true →
        ∃ n ∈ st.work_queue, n.coord = g.goal_pos) →
      (∀ c, st.seen_coords.contains c = true →
        ∃ p, Traces st.path_tracker g.start_pos c p ∧
          p.length ≤ st.path_tracker.length + 1 ∧
          ∀ x ∈ p, st.seen_coords.contains x = true) →
      st.work_queue.length + bfsUnseenCount g st.seen_coords < fuel →
      ∃ route st2, bfsLoop g l fuel st = some (some route, st2) := by
  intro fuel
  induction fuel with
  | zero =>
    intro st hq hstart hcls hgl htr hm
    exact absurd hm (Nat.not_lt_zero _)
  | succ fuel ih =>
    intro st hq hstart hcls hgl htr hm
    rcases hqe : st.work_queue with - | ⟨node, rest⟩
    · exfalso
      have hclosed : ∀ c, st.seen_coords.contains c = true →
          bfsClosed g st.seen_coords c := by
        intro c hc
        rcases hcls c hc with ⟨n, hn, -⟩ | h2
        · rw [hqe] at hn
          exact absurd hn (List.not_mem_nil n)
        · exact h2
      obtain ⟨hne, hhead, hlast, htravp, hchainp⟩ := hvp
      have haux : ∀ (pa : List Coord) (x : Coord), pa.head? = some x →
          st.seen_coords.contains x = true → List.Chain' (Adjacent g) pa →
          (∀ c ∈ pa, g.is_traversable c = true) →
          ∀ y, pa.getLast? = some y →
            st.seen_coords.contains y = true := by
        intro pa
        induction pa with
        | nil => intro x hx; cases hx
        | cons a as ihp =>
          intro x hhx hcx hch htv y hy
          have hax : a = x := by simpa using hhx
          subst hax
          rcases as with - | ⟨b, as'⟩
          · have hay : a = y := by simpa using hy
            rwa [← hay]
          · have hab : Adjacent g a b := (List.chain'_cons.mp hch).1
            have hchb : List.Chain' (Adjacent g) (b :: as') :=
              (List.chain'_cons.mp hch).2
            have hbseen : st.seen_coords.contains b = true :=
              hclosed a hcx b hab (htv b (by simp))
            refine ihp b rfl hbseen hchb
              (fun c hc => htv c (List.mem_cons_of_mem _ hc)) y ?_
            rwa [List.getLast?_cons_cons] at hy
      have hgoalseen := haux p0 g.start_pos hhead hstart hchainp htravp
        g.goal_pos hlast
      obtain ⟨n, hn, -⟩ := hgl hgoalseen
      rw [hqe] at hn
      exact absurd hn (List.not_mem_nil n)
    · simp only [bfsLoop, hqe]
      by_cases hg : node.coord = g.goal_pos
      · rw [if_pos hg]
        have hnposseen : st.seen_coords.contains node.coord = true :=
          hq node (by rw [hqe]; exact List.mem_cons_self _ _)
        obtain ⟨pp, hpp, hpl, -⟩ := htr node.coord hnposseen
        rw [hg] at hpp
        have htrace := trace_back_path_of_traces hpp
          (st.path_tracker.length + 1) (by omega)
        rw [htrace]
        exact ⟨pp, _, rfl⟩
      · rw [if_neg hg]
        have hnposseen : st.seen_coords.contains node.coord = true :=
          hq node (by rw [hqe]; exact List.mem_cons_self _ _)
        refine ih _ ?_ ?_ ?_ ?_ ?_ ?_
        · refine bfsScan_queue_coords g node.coord node _ _ ?_
          intro n hn
          exact hq n (by rw [hqe]; exact List.mem_cons_of_mem _ hn)
        · exact bfsScan_seen_mono g node.coord node _ _ _ hstart
        · intro c hc
          rcases bfsScan_seen_src g node.coord node _ _ c hc with hold | hnew
          · rcases hcls c hold with ⟨n, hn, hcoord⟩ | hclosed
            · rw [hqe] at hn
              rcases List.mem_cons.mp hn with h1 | h1
              · refine Or.inr ?_
                intro nb hnbmem hnbtrav
                refine bfsScan_scanned_seen g node.coord node _ _ nb ?_
                  hnbtrav
                rw [h1] at hcoord
                rwa [← hcoord] at hnbmem
              · refine Or.inl ⟨n, ?_, hcoord⟩
                exact bfsScan_queue_mono g node.coord node _ _ n h1
            · refine Or.inr ?_
              intro nb hnbmem hnbtrav
              exact bfsScan_seen_mono g node.coord node _ _ nb
                (hclosed nb hnbmem hnbtrav)
          · exact Or.inl hnew
        · intro hgseen
          rcases bfsScan_seen_src g node.coord node _ _ g.goal_pos hgseen
            with hold | hnew
          · obtain ⟨n, hn, hcoord⟩ := hgl hold
            rw [hqe] at hn
            rcases List.mem_cons.mp hn with h1 | h1
            · rw [h1] at hcoord
              exact absurd hcoord hg
            · exact ⟨n, bfsScan_queue_mono g node.coord node _ _ n h1,
                hcoord⟩
          · exact hnew
        · exact bfsScan_traces g node.coord node _ _ hnposseen hstart htr
        · have hms := bfsScan_measure g node.coord node
            (fetch_adjacent_nodes node.coord g.rows g.cols)
            ⟨rest, st.seen_coords, st.path_tracker, st.overwrote,
             ⟨if st.vis.front_nodes.contains node.coord then
                st.vis.front_nodes.erase node.coord
              else st.vis.front_nodes,
              listInsert node.coord st.vis.history, some node.coord,
              st.vis.trajectory⟩,
             refresh_view l "BFS Algorithm" ""
               ⟨if st.vis.front_nodes.contains node.coord then
                  st.vis.front_nodes.erase node.coord
                else st.vis.front_nodes,
                listInsert node.coord st.vis.history, some node.coord,
                st.vis.trajectory⟩ st.frames⟩
          simp only at hms
          rw [hqe] at hm
          simp only [List.length_cons] at hm
          omega

theorem length_flatMap_const {α β : Type} (f : α → List β) (k : ℕ)
    (l : List α) (hf : ∀ a ∈ l, (f a).length = k) :
    (l.flatMap f).length = l.length * k := by
  induction l with
  | nil => simp
  | cons x xs ih =>
    rw [List.flatMap_cons, List.length_append, hf x (List.mem_cons_self _ _),
      ih (fun a ha => hf a (List.mem_cons_of_mem _ ha))]
    simp only [List.length_cons]
    ring

theorem allCells_length (g : NavigationGrid) :
    (allCells g).length = g.rows.toNat * g.cols.toNat := by
  have h := length_flatMap_const
    (fun r : ℕ => (List.range g.cols.toNat).map
      fun c => (Int.ofNat r, Int.ofNat c))
    g.cols.toNat (List.range g.rows.toNat) (by intro a ha; simp)
  rw [allCells, h, List.length_range]

theorem bfsUnseenCount_le (g : NavigationGrid) (seen : List Coord) :
    bfsUnseenCount g seen ≤ (g.rows * g.cols).toNat := by
  have h1 : bfsUnseenCount g seen ≤ (allCells g).length := by
    rw [bfsUnseenCount]
    exact List.countP_le_length _
  rw [allCells_length] at h1
  by_cases hr : 0 ≤ g.rows
  · by_cases hc : 0 ≤ g.cols
    · have h2 : g.rows * g.cols = ((g.rows.toNat * g.cols.toNat : ℕ) : ℤ) := by
        push_cast
        rw [Int.toNat_of_nonneg hr, Int.toNat_of_nonneg hc]
      rw [h2, Int.toNat_natCast]
      exact h1
    · have hcz : g.cols.toNat = 0 := by omega
      rw [hcz, Nat.mul_zero] at h1
      omega
  · have hrz : g.rows.toNat = 0 := by omega
    rw [hrz, Nat.zero_mul] at h1
    omega

theorem run_bfs_complete (g : NavigationGrid) (l : ℚ) (p0 : List Coord)
    (hvp : ValidPath g p0) :
    ∃ route, pathOf (run_bfs g l) = some (some route) := by
  have hq : ∀ n ∈ (bfsInit g).work_queue,
      (bfsInit g).seen_coords.contains n.coord = true := by
    intro n hn
    have hn1 : n = SearchNode.new g.start_pos none 0 := by simpa [bfsInit] using hn
    rw [hn1]
    show ([g.start_pos].contains g.start_pos) = true
    simp
  have hstart : (bfsInit g).seen_coords.contains g.start_pos = true := by
    show ([g.start_pos].contains g.start_pos) = true
    simp
  have hcls : ∀ c, (bfsInit g).seen_coords.contains c = true →
      (∃ n ∈ (bfsInit g).work_queue, n.coord = c) ∨
        bfsClosed g (bfsInit g).seen_coords c := by
    intro c hc
    have hcs : c = g.start_pos := by
      have := (contains_true_iff [g.start_pos] c).mp hc
      simpa using this
    refine Or.inl ⟨SearchNode.new g.start_pos none 0, by simp [bfsInit], ?_⟩
    rw [hcs]
    rfl
  have hgl : (bfsInit g).seen_coords.contains g.goal_pos = true →
      ∃ n ∈ (bfsInit g).work_queue, n.coord = g.goal_pos := by
    intro hc
    have hcs : g.goal_pos = g.start_pos := by
      have := (contains_true_iff [g.start_pos] g.goal_pos).mp hc
      simpa using this
    refine ⟨SearchNode.new g.start_pos none 0, by simp [bfsInit], ?_⟩
    rw [hcs]
    rfl
  have htr : ∀ c, (bfsInit g).seen_coords.contains c = true →
      ∃ p, Traces (bfsInit g).path_tracker g.start_pos c p ∧
        p.length ≤ (bfsInit g).path_tracker.length + 1 ∧
        ∀ x ∈ p, (bfsInit g).seen_coords.contains x = true := by
    intro c hc
    have hcs : c = g.start_pos := by
      have := (contains_true_iff [g.start_pos] c).mp hc
      simpa using this
    rw [hcs]
    refine ⟨[g.start_pos], Traces.base, by simp, ?_⟩
    intro x hx
    have hxs : x = g.start_pos := by simpa using hx
    rw [hxs]
    show ([g.start_pos].contains g.start_pos) = true
    simp
  have hm : (bfsInit g).work_queue.length +
      bfsUnseenCount g (bfsInit g).seen_coords < bfsFuel g := by
    show 1 + bfsUnseenCount g [g.start_pos] < (g.rows * g.cols).toNat + 2
    have := bfsUnseenCount_le g [g.start_pos]
    omega
  obtain ⟨route, st2, hloop⟩ := bfsLoop_complete g l p0 hvp (bfsFuel g)
    (bfsInit g) hq hstart hcls hgl htr hm
  rw [run_bfs, pathOf, hloop]
  exact ⟨route, rfl⟩

theorem lookup_isSome_mem_keys {β : Type} {l : List (Coord × β)} {a : Coord}
    (h : (l.lookup a).isSome = true) : a ∈ l.map Prod.fst := by
  induction l with
  | nil => cases h
  | cons e rest ih =>
    rw [List.lookup] at h
    cases hbe : (a == e.1)
    · simp only [hbe] at h
      exact List.mem_cons_of_mem _ (ih h)
    · have hae : a = e.1 := by simpa using hbe
      rw [List.map_cons, hae]
      exact List.mem_cons_self _ _

theorem lookup_cons_ne {β : Type} {a k : Coord} {v : β} {l : List (Coord × β)}
    (h : a ≠ k) : ((k, v) :: l).lookup a = l.lookup a := by
  have hbe : (a == k) = false := by simpa using h
  simp [List.lookup, hbe]

theorem lookup_cons_self {β : Type} {k : Coord} {v : β}
    {l : List (Coord × β)} : ((k, v) :: l).lookup k = some v := by
  simp [List.lookup]

theorem mem_rest_of_perm {l rest : List HeapEntry} {m e : HeapEntry}
    (hperm : l.Perm (m :: rest)) (he : e ∈ l) (hne : e ≠ m) : e ∈ rest := by
  have hmem := hperm.mem_iff.mp he
  rcases List.mem_cons.mp hmem with h1 | h1
  · exact absurd h1 hne
  · exact h1

theorem compute_step_weight_ge_one (src dest : Coord) :
    1 ≤ compute_step_weight src dest := by
  rw [compute_step_weight]
  by_cases h : |src.1 - dest.1| = 1 ∧ |src.2 - dest.2| = 1
  · rw [if_pos h]
    rw [show Rat.divInt 1414 1000 = (1414 : ℚ) / 1000 from by
      rw [Rat.divInt_eq_div]; norm_num]
    norm_num
  · rw [if_neg h]

theorem fetchAdjacentAux_length_le (r c mr mc : ℤ) :
    ∀ offs : List (ℤ × ℤ),
      (fetchAdjacentAux r c mr mc offs).length ≤ offs.length := by
  intro offs
  induction offs with
  | nil => exact le_rfl
  | cons d rest ih =>
    rcases d with ⟨dr, dc⟩
    rw [fetchAdjacentAux]
    by_cases h : 0 ≤ r + dr ∧ r + dr < mr ∧ 0 ≤ c + dc ∧ c + dc < mc
    · rw [if_pos h]
      simp only [List.length_cons]
      omega
    · rw [if_neg h]
      simp only [List.length_cons]
      omega

theorem fetch_adjacent_length_le (pos : Coord) (mr mc : ℤ) :
    (fetch_adjacent_nodes pos mr mc).length ≤ 6 :=
  fetchAdjacentAux_length_le pos.1 pos.2 mr mc movementOffsets

theorem fetchAdjacentAux_ne_self (r c mr mc : ℤ) :
    ∀ offs : List (ℤ × ℤ), (∀ d ∈ offs, ¬(d.1 = 0 ∧ d.2 = 0)) →
      ∀ nb ∈ fetchAdjacentAux r c mr mc offs, nb ≠ (r, c) := by
  intro offs
  induction offs with
  | nil => intro hoffs nb hnb; exact absurd hnb (List.not_mem_nil nb)
  | cons d rest ih =>
    intro hoffs nb hnb
    rcases d with ⟨dr, dc⟩
    rw [fetchAdjacentAux] at hnb
    by_cases h : 0 ≤ r + dr ∧ r + dr < mr ∧ 0 ≤ c + dc ∧ c + dc < mc
    · rw [if_pos h] at hnb
      rcases List.mem_cons.mp hnb with h1 | h1
      · rw [h1]
        intro hecoord
        have h0 := hoffs (dr, dc) (List.mem_cons_self _ _)
        have hr : r + dr = r := congrArg Prod.fst hecoord
        have hc2 : c + dc = c := congrArg Prod.snd hecoord
        exact h0 ⟨by omega, by omega⟩
      · exact ih (fun d hd => hoffs d (List.mem_cons_of_mem _ hd)) nb h1
    · rw [if_neg h] at hnb
      exact ih (fun d hd => hoffs d (List.mem_cons_of_mem _ hd)) nb hnb

theorem fetch_adjacent_ne_self (pos : Coord) (mr mc : ℤ) :
    ∀ nb ∈ fetch_adjacent_nodes pos mr mc, nb ≠ pos := by
  intro nb hnb
  have h := fetchAdjacentAux_ne_self pos.1 pos.2 mr mc movementOffsets
    (by decide) nb hnb
  intro he
  rw [he] at h
  exact h rfl

/-- In a parent map whose links strictly decrease an associated cost by at
least 1 per step, every keyed cell is traced back to the start. -/
theorem tracker_chain_exists (tracker : Links) (acc : CostMap) (start : Coord)
    (hstep : ∀ c par, tracker.lookup c = some (some par) →
      ∃ vc vp, acc.lookup c = some vc ∧ acc.lookup par = some vp ∧
        vp + 1 ≤ vc)
    (hroot : ∀ c, (acc.lookup c).isSome = true → c ≠ start →
      ∃ par, tracker.lookup c = some (some par))
    (hpos : ∀ c v, acc.lookup c = some v → 0 ≤ v) :
    ∀ (n : ℕ) (c : Coord) (vc : ℚ), acc.lookup c = some vc → vc ≤ (n : ℚ) →
      ∃ p, Traces tracker start c p ∧ p.Nodup ∧
        (∀ x ∈ p, ∃ v, acc.lookup x = some v ∧ v ≤ vc) := by
  intro n
  induction n with
  | zero =>
    intro c vc hc hvc
    by_cases hcs : c = start
    · subst hcs
      exact ⟨[c], Traces.base, List.nodup_singleton c,
        fun x hx => by
          have hxc : x = c := by simpa using hx
          rw [hxc]
          exact ⟨vc, hc, le_rfl⟩⟩
    · obtain ⟨par, hpar⟩ := hroot c (by rw [hc]; rfl) hcs
      obtain ⟨vc', vp, hc', hp', hle⟩ := hstep c par hpar
      rw [hc] at hc'
      have hvv : vc = vc' := by
        have := Option.some.inj hc'
        exact this
      have hvp := hpos par vp hp'
      exfalso
      rw [hvv] at hvc
      push_cast at hvc
      linarith
  | succ n ih =>
    intro c vc hc hvc
    by_cases hcs : c = start
    · subst hcs
      exact ⟨[c], Traces.base, List.nodup_singleton c,
        fun x hx => by
          have hxc : x = c := by simpa using hx
          rw [hxc]
          exact ⟨vc, hc, le_rfl⟩⟩
    · obtain ⟨par, hpar⟩ := hroot c (by rw [hc]; rfl) hcs
      obtain ⟨vc', vp, hc', hp', hle⟩ := hstep c par hpar
      rw [hc] at hc'
      have hvv : vc = vc' := Option.some.inj hc'
      rw [← hvv] at hle
      obtain ⟨p, hp, hnd, hbound⟩ := ih par vp hp' (by
        push_cast at hvc ⊢
        linarith)
      have hcnotin : c ∉ p := by
        intro hm
        obtain ⟨v, hv, hvle⟩ := hbound c hm
        rw [hc] at hv
        have : vc = v := Option.some.inj hv
        rw [← this] at hvle
        linarith
      refine ⟨p ++ [c], Traces.step c par p hcs hpar hp, ?_, ?_⟩
      · rw [List.nodup_append]
        exact ⟨hnd, List.nodup_singleton c,
          fun x hx hxc => hcnotin (by
            have : x = c := by simpa using hxc
            rw [← this]
            exact hx)⟩
      · intro x hx
        rcases List.mem_append.mp hx with h1 | h1
        · obtain ⟨v, hv, hvle⟩ := hbound x h1
          exact ⟨v, hv, by linarith⟩
        · have hxc : x = c := by simpa using h1
          rw [hxc]
          exact ⟨vc, hc, le_rfl⟩

/-- The parts of the UCS loop invariant that `ucsScan` preserves
unconditionally. -/
structure UcsBase (g : NavigationGrid) (st : UcsState) : Prop where
  entry_ok : ∀ e ∈ st.priority_heap._data,
    (e.2.2.coord = g.start_pos ∨ g.is_traversable e.2.2.coord = true) ∧
      (st.accumulated_costs.lookup e.2.2.coord).isSome = true
  key_live : ∀ c, (st.accumulated_costs.lookup c).isSome = true →
    st.permanent_set.contains c = true ∨
      ∃ e ∈ st.priority_heap._data, e.2.2.coord = c
  acc_nonneg : ∀ c v, st.accumulated_costs.lookup c = some v → 0 ≤ v
  start_key : (st.accumulated_costs.lookup g.start_pos).isSome = true
  parent_step : ∀ c par, st.path_tracker.lookup c = some (some par) →
    ∃ vc vp, st.accumulated_costs.lookup c = some vc ∧
      st.accumulated_costs.lookup par = some vp ∧ vp + 1 ≤ vc
  nonstart_parent : ∀ c, (st.accumulated_costs.lookup c).isSome = true →
    c ≠ g.start_pos → ∃ par, st.path_tracker.lookup c = some (some par)
  key_mem : ∀ c, (st.accumulated_costs.lookup c).isSome = true →
    c ∈ st.path_tracker.map Prod.fst

/-- The full UCS loop invariant. -/
structure UcsInv (g : NavigationGrid) (st : UcsState)
    extends UcsBase g st : Prop where
  perm_closed : ∀ c, st.permanent_set.contains c = true →
    ∀ nb ∈ fetch_adjacent_nodes c g.rows g.cols,
      g.is_traversable nb = true →
      (st.accumulated_costs.lookup nb).isSome = true
  goal_free : st.permanent_set.contains g.goal_pos = false

theorem ucsScan_base (g : NavigationGrid) (pos : Coord) (node : SearchNode)
    (posCost : ℚ) (hpc0 : 0 ≤ posCost) :
    ∀ (nbs : List Coord) (st : UcsState),
      st.accumulated_costs.lookup pos = some posCost →
      (∀ nb ∈ nbs, nb ≠ pos) →
      UcsBase g st →
      UcsBase g (ucsScan g pos node posCost nbs st) ∧
      (ucsScan g pos node posCost nbs st).permanent_set =
        st.permanent_set ∧
      (∀ c, (st.accumulated_costs.lookup c).isSome = true →
        ((ucsScan g pos node posCost nbs st).accumulated_costs.lookup
          c).isSome = true) ∧
      (∀ nb ∈ nbs, g.is_traversable nb = true →
        ((ucsScan g pos node posCost nbs st).accumulated_costs.lookup
          nb).isSome = true) ∧
      (ucsScan g pos node posCost nbs st).priority_heap._data.length ≤
        st.priority_heap._data.length + nbs.length := by
  intro nbs
  induction nbs with
  | nil =>
    intro st hpc hne hb
    exact ⟨hb, rfl, fun c hc => hc,
      fun nb hnb => absurd hnb (List.not_mem_nil nb),
      by rw [ucsScan]; simp⟩
  | cons nb rest ih =>
    intro st hpc hne hb
    have hnbpos : nb ≠ pos := hne nb (List.mem_cons_self _ _)
    rw [ucsScan]
    by_cases htrav : g.is_traversable nb = true
    · rw [if_pos htrav]
      by_cases hrel : (match st.accumulated_costs.lookup nb with
          | none => true
          | some c => ratBlt (ratAdd posCost (compute_step_weight pos nb))
              c) = true
      · rw [if_pos hrel]
        have hw1 : (1 : ℚ) ≤ compute_step_weight pos nb :=
          compute_step_weight_ge_one pos nb
        have hnc : ratAdd posCost (compute_step_weight pos nb) =
            posCost + compute_step_weight pos nb := ratAdd_eq _ _
        have hb' : UcsBase g ⟨st.priority_heap.push
            (SearchNode.new nb (some node)
              (ratAdd posCost (compute_step_weight pos nb)))
            (ratAdd posCost (compute_step_weight pos nb)),
            st.permanent_set, (nb, some pos) :: st.path_tracker,
            (nb, ratAdd posCost (compute_step_weight pos nb)) ::
              st.accumulated_costs,
            st.overwrote || (st.path_tracker.lookup nb).isSome,
            ⟨listInsert nb st.vis.front_nodes, st.vis.history,
             st.vis.active_node, st.vis.trajectory⟩, st.frames⟩ := by
          constructor
          · intro e he
            simp only [PathfindingHeap.push] at he
            rcases List.mem_append.mp he with h1 | h1
            · obtain ⟨hok, hkey⟩ := hb.entry_ok e h1
              refine ⟨hok, ?_⟩
              by_cases hc : e.2.2.coord = nb
              · rw [hc, lookup_cons_self]
                rfl
              · rw [lookup_cons_ne hc]
                exact hkey
            · have he2 : e = (ratAdd posCost (compute_step_weight pos nb),
                  st.priority_heap._insertion_order,
                  SearchNode.new nb (some node)
                    (ratAdd posCost (compute_step_weight pos nb))) := by
                simpa using h1
              rw [he2]
              refine ⟨Or.inr ?_, ?_⟩
              · show g.is_traversable
                  (SearchNode.new nb (some node) _).coord = true
                rw [show (SearchNode.new nb (some node)
                  (ratAdd posCost (compute_step_weight pos nb))).coord =
                    nb from rfl]
                exact htrav
              · rw [show (SearchNode.new nb (some node)
                  (ratAdd posCost (compute_step_weight pos nb))).coord =
                    nb from rfl]
                rw [lookup_cons_self]
                rfl
          · intro c hc
            by_cases hcnb : c = nb
            · refine Or.inr ⟨(ratAdd posCost (compute_step_weight pos nb),
                st.priority_heap._insertion_order,
                SearchNode.new nb (some node)
                  (ratAdd posCost (compute_step_weight pos nb))), ?_, ?_⟩
              · simp [PathfindingHeap.push]
              · rw [hcnb]
                rfl
            · rw [lookup_cons_ne hcnb] at hc
              rcases hb.key_live c hc with h1 | h1
              · exact Or.inl h1
              · obtain ⟨e, he, hec⟩ := h1
                refine Or.inr ⟨e, ?_, hec⟩
                simp only [PathfindingHeap.push]
                exact List.mem_append.mpr (Or.inl he)
          · intro c v hv
            by_cases hcnb : c = nb
            · rw [hcnb, lookup_cons_self] at hv
              have : ratAdd posCost (compute_step_weight pos nb) = v :=
                Option.some.inj hv
              rw [← this, hnc]
              linarith
            · rw [lookup_cons_ne hcnb] at hv
              exact hb.acc_nonneg c v hv
          · by_cases hsnb : g.start_pos = nb
            · rw [hsnb, lookup_cons_self]
              rfl
            · rw [lookup_cons_ne hsnb]
              exact hb.start_key
          · intro c par hcp
            by_cases hcnb : c = nb
            · rw [hcnb, lookup_cons_self] at hcp
              have hpar : pos = par := by
                have := Option.some.inj hcp
                exact Option.some.inj this
              refine ⟨ratAdd posCost (compute_step_weight pos nb), posCost,
                by rw [hcnb, lookup_cons_self], ?_, ?_⟩
              · rw [← hpar, lookup_cons_ne hnbpos.symm]
                exact hpc
              · rw [hnc]
                linarith
            · rw [lookup_cons_ne hcnb] at hcp
              obtain ⟨vc, vp, hvc, hvp, hle⟩ := hb.parent_step c par hcp
              by_cases hpnb : par = nb
              · rw [hpnb] at hvp
                rcases hrc : st.accumulated_costs.lookup nb with - | cold
                · rw [hrc] at hvp
                  cases hvp
                · rw [hrc] at hvp
                  have hvpc : cold = vp := Option.some.inj hvp
                  simp only [hrc] at hrel
                  have hlt : ratAdd posCost (compute_step_weight pos nb) <
                      cold := by
                    rw [ratBlt_eq] at hrel
                    exact of_decide_eq_true hrel
                  refine ⟨vc, ratAdd posCost (compute_step_weight pos nb),
                    by rw [lookup_cons_ne hcnb]; exact hvc,
                    by rw [hpnb, lookup_cons_self], ?_⟩
                  linarith
              · exact ⟨vc, vp, by rw [lookup_cons_ne hcnb]; exact hvc,
                  by rw [lookup_cons_ne hpnb]; exact hvp, hle⟩
          · intro c hc hcs
            by_cases hcnb : c = nb
            · exact ⟨pos, by rw [hcnb, lookup_cons_self]⟩
            · rw [lookup_cons_ne hcnb] at hc
              obtain ⟨par, hpar⟩ := hb.nonstart_parent c hc hcs
              exact ⟨par, by rw [lookup_cons_ne hcnb]; exact hpar⟩
          · intro c hc
            by_cases hcnb : c = nb
            · rw [hcnb]
              exact List.mem_cons_self _ _
            · rw [lookup_cons_ne hcnb] at hc
              exact List.mem_cons_of_mem _ (hb.key_mem c hc)
        have hIH := ih _ (by
            show ((nb, _) :: st.accumulated_costs).lookup pos = some posCost
            rw [lookup_cons_ne hnbpos.symm]
            exact hpc)
          (fun x hx => hne x (List.mem_cons_of_mem _ hx)) hb'
        obtain ⟨hB, hP, hM, hS, hH⟩ := hIH
        refine ⟨hB, by rw [hP], ?_, ?_, ?_⟩
        · intro c hc
          refine hM c ?_
          by_cases hcnb : c = nb
          · rw [hcnb]
            show (((nb, _) :: st.accumulated_costs).lookup nb).isSome = true
            rw [lookup_cons_self]
            rfl
          · show (((nb, _) :: st.accumulated_costs).lookup c).isSome = true
            rw [lookup_cons_ne hcnb]
            exact hc
        · intro x hx htx
          rcases List.mem_cons.mp hx with h1 | h1
          · refine hM x ?_
            rw [h1]
            show (((nb, _) :: st.accumulated_costs).lookup nb).isSome = true
            rw [lookup_cons_self]
            rfl
          · exact hS x h1 htx
        · have hlen : (st.priority_heap.push (SearchNode.new nb (some node)
              (ratAdd posCost (compute_step_weight pos nb)))
              (ratAdd posCost (compute_step_weight pos nb)))._data.length =
              st.priority_heap._data.length + 1 := by
            simp [PathfindingHeap.push]
          dsimp only at hH
          simp only [List.length_cons]
          omega
      · rw [if_neg hrel]
        have hkey : (st.accumulated_costs.lookup nb).isSome = true := by
          rcases hrc : st.accumulated_costs.lookup nb with - | cold
          · rw [hrc] at hrel
            exact absurd rfl hrel
          · rfl
        have hIH := ih st hpc (fun x hx => hne x (List.mem_cons_of_mem _ hx))
          hb
        obtain ⟨hB, hP, hM, hS, hH⟩ := hIH
        refine ⟨hB, hP, hM, ?_, ?_⟩
        · intro x hx htx
          rcases List.mem_cons.mp hx with h1 | h1
          · rw [h1]
            exact hM nb hkey
          · exact hS x h1 htx
        · simp only [List.length_cons]
          omega
    · rw [if_neg htrav]
      have hIH := ih st hpc (fun x hx => hne x (List.mem_cons_of_mem _ hx))
        hb
      obtain ⟨hB, hP, hM, hS, hH⟩ := hIH
      refine ⟨hB, hP, hM, ?_, ?_⟩
      · intro x hx htx
        rcases List.mem_cons.mp hx with h1 | h1
        · rw [h1] at htx
          exact absurd htx htrav
        · exact hS x h1 htx
      · simp only [List.length_cons]
        omega

theorem ucsLoop_complete (g : NavigationGrid) (l : ℚ) (p0 : List Coord)
    (hvp : ValidPath g p0) :
    ∀ (fuel : ℕ) (st : UcsState), UcsInv g st →
      st.priority_heap._data.length +
        6 * (g.start_pos :: allCells g).countP
          (fun c => !(st.permanent_set.contains c)) < fuel →
      ∃ route st2, ucsLoop g l fuel st = some (some route, st2) := by
  intro fuel
  induction fuel with
  | zero =>
    intro st hinv hm
    exact absurd hm (Nat.not_lt_zero _)
  | succ fuel ih =>
    intro st hinv hm
    rcases hhp : heapPop st.priority_heap._data with - | ⟨m, rest⟩
    · exfalso
      have hdata : st.priority_heap._data = [] := heapPop_eq_none.mp hhp
      have hallperm : ∀ c, (st.accumulated_costs.lookup c).isSome = true →
          st.permanent_set.contains c = true := by
        intro c hc
        rcases hinv.key_live c hc with h1 | h1
        · exact h1
        · obtain ⟨e, he, -⟩ := h1
          rw [hdata] at he
          exact absurd he (List.not_mem_nil e)
      obtain ⟨hne, hhead, hlast, htravp, hchainp⟩ := hvp
      have haux : ∀ (pa : List Coord) (x : Coord), pa.head? = some x →
          (st.accumulated_costs.lookup x).isSome = true →
          List.Chain' (Adjacent g) pa →
          (∀ c ∈ pa, g.is_traversable c = true) →
          ∀ y, pa.getLast? = some y →
            (st.accumulated_costs.lookup y).isSome = true := by
        intro pa
        induction pa with
        | nil => intro x hx; cases hx
        | cons a as ihp =>
          intro x hhx hcx hch htv y hy
          have hax : a = x := by simpa using hhx
          subst hax
          rcases as with - | ⟨b, as'⟩
          · have hay : a = y := by simpa using hy
            rwa [← hay]
          · have hab : Adjacent g a b := (List.chain'_cons.mp hch).1
            have hchb : List.Chain' (Adjacent g) (b :: as') :=
              (List.chain'_cons.mp hch).2
            have hbkey : (st.accumulated_costs.lookup b).isSome = true :=
              hinv.perm_closed a (hallperm a hcx) b hab (htv b (by simp))
            refine ihp b rfl hbkey hchb
              (fun c hc => htv c (List.mem_cons_of_mem _ hc)) y ?_
            rwa [List.getLast?_cons_cons] at hy
      have hgoalkey := haux p0 g.start_pos hhead hinv.start_key hchainp
        htravp g.goal_pos hlast
      have := hallperm g.goal_pos hgoalkey
      rw [hinv.goal_free] at this
      cases this
    · obtain ⟨rank, sq, node⟩ := m
      obtain ⟨hmem, hmin, hperm, hsub⟩ := heapPop_spec hhp
      have hpe : st.priority_heap.popEntry = some ((rank, sq, node),
          ⟨rest, st.priority_heap._insertion_order⟩) := by
        rw [PathfindingHeap.popEntry, hhp]
        rfl
      have hlendata : st.priority_heap._data.length = rest.length + 1 := by
        have := hperm.length_eq
        simpa using this
      simp only [ucsLoop, hpe]
      by_cases hperm2 : st.permanent_set.contains node.coord = true
      · rw [if_pos hperm2]
        refine ih _ ?_ ?_
        · refine ⟨⟨?_, ?_, hinv.acc_nonneg, hinv.start_key,
            hinv.parent_step, hinv.nonstart_parent, hinv.key_mem⟩,
            hinv.perm_closed, hinv.goal_free⟩
          · intro e he
            exact hinv.entry_ok e (hsub.subset he)
          · intro c hc
            rcases hinv.key_live c hc with h1 | h1
            · exact Or.inl h1
            · obtain ⟨e, he, hec⟩ := h1
              by_cases hem : e = (rank, sq, node)
              · refine Or.inl ?_
                rw [hem] at hec
                rw [← hec]
                exact hperm2
              · exact Or.inr ⟨e, mem_rest_of_perm hperm he hem, hec⟩
        · dsimp only
          omega
      · rw [if_neg hperm2]
        have hcoordok := hinv.entry_ok (rank, sq, node) hmem
        have hkey : (st.accumulated_costs.lookup node.coord).isSome = true :=
          hcoordok.2
        by_cases hgoal : node.coord = g.goal_pos
        · rw [if_pos hgoal]
          rcases hvv : st.accumulated_costs.lookup node.coord with - | vc
          · rw [hvv] at hkey
            cases hkey
          · rw [hgoal] at hvv
            obtain ⟨n, hn⟩ := exists_nat_ge vc
            obtain ⟨p, hp, hnd, hbound⟩ := tracker_chain_exists
              st.path_tracker st.accumulated_costs g.start_pos
              hinv.parent_step hinv.nonstart_parent hinv.acc_nonneg
              n g.goal_pos vc hvv hn
            have hsubp : p.Subperm (st.path_tracker.map Prod.fst) := by
              refine List.Nodup.subperm hnd ?_
              intro x hx
              obtain ⟨v, hv, -⟩ := hbound x hx
              exact hinv.key_mem x (by rw [hv]; rfl)
            have hplen : p.length ≤ st.path_tracker.length := by
              have := hsubp.length_le
              rwa [List.length_map] at this
            have htrace := trace_back_path_of_traces hp
              (st.path_tracker.length + 1) (by omega)
            rw [htrace]
            exact ⟨p, _, rfl⟩
        · rw [if_neg hgoal]
          rcases hvv : st.accumulated_costs.lookup node.coord with - | posCost
          · rw [hvv] at hkey
            cases hkey
          · simp only [hvv]
            have hpc0 : 0 ≤ posCost := hinv.acc_nonneg _ _ hvv
            have hbasePre : UcsBase g ⟨⟨rest,
                st.priority_heap._insertion_order⟩,
                listInsert node.coord st.permanent_set, st.path_tracker,
                st.accumulated_costs, st.overwrote,
                ⟨if st.vis.front_nodes.contains node.coord then
                   st.vis.front_nodes.erase node.coord
                 else st.vis.front_nodes,
                 listInsert node.coord st.vis.history, some node.coord,
                 st.vis.trajectory⟩,
                refresh_view l "UCS Algorithm" ""
                  ⟨if st.vis.front_nodes.contains node.coord then
                     st.vis.front_nodes.erase node.coord
                   else st.vis.front_nodes,
                   listInsert node.coord st.vis.history, some node.coord,
                   st.vis.trajectory⟩ st.frames⟩ := by
              refine ⟨?_, ?_, hinv.acc_nonneg, hinv.start_key,
                hinv.parent_step, hinv.nonstart_parent, hinv.key_mem⟩
              · intro e he
                exact hinv.entry_ok e (hsub.subset he)
              · intro c hc
                rcases hinv.key_live c hc with h1 | h1
                · exact Or.inl (contains_listInsert_mono h1 node.coord)
                · obtain ⟨e, he, hec⟩ := h1
                  by_cases hem : e = (rank, sq, node)
                  · refine Or.inl ?_
                    rw [hem] at hec
                    rw [← hec]
                    exact contains_listInsert_self _ _
                  · exact Or.inr ⟨e, mem_rest_of_perm hperm he hem, hec⟩
            have hscan := ucsScan_base g node.coord node posCost hpc0
              (fetch_adjacent_nodes node.coord g.rows g.cols)
              ⟨⟨rest, st.priority_heap._insertion_order⟩,
               listInsert node.coord st.permanent_set, st.path_tracker,
               st.accumulated_costs, st.overwrote,
               ⟨if st.vis.front_nodes.contains node.coord then
                  st.vis.front_nodes.erase node.coord
                else st.vis.front_nodes,
                listInsert node.coord st.vis.history, some node.coord,
                st.vis.trajectory⟩,
               refresh_view l "UCS Algorithm" ""
                 ⟨if st.vis.front_nodes.contains node.coord then
                    st.vis.front_nodes.erase node.coord
                  else st.vis.front_nodes,
                  listInsert node.coord st.vis.history, some node.coord,
                  st.vis.trajectory⟩ st.frames⟩ hvv
              (fetch_adjacent_ne_self node.coord g.rows g.cols) hbasePre
            obtain ⟨hB, hP, hM, hS, hH⟩ := hscan
            refine ih _ ⟨hB, ?_, ?_⟩ ?_
            · intro c hc nb hnb htnb
              rw [hP] at hc
              dsimp only at hc
              rcases contains_listInsert_cases hc with h1 | h1
              · refine hM nb ?_
                exact hinv.perm_closed c h1 nb hnb htnb
              · subst h1
                exact hS nb hnb htnb
            · rw [hP]
              dsimp only
              refine contains_listInsert_false ?_ hinv.goal_free
              intro he
              exact hgoal he.symm
            · rw [hP]
              dsimp only at hH ⊢
              have hadj6 := fetch_adjacent_length_le node.coord g.rows g.cols
              have hcnt : (g.start_pos :: allCells g).countP
                  (fun c => !((listInsert node.coord
                    st.permanent_set).contains c)) <
                  (g.start_pos :: allCells g).countP
                    (fun c => !(st.permanent_set.contains c)) := by
                refine @countP_lt_of_flip _ _ _ node.coord ?_ ?_ ?_ ?_
                · rcases hcoordok.1 with h1 | h1
                  · rw [h1]
                    exact List.mem_cons_self _ _
                  · exact List.mem_cons_of_mem _ (mem_allCells h1)
                · have h2 : st.permanent_set.contains node.coord = false := by
                    rw [← Bool.not_eq_true]
                    exact hperm2
                  rw [h2]
                  rfl
                · rw [contains_listInsert_self]
                  rfl
                · intro c hqc
                  rw [Bool.not_eq_true'] at hqc ⊢
                  by_contra hcon
                  rw [Bool.not_eq_false] at hcon
                  rw [contains_listInsert_mono hcon node.coord] at hqc
                  cases hqc
              omega

theorem allCells_length_le (g : NavigationGrid) :
    (allCells g).length ≤ (g.rows * g.cols).toNat := by
  rw [allCells_length]
  by_cases hr : 0 ≤ g.rows
  · by_cases hc : 0 ≤ g.cols
    · have h2 : g.rows * g.cols = ((g.rows.toNat * g.cols.toNat : ℕ) : ℤ) := by
        push_cast
        rw [Int.toNat_of_nonneg hr, Int.toNat_of_nonneg hc]
      rw [h2, Int.toNat_natCast]
    · have hcz : g.cols.toNat = 0 := by omega
      rw [hcz, Nat.mul_zero]
      omega
  · have hrz : g.rows.toNat = 0 := by omega
    rw [hrz, Nat.zero_mul]
    omega

theorem run_ucs_complete (g : NavigationGrid) (l : ℚ) (p0 : List Coord)
    (hvp : ValidPath g p0) :
    ∃ route, pathOf (run_ucs g l) = some (some route) := by
  have hinit : UcsInv g (ucsInit g) := by
    refine ⟨⟨?_, ?_, ?_, ?_, ?_, ?_, ?_⟩, ?_, ?_⟩
    · intro e he
      have he1 : e = ((0 : ℚ), 0, SearchNode.new g.start_pos none 0) := by
        simpa [ucsInit, PathfindingHeap.push] using he
      rw [he1]
      refine ⟨Or.inl rfl, ?_⟩
      show (((g.start_pos, (0 : ℚ)) :: []).lookup g.start_pos).isSome = true
      rw [lookup_cons_self]
      rfl
    · intro c hc
      by_cases hcs : c = g.start_pos
      · refine Or.inr ⟨((0 : ℚ), 0, SearchNode.new g.start_pos none 0),
          by simp [ucsInit, PathfindingHeap.push], ?_⟩
        rw [hcs]
        rfl
      · exfalso
        have : (((g.start_pos, (0 : ℚ)) :: []).lookup c).isSome = true := hc
        rw [lookup_cons_ne hcs] at this
        cases this
    · intro c v hv
      by_cases hcs : c = g.start_pos
      · rw [hcs] at hv
        have : (((g.start_pos, (0 : ℚ)) :: []).lookup g.start_pos) =
            some v := hv
        rw [lookup_cons_self] at this
        have h0 : (0 : ℚ) = v := Option.some.inj this
        rw [← h0]
      · have : (((g.start_pos, (0 : ℚ)) :: []).lookup c) = some v := hv
        rw [lookup_cons_ne hcs] at this
        cases this
    · show (((g.start_pos, (0 : ℚ)) :: []).lookup g.start_pos).isSome = true
      rw [lookup_cons_self]
      rfl
    · intro c par hcp
      by_cases hcs : c = g.start_pos
      · rw [hcs] at hcp
        have : (((g.start_pos, (none : Option Coord)) :: []).lookup
            g.start_pos) = some (some par) := hcp
        rw [lookup_cons_self] at this
        cases Option.some.inj this
      · have : (((g.start_pos, (none : Option Coord)) :: []).lookup c) =
            some (some par) := hcp
        rw [lookup_cons_ne hcs] at this
        cases this
    · intro c hc hcs
      exfalso
      have : (((g.start_pos, (0 : ℚ)) :: []).lookup c).isSome = true := hc
      by_cases hcg : c = g.start_pos
      · exact hcs hcg
      · rw [lookup_cons_ne hcg] at this
        cases this
    · intro c hc
      by_cases hcs : c = g.start_pos
      · rw [hcs]
        show g.start_pos ∈ [(g.start_pos, (none : Option Coord))].map
          Prod.fst
        simp
      · exfalso
        have : (((g.start_pos, (0 : ℚ)) :: []).lookup c).isSome = true := hc
        rw [lookup_cons_ne hcs] at this
        cases this
    · intro c hc
      exfalso
      have : (([] : List Coord).contains c) = true := hc
      cases this
    · rfl
  have hmeas : (ucsInit g).priority_heap._data.length +
      6 * (g.start_pos :: allCells g).countP
        (fun c => !((ucsInit g).permanent_set.contains c)) < ucsFuel g := by
    have hcle : (g.start_pos :: allCells g).countP
        (fun c => !((ucsInit g).permanent_set.contains c)) ≤
        (g.start_pos :: allCells g).length := List.countP_le_length _
    have hlen := allCells_length_le g
    show 1 + _ < 6 * (g.rows * g.cols).toNat + 8
    simp only [List.length_cons] at hcle
    omega
  obtain ⟨route, st2, hloop⟩ := ucsLoop_complete g l p0 hvp (ucsFuel g)
    (ucsInit g) hinit hmeas
  rw [run_ucs, pathOf, hloop]
  exact ⟨route, rfl⟩

/-! ## Bidirectional BFS: completeness machinery -/

/-- The parent-chain walk of `_bridge_bi_directional_paths` succeeds on
any traced chain, returning the chain reversed (junction first), provided
the origin's recorded parent is `None` and fuel covers the chain. -/
theorem walkChain_of_traces {m : Links} {origin x : Coord} {p : List Coord}
    (h : Traces m origin x p) (h0 : m.lookup origin = some none) :
    ∀ (fuel : ℕ) (acc : List Coord), p.length + 1 ≤ fuel →
      walkChain m fuel (some x) acc = some (acc ++ p.reverse) := by
  induction h with
  | base =>
    intro fuel acc hf
    obtain ⟨f, rfl⟩ : ∃ f, fuel = f + 2 := ⟨fuel - 2, by simp at hf; omega⟩
    rw [walkChain, h0]
    rfl
  | step x parent p hne hl hp ih =>
    intro fuel acc hf
    obtain ⟨f, rfl⟩ : ∃ f, fuel = f + 1 := ⟨fuel - 1, by omega⟩
    rw [walkChain, hl]
    have hlen : p.length + 1 ≤ f := by
      simp only [List.length_append, List.length_singleton] at hf
      omega
    show walkChain m f (some parent) (acc ++ [x]) = _
    rw [ih f (acc ++ [x]) hlen]
    simp

/-- A duplicate-free chain through the keys of a parent map is no longer
than the map itself. -/
theorem chain_length_le {m : Links} {p : List Coord}
    (hnd : p.Nodup) (hsub : ∀ x ∈ p, (m.lookup x).isSome = true) :
    p.length ≤ m.length := by
  have hsub2 : p ⊆ m.map Prod.fst := fun x hx =>
    lookup_isSome_mem_keys (hsub x hx)
  have hle := (hnd.subperm hsub2).length_le
  simpa using hle

/-- If both parent maps carry duplicate-free origin-rooted chains for all
their keys, bridging at a junction known to both succeeds. -/
theorem bridge_success {g : NavigationGrid} {f b : Links} {junction : Coord}
    (l : ℚ) (vis : VisState) (frames : List Frame)
    (hf0 : f.lookup g.start_pos = some none)
    (hb0 : b.lookup g.goal_pos = some none)
    (hfch : ∀ c, (f.lookup c).isSome = true → ∃ p,
      Traces f g.start_pos c p ∧ p.Nodup ∧
      ∀ x ∈ p, (f.lookup x).isSome = true)
    (hbch : ∀ c, (b.lookup c).isSome = true → ∃ p,
      Traces b g.goal_pos c p ∧ p.Nodup ∧
      ∀ x ∈ p, (b.lookup x).isSome = true)
    (hjf : (f.lookup junction).isSome = true)
    (hjb : (b.lookup junction).isSome = true) :
    ∃ out, bridge_bi_directional_paths f b junction l vis frames =
      some out := by
  obtain ⟨pf, hpf, hndf, hkf⟩ := hfch junction hjf
  have hwf : walkChain f (f.length + 1) (some junction) [] =
      some ([] ++ pf.reverse) := by
    refine walkChain_of_traces hpf hf0 (f.length + 1) [] ?_
    have hle := chain_length_le hndf hkf
    omega
  obtain ⟨pb, hpb, hndb, hkb⟩ := hbch junction hjb
  cases hpb with
  | base =>
    rw [bridge_bi_directional_paths, hwf]
    simp only [hb0, walkChain]
    exact ⟨_, rfl⟩
  | step x parent p hne hl hp =>
    rw [bridge_bi_directional_paths, hwf]
    have hwb : walkChain b (b.length + 1) (some parent) [] =
        some ([] ++ p.reverse) := by
      refine walkChain_of_traces hp hb0 (b.length + 1) [] ?_
      have hnd2 : p.Nodup := hndb.of_append_left
      have hsub2 : ∀ y ∈ p, (b.lookup y).isSome = true := by
        intro y hy
        exact hkb y (List.mem_append_left _ hy)
      have hle := chain_length_le hnd2 hsub2
      omega
    simp only [hl, hwb]
    exact ⟨_, rfl⟩

/-- The movement offsets come in opposite pairs, so adjacency is
symmetric between in-bounds cells. -/
theorem adjacent_symm {g : NavigationGrid} {a b : Coord}
    (hab : Adjacent g a b) (ha : g.is_traversable a = true) :
    Adjacent g b a := by
  obtain ⟨a1, a2⟩ := a
  obtain ⟨b1, b2⟩ := b
  have habnd : 0 ≤ a1 ∧ a1 < g.rows ∧ 0 ≤ a2 ∧ a2 < g.cols := by
    rw [NavigationGrid.is_traversable, Bool.and_eq_true] at ha
    have hb1 := ha.1
    rwa [decide_eq_true_eq] at hb1
  rw [Adjacent, fetch_adjacent_nodes, fetchAdjacentAux_eq_filter_map] at hab
  rw [Adjacent, fetch_adjacent_nodes, fetchAdjacentAux_eq_filter_map]
  rw [List.mem_filter] at hab
  obtain ⟨hmem, -⟩ := hab
  rw [List.mem_map] at hmem
  obtain ⟨d, hd, hbd⟩ := hmem
  rw [List.mem_filter]
  constructor
  · rw [List.mem_map]
    refine ⟨(-d.1, -d.2), ?_, ?_⟩
    · simp only [movementOffsets, List.mem_cons, List.not_mem_nil,
        or_false] at hd
      rcases hd with rfl | rfl | rfl | rfl | rfl | rfl <;> decide
    · have hb1 : b1 = a1 + d.1 := by
        have := congrArg Prod.fst hbd
        simpa using this.symm
      have hb2 : b2 = a2 + d.2 := by
        have := congrArg Prod.snd hbd
        simpa using this.symm
      simp only [Prod.mk.injEq]
      constructor <;> [skip; skip] <;> omega
  · rw [decide_eq_true_eq]
    exact habnd

/-- Number of grid cells not yet recorded in a parent map. -/
def biUnseen (g : NavigationGrid) (m : Links) : ℕ :=
  (allCells g).countP fun c => !(m.lookup c).isSome

theorem biScan_lookup_of_isSome (g : NavigationGrid) (fn : Coord) :
    ∀ (nbs : List Coord) (links : Links) (queue : List Coord) (ow : Bool)
      (vis : VisState) (c : Coord), (links.lookup c).isSome = true →
      (biScan g fn nbs links queue ow vis).1.lookup c = links.lookup c := by
  intro nbs
  induction nbs with
  | nil => intro links queue ow vis c hc; rfl
  | cons adj rest ih =>
    intro links queue ow vis c hc
    rw [biScan]
    by_cases hcnd : ((links.lookup adj).isNone && g.is_traversable adj) =
        true
    · rw [if_pos hcnd]
      have hadjn : links.lookup adj = none := by
        rw [Bool.and_eq_true] at hcnd
        exact Option.isNone_iff_eq_none.mp hcnd.1
      have hca : c ≠ adj := by
        rintro rfl
        rw [hadjn] at hc
        cases hc
      have hc2 : (((adj, some fn) :: links).lookup c).isSome = true := by
        rw [lookup_cons_ne hca]
        exact hc
      rw [ih _ _ _ _ c hc2, lookup_cons_ne hca]
    · rw [if_neg hcnd]
      exact ih links queue ow vis c hc

theorem biScan_key_mono (g : NavigationGrid) (fn : Coord)
    (nbs : List Coord) (links : Links) (queue : List Coord) (ow : Bool)
    (vis : VisState) (c : Coord) (hc : (links.lookup c).isSome = true) :
    ((biScan g fn nbs links queue ow vis).1.lookup c).isSome = true := by
  rw [biScan_lookup_of_isSome g fn nbs links queue ow vis c hc]
  exact hc

theorem biScan_queue_mono (g : NavigationGrid) (fn : Coord) :
    ∀ (nbs : List Coord) (links : Links) (queue : List Coord) (ow : Bool)
      (vis : VisState) (c : Coord), c ∈ queue →
      c ∈ (biScan g fn nbs links queue ow vis).2.1 := by
  intro nbs
  induction nbs with
  | nil => intro links queue ow vis c hc; exact hc
  | cons adj rest ih =>
    intro links queue ow vis c hc
    rw [biScan]
    by_cases hcnd : ((links.lookup adj).isNone && g.is_traversable adj) =
        true
    · rw [if_pos hcnd]
      exact ih _ _ _ _ c (List.mem_append_left _ hc)
    · rw [if_neg hcnd]
      exact ih links queue ow vis c hc

theorem biScan_key_src (g : NavigationGrid) (fn : Coord) :
    ∀ (nbs : List Coord) (links : Links) (queue : List Coord) (ow : Bool)
      (vis : VisState) (c : Coord),
      ((biScan g fn nbs links queue ow vis).1.lookup c).isSome = true →
      (links.lookup c).isSome = true ∨
        c ∈ (biScan g fn nbs links queue ow vis).2.1 := by
  intro nbs
  induction nbs with
  | nil => intro links queue ow vis c hc; exact Or.inl hc
  | cons adj rest ih =>
    intro links queue ow vis c hc
    rw [biScan] at hc
    by_cases hcnd : ((links.lookup adj).isNone && g.is_traversable adj) =
        true
    · rw [if_pos hcnd] at hc
      rcases ih _ _ _ _ c hc with h1 | h1
      · by_cases hca : c = adj
        · refine Or.inr ?_
          rw [biScan, if_pos hcnd, hca]
          exact biScan_queue_mono g fn rest _ _ _ _ adj
            (List.mem_append_right _ (by simp))
        · rw [lookup_cons_ne hca] at h1
          exact Or.inl h1
      · refine Or.inr ?_
        rw [biScan, if_pos hcnd]
        exact h1
    · rw [if_neg hcnd] at hc
      rcases ih links queue ow vis c hc with h1 | h1
      · exact Or.inl h1
      · refine Or.inr ?_
        rw [biScan, if_neg hcnd]
        exact h1

theorem biScan_queue_keys (g : NavigationGrid) (fn : Coord) :
    ∀ (nbs : List Coord) (links : Links) (queue : List Coord) (ow : Bool)
      (vis : VisState),
      (∀ c ∈ queue, (links.lookup c).isSome = true) →
      ∀ c ∈ (biScan g fn nbs links queue ow vis).2.1,
        ((biScan g fn nbs links queue ow vis).1.lookup c).isSome = true := by
  intro nbs
  induction nbs with
  | nil => intro links queue ow vis hq; exact hq
  | cons adj rest ih =>
    intro links queue ow vis hq
    rw [biScan]
    by_cases hcnd : ((links.lookup adj).isNone && g.is_traversable adj) =
        true
    · rw [if_pos hcnd]
      refine ih _ _ _ _ ?_
      intro c hcq
      rcases List.mem_append.mp hcq with h1 | h1
      · by_cases hca : c = adj
        · rw [hca, lookup_cons_self]
          rfl
        · rw [lookup_cons_ne hca]
          exact hq c h1
      · have hca : c = adj := by simpa using h1
        rw [hca, lookup_cons_self]
        rfl
    · rw [if_neg hcnd]
      exact ih links queue ow vis hq

theorem biScan_scanned_closed (g : NavigationGrid) (fn : Coord) :
    ∀ (nbs : List Coord) (links : Links) (queue : List Coord) (ow : Bool)
      (vis : VisState) (nb : Coord), nb ∈ nbs →
      g.is_traversable nb = true →
      ((biScan g fn nbs links queue ow vis).1.lookup nb).isSome = true := by
  intro nbs
  induction nbs with
  | nil =>
    intro links queue ow vis nb hnb
    exact absurd hnb (List.not_mem_nil nb)
  | cons adj rest ih =>
    intro links queue ow vis nb hnb htv
    rcases List.mem_cons.mp hnb with h1 | h1
    · rw [biScan]
      by_cases hcnd : ((links.lookup adj).isNone && g.is_traversable adj) =
          true
      · rw [if_pos hcnd]
        refine biScan_key_mono g fn rest _ _ _ _ nb ?_
        rw [h1, lookup_cons_self]
        rfl
      · rw [if_neg hcnd]
        have hkey : (links.lookup adj).isSome = true := by
          cases hval : links.lookup adj with
          | none =>
            exfalso
            apply hcnd
            rw [Bool.and_eq_true]
            refine ⟨?_, by rw [← h1]; exact htv⟩
            rw [hval]
            rfl
          | some v => rfl
        refine biScan_key_mono g fn rest links queue ow vis nb ?_
        rw [h1]
        exact hkey
    · rw [biScan]
      by_cases hcnd : ((links.lookup adj).isNone && g.is_traversable adj) =
          true
      · rw [if_pos hcnd]
        exact ih _ _ _ _ nb h1 htv
      · rw [if_neg hcnd]
        exact ih links queue ow vis nb h1 htv

theorem biScan_chains (g : NavigationGrid) (fn origin : Coord) :
    ∀ (nbs : List Coord) (links : Links) (queue : List Coord) (ow : Bool)
      (vis : VisState),
      (links.lookup origin).isSome = true →
      (links.lookup fn).isSome = true →
      (∀ c, (links.lookup c).isSome = true → ∃ p,
        Traces links origin c p ∧ p.Nodup ∧
        ∀ x ∈ p, (links.lookup x).isSome = true) →
      ∀ c, ((biScan g fn nbs links queue ow vis).1.lookup c).isSome = true →
        ∃ p, Traces (biScan g fn nbs links queue ow vis).1 origin c p ∧
          p.Nodup ∧
          ∀ x ∈ p,
            ((biScan g fn nbs links queue ow vis).1.lookup x).isSome =
              true := by
  intro nbs
  induction nbs with
  | nil =>
    intro links queue ow vis h0 hfn hch c hc
    exact hch c hc
  | cons adj rest ih =>
    intro links queue ow vis h0 hfn hch c hc
    rw [biScan] at hc ⊢
    by_cases hcnd : ((links.lookup adj).isNone && g.is_traversable adj) =
        true
    · rw [if_pos hcnd] at hc ⊢
      have hadjn : links.lookup adj = none := by
        rw [Bool.and_eq_true] at hcnd
        exact Option.isNone_iff_eq_none.mp hcnd.1
      have hadjkey : ∀ x, (links.lookup x).isSome = true → x ≠ adj := by
        intro x hx
        rintro rfl
        rw [hadjn] at hx
        cases hx
      have h0' : (((adj, some fn) :: links).lookup origin).isSome = true := by
        rw [lookup_cons_ne (hadjkey origin h0)]
        exact h0
      have hfn' : (((adj, some fn) :: links).lookup fn).isSome = true := by
        rw [lookup_cons_ne (hadjkey fn hfn)]
        exact hfn
      have hch' : ∀ c, (((adj, some fn) :: links).lookup c).isSome = true →
          ∃ p, Traces ((adj, some fn) :: links) origin c p ∧ p.Nodup ∧
            ∀ x ∈ p, (((adj, some fn) :: links).lookup x).isSome = true := by
        intro d hd
        by_cases hda : d = adj
        · obtain ⟨pf, hpf, hndf, hkf⟩ := hch fn hfn
          have hnm : adj ∉ pf := fun hmem =>
            hadjkey adj (hkf adj hmem) rfl
          refine ⟨pf ++ [adj], ?_, ?_, ?_⟩
          · rw [hda]
            refine Traces.step adj fn pf ?_ lookup_cons_self
              (hpf.cons_of_notMem hnm)
            intro hao
            exact hadjkey origin h0 hao.symm
          · refine hndf.append (List.nodup_singleton adj) ?_
            intro x hx hmem
            have hxa : x = adj := by simpa using hmem
            rw [hxa] at hx
            exact hnm hx
          · intro x hx
            rcases List.mem_append.mp hx with h1 | h1
            · rw [lookup_cons_ne (hadjkey x (hkf x h1))]
              exact hkf x h1
            · have hxa : x = adj := by simpa using h1
              rw [hxa, lookup_cons_self]
              rfl
        · rw [lookup_cons_ne hda] at hd
          obtain ⟨pd, hpd, hndd, hkd⟩ := hch d hd
          have hnm : adj ∉ pd := fun hmem =>
            hadjkey adj (hkd adj hmem) rfl
          refine ⟨pd, hpd.cons_of_notMem hnm, hndd, ?_⟩
          intro x hx
          rw [lookup_cons_ne (hadjkey x (hkd x hx))]
          exact hkd x hx
      exact ih _ _ _ _ h0' hfn' hch' c hc
    · rw [if_neg hcnd] at hc ⊢
      exact ih links queue ow vis h0 hfn hch c hc

theorem biScan_measure (g : NavigationGrid) (fn : Coord) :
    ∀ (nbs : List Coord) (links : Links) (queue : List Coord) (ow : Bool)
      (vis : VisState),
      (biScan g fn nbs links queue ow vis).2.1.length +
        biUnseen g (biScan g fn nbs links queue ow vis).1 ≤
      queue.length + biUnseen g links := by
  intro nbs
  induction nbs with
  | nil => intro links queue ow vis; exact le_rfl
  | cons adj rest ih =>
    intro links queue ow vis
    rw [biScan]
    by_cases hcnd : ((links.lookup adj).isNone && g.is_traversable adj) =
        true
    · rw [if_pos hcnd]
      rw [Bool.and_eq_true] at hcnd
      have hadjn : links.lookup adj = none :=
        Option.isNone_iff_eq_none.mp hcnd.1
      have htv : g.is_traversable adj = true := hcnd.2
      have hcount : biUnseen g ((adj, some fn) :: links) <
          biUnseen g links := by
        refine @countP_lt_of_flip _ _ _ adj (mem_allCells htv) ?_ ?_ ?_
        · rw [hadjn]
          rfl
        · rw [lookup_cons_self]
          rfl
        · intro c hqc
          by_cases hca : c = adj
          · rw [hca, lookup_cons_self] at hqc
            cases hqc
          · rw [lookup_cons_ne hca] at hqc
            exact hqc
      have hstep := ih ((adj, some fn) :: links) (queue ++ [adj])
        (ow || (links.lookup adj).isSome)
        ⟨listInsert adj vis.front_nodes, vis.history, vis.active_node,
         vis.trajectory⟩
      simp only [List.length_append, List.length_singleton] at hstep
      omega
    · rw [if_neg hcnd]
      exact ih links queue ow vis

/-- Walking a traversable adjacency chain out of a neighbor-closed key
set stays inside the key set. -/
theorem key_closure_walk (g : NavigationGrid) (m : Links)
    (hclosed : ∀ c, (m.lookup c).isSome = true →
      ∀ nb ∈ fetch_adjacent_nodes c g.rows g.cols,
        g.is_traversable nb = true → (m.lookup nb).isSome = true) :
    ∀ (pa : List Coord) (x : Coord), pa.head? = some x →
      (m.lookup x).isSome = true → List.Chain' (Adjacent g) pa →
      (∀ c ∈ pa, g.is_traversable c = true) →
      ∀ y, pa.getLast? = some y → (m.lookup y).isSome = true := by
  intro pa
  induction pa with
  | nil => intro x hx; cases hx
  | cons a as ihp =>
    intro x hhx hcx hch htv y hy
    have hax : a = x := by simpa using hhx
    subst hax
    rcases as with - | ⟨b, as2⟩
    · have hay : a = y := by simpa using hy
      rwa [← hay]
    · have hab : Adjacent g a b := (List.chain'_cons.mp hch).1
      have hchb : List.Chain' (Adjacent g) (b :: as2) :=
        (List.chain'_cons.mp hch).2
      have hbkey : (m.lookup b).isSome = true :=
        hclosed a hcx b hab (htv b (by simp))
      refine ihp b rfl hbkey hchb
        (fun c hc => htv c (List.mem_cons_of_mem _ hc)) y ?_
      rwa [List.getLast?_cons_cons] at hy

/-- A traversable adjacency chain satisfies the flipped relation as
well; the movement offsets are closed under negation. -/
theorem chain_flip_adjacent (g : NavigationGrid) :
    ∀ p : List Coord, (∀ c ∈ p, g.is_traversable c = true) →
    List.Chain' (Adjacent g) p →
    List.Chain' (fun a b => Adjacent g b a) p := by
  intro p
  induction p with
  | nil => intro htv hch; exact List.chain'_nil
  | cons a rest ih =>
    intro htv hch
    rcases rest with - | ⟨b, rest2⟩
    · simp
    · rw [List.chain'_cons] at hch ⊢
      refine ⟨adjacent_symm hch.1 (htv a (by simp)), ?_⟩
      exact ih (fun c hc => htv c (List.mem_cons_of_mem _ hc)) hch.2

theorem biLoop_complete (g : NavigationGrid) (l : ℚ) (p0 : List Coord)
    (hvp : ValidPath g p0) :
    ∀ (fuel : ℕ) (st : BiState),
      (∀ c ∈ st.fwd_work, (st.fwd_map.lookup c).isSome = true) →
      (∀ c ∈ st.bwd_work, (st.bwd_map.lookup c).isSome = true) →
      st.fwd_map.lookup g.start_pos = some none →
      st.bwd_map.lookup g.goal_pos = some none →
      (∀ c, (st.fwd_map.lookup c).isSome = true → c ∈ st.fwd_work ∨
        ∀ nb ∈ fetch_adjacent_nodes c g.rows g.cols,
          g.is_traversable nb = true →
            (st.fwd_map.lookup nb).isSome = true) →
      (∀ c, (st.bwd_map.lookup c).isSome = true → c ∈ st.bwd_work ∨
        ∀ nb ∈ fetch_adjacent_nodes c g.rows g.cols,
          g.is_traversable nb = true →
            (st.bwd_map.lookup nb).isSome = true) →
      ((st.fwd_map.lookup g.goal_pos).isSome = true →
        g.goal_pos ∈ st.fwd_work) →
      ((st.bwd_map.lookup g.start_pos).isSome = true →
        g.start_pos ∈ st.bwd_work) →
      (∀ c, (st.fwd_map.lookup c).isSome = true → ∃ p,
        Traces st.fwd_map g.start_pos c p ∧ p.Nodup ∧
        ∀ x ∈ p, (st.fwd_map.lookup x).isSome = true) →
      (∀ c, (st.bwd_map.lookup c).isSome = true → ∃ p,
        Traces st.bwd_map g.goal_pos c p ∧ p.Nodup ∧
        ∀ x ∈ p, (st.bwd_map.lookup x).isSome = true) →
      st.fwd_work.length + biUnseen g st.fwd_map < fuel →
      ∃ route st2, biLoop g l fuel st = some (some route, st2) := by
  intro fuel
  induction fuel with
  | zero =>
    intro st h1 h2 h3 h4 h5 h6 h7 h8 h9 h10 hm
    exact absurd hm (Nat.not_lt_zero _)
  | succ fuel ih =>
    intro st h1 h2 h3 h4 h5 h6 h7 h8 h9 h10 hm
    obtain ⟨hne, hhead, hlast, htravp, hchainp⟩ := hvp
    rcases hqf : st.fwd_work with - | ⟨node_f, fRest⟩
    · exfalso
      have hclosed : ∀ c, (st.fwd_map.lookup c).isSome = true →
          ∀ nb ∈ fetch_adjacent_nodes c g.rows g.cols,
            g.is_traversable nb = true →
              (st.fwd_map.lookup nb).isSome = true := by
        intro c hc
        rcases h5 c hc with hq | hcl
        · rw [hqf] at hq
          exact absurd hq (List.not_mem_nil c)
        · exact hcl
      have hgoalkey := key_closure_walk g st.fwd_map hclosed p0 g.start_pos
        hhead (by rw [h3]; rfl) hchainp htravp g.goal_pos hlast
      have hmem := h7 hgoalkey
      rw [hqf] at hmem
      exact absurd hmem (List.not_mem_nil _)
    · rcases hqb : st.bwd_work with - | ⟨node_b, bRest⟩
      · exfalso
        have hclosed : ∀ c, (st.bwd_map.lookup c).isSome = true →
            ∀ nb ∈ fetch_adjacent_nodes c g.rows g.cols,
              g.is_traversable nb = true →
                (st.bwd_map.lookup nb).isSome = true := by
          intro c hc
          rcases h6 c hc with hq | hcl
          · rw [hqb] at hq
            exact absurd hq (List.not_mem_nil c)
          · exact hcl
        have hrevchain : List.Chain' (Adjacent g) p0.reverse := by
          rw [List.chain'_reverse]
          exact chain_flip_adjacent g p0 htravp hchainp
        have hrevhead : p0.reverse.head? = some g.goal_pos := by
          rw [List.head?_reverse]
          exact hlast
        have hrevlast : p0.reverse.getLast? = some g.start_pos := by
          rw [List.getLast?_reverse]
          exact hhead
        have hstartkey := key_closure_walk g st.bwd_map hclosed p0.reverse
          g.goal_pos hrevhead (by rw [h4]; rfl) hrevchain
          (fun c hc => htravp c (List.mem_reverse.mp hc)) g.start_pos
          hrevlast
        have hmem := h8 hstartkey
        rw [hqb] at hmem
        exact absurd hmem (List.not_mem_nil _)
      · have hnf_key : (st.fwd_map.lookup node_f).isSome = true :=
          h1 node_f (by rw [hqf]; exact List.mem_cons_self _ _)
        have hnb_key : (st.bwd_map.lookup node_b).isSome = true :=
          h2 node_b (by rw [hqb]; exact List.mem_cons_self _ _)
        simp only [biLoop, hqf, hqb]
        split_ifs with hgF hgB
        · obtain ⟨⟨route, vis2, frames2⟩, hout⟩ := bridge_success l
            ⟨st.vis.front_nodes, listInsert node_f st.vis.history,
             some node_f, st.vis.trajectory⟩
            (refresh_view l "Bidirectional Pathmaking"
              " (Exploring Forward)"
              ⟨st.vis.front_nodes, listInsert node_f st.vis.history,
               some node_f, st.vis.trajectory⟩ st.frames)
            h3 h4 h9 h10 hnf_key hgF
          rw [hout]
          exact ⟨route, _, rfl⟩
        · have hf0 : (biScan g node_f
              (fetch_adjacent_nodes node_f g.rows g.cols) st.fwd_map fRest
              st.fwdOverwrote
              ⟨st.vis.front_nodes, listInsert node_f st.vis.history,
               some node_f, st.vis.trajectory⟩).1.lookup g.start_pos =
              some none := by
            rw [biScan_lookup_of_isSome g node_f
              (fetch_adjacent_nodes node_f g.rows g.cols) st.fwd_map fRest
              st.fwdOverwrote
              ⟨st.vis.front_nodes, listInsert node_f st.vis.history,
               some node_f, st.vis.trajectory⟩ g.start_pos
              (by rw [h3]; rfl)]
            exact h3
          have hfch := biScan_chains g node_f g.start_pos
            (fetch_adjacent_nodes node_f g.rows g.cols) st.fwd_map fRest
            st.fwdOverwrote
            ⟨st.vis.front_nodes, listInsert node_f st.vis.history,
             some node_f, st.vis.trajectory⟩
            (by rw [h3]; rfl) hnf_key h9
          obtain ⟨⟨route, vis2, frames2⟩, hout⟩ := bridge_success l
            ⟨(biScan g node_f (fetch_adjacent_nodes node_f g.rows g.cols)
                st.fwd_map fRest st.fwdOverwrote
                ⟨st.vis.front_nodes, listInsert node_f st.vis.history,
                 some node_f, st.vis.trajectory⟩).2.2.2.front_nodes,
             listInsert node_b
               (biScan g node_f (fetch_adjacent_nodes node_f g.rows g.cols)
                 st.fwd_map fRest st.fwdOverwrote
                 ⟨st.vis.front_nodes, listInsert node_f st.vis.history,
                  some node_f, st.vis.trajectory⟩).2.2.2.history,
             some node_b,
             (biScan g node_f (fetch_adjacent_nodes node_f g.rows g.cols)
               st.fwd_map fRest st.fwdOverwrote
               ⟨st.vis.front_nodes, listInsert node_f st.vis.history,
                some node_f, st.vis.trajectory⟩).2.2.2.trajectory⟩
            (refresh_view l "Bidirectional Pathmaking"
              " (Exploring Backward)"
              ⟨(biScan g node_f (fetch_adjacent_nodes node_f g.rows g.cols)
                  st.fwd_map fRest st.fwdOverwrote
                  ⟨st.vis.front_nodes, listInsert node_f st.vis.history,
                   some node_f, st.vis.trajectory⟩).2.2.2.front_nodes,
               listInsert node_b
                 (biScan g node_f
                   (fetch_adjacent_nodes node_f g.rows g.cols) st.fwd_map
                   fRest st.fwdOverwrote
                   ⟨st.vis.front_nodes, listInsert node_f st.vis.history,
                    some node_f, st.vis.trajectory⟩).2.2.2.history,
               some node_b,
               (biScan g node_f (fetch_adjacent_nodes node_f g.rows g.cols)
                 st.fwd_map fRest st.fwdOverwrote
                 ⟨st.vis.front_nodes, listInsert node_f st.vis.history,
                  some node_f, st.vis.trajectory⟩).2.2.2.trajectory⟩
              (refresh_view l "Bidirectional Pathmaking"
                " (Exploring Forward)"
                ⟨st.vis.front_nodes, listInsert node_f st.vis.history,
                 some node_f, st.vis.trajectory⟩ st.frames))
            hf0 h4 hfch h10 hgB hnb_key
          rw [hout]
          exact ⟨route, _, rfl⟩
        · refine ih _ ?_ ?_ ?_ ?_ ?_ ?_ ?_ ?_ ?_ ?_ ?_
          · dsimp only
            refine biScan_queue_keys g node_f
              (fetch_adjacent_nodes node_f g.rows g.cols) st.fwd_map fRest
              st.fwdOverwrote _ ?_
            intro c hc
            exact h1 c (by rw [hqf]; exact List.mem_cons_of_mem _ hc)
          · dsimp only
            refine biScan_queue_keys g node_b
              (fetch_adjacent_nodes node_b g.rows g.cols) st.bwd_map bRest
              st.bwdOverwrote _ ?_
            intro c hc
            exact h2 c (by rw [hqb]; exact List.mem_cons_of_mem _ hc)
          · dsimp only
            rw [biScan_lookup_of_isSome g node_f
              (fetch_adjacent_nodes node_f g.rows g.cols) st.fwd_map fRest
              st.fwdOverwrote
              ⟨st.vis.front_nodes, listInsert node_f st.vis.history,
               some node_f, st.vis.trajectory⟩ g.start_pos
              (by rw [h3]; rfl)]
            exact h3
          · dsimp only
            rw [biScan_lookup_of_isSome g node_b
              (fetch_adjacent_nodes node_b g.rows g.cols) st.bwd_map bRest
              st.bwdOverwrote _ g.goal_pos (by rw [h4]; rfl)]
            exact h4
          · dsimp only
            intro c hc
            rcases biScan_key_src g node_f
              (fetch_adjacent_nodes node_f g.rows g.cols) st.fwd_map fRest
              st.fwdOverwrote _ c hc with hold | hnew
            · rcases h5 c hold with hq | hcl
              · rw [hqf] at hq
                rcases List.mem_cons.mp hq with hcf | hcf
                · subst hcf
                  refine Or.inr ?_
                  intro nb hnbmem hnbtrav
                  exact biScan_scanned_closed g c
                    (fetch_adjacent_nodes c g.rows g.cols) st.fwd_map fRest
                    st.fwdOverwrote _ nb hnbmem hnbtrav
                · exact Or.inl (biScan_queue_mono g node_f
                    (fetch_adjacent_nodes node_f g.rows g.cols) st.fwd_map
                    fRest st.fwdOverwrote _ c hcf)
              · refine Or.inr ?_
                intro nb hnbmem hnbtrav
                exact biScan_key_mono g node_f
                  (fetch_adjacent_nodes node_f g.rows g.cols) st.fwd_map
                  fRest st.fwdOverwrote _ nb (hcl nb hnbmem hnbtrav)
            · exact Or.inl hnew
          · dsimp only
            intro c hc
            rcases biScan_key_src g node_b
              (fetch_adjacent_nodes node_b g.rows g.cols) st.bwd_map bRest
              st.bwdOverwrote _ c hc with hold | hnew
            · rcases h6 c hold with hq | hcl
              · rw [hqb] at hq
                rcases List.mem_cons.mp hq with hcb | hcb
                · subst hcb
                  refine Or.inr ?_
                  intro nb hnbmem hnbtrav
                  exact biScan_scanned_closed g c
                    (fetch_adjacent_nodes c g.rows g.cols) st.bwd_map bRest
                    st.bwdOverwrote _ nb hnbmem hnbtrav
                · exact Or.inl (biScan_queue_mono g node_b
                    (fetch_adjacent_nodes node_b g.rows g.cols) st.bwd_map
                    bRest st.bwdOverwrote _ c hcb)
              · refine Or.inr ?_
                intro nb hnbmem hnbtrav
                exact biScan_key_mono g node_b
                  (fetch_adjacent_nodes node_b g.rows g.cols) st.bwd_map
                  bRest st.bwdOverwrote _ nb (hcl nb hnbmem hnbtrav)
            · exact Or.inl hnew
          · dsimp only
            intro hgk
            rcases biScan_key_src g node_f
              (fetch_adjacent_nodes node_f g.rows g.cols) st.fwd_map fRest
              st.fwdOverwrote _ g.goal_pos hgk with hold | hnew
            · have hq := h7 hold
              rw [hqf] at hq
              rcases List.mem_cons.mp hq with hgf | hgf
              · exfalso
                apply hgF
                rw [← hgf, h4]
                rfl
              · exact biScan_queue_mono g node_f
                  (fetch_adjacent_nodes node_f g.rows g.cols) st.fwd_map
                  fRest st.fwdOverwrote _ g.goal_pos hgf
            · exact hnew
          · dsimp only
            intro hsk
            rcases biScan_key_src g node_b
              (fetch_adjacent_nodes node_b g.rows g.cols) st.bwd_map bRest
              st.bwdOverwrote _ g.start_pos hsk with hold | hnew
            · have hq := h8 hold
              rw [hqb] at hq
              rcases List.mem_cons.mp hq with hsb | hsb
              · exfalso
                apply hgB
                rw [← hsb]
                rw [biScan_lookup_of_isSome g node_f
                  (fetch_adjacent_nodes node_f g.rows g.cols) st.fwd_map
                  fRest st.fwdOverwrote
                  ⟨st.vis.front_nodes, listInsert node_f st.vis.history,
                   some node_f, st.vis.trajectory⟩ g.start_pos
                  (by rw [h3]; rfl)]
                rw [h3]
                rfl
              · exact biScan_queue_mono g node_b
                  (fetch_adjacent_nodes node_b g.rows g.cols) st.bwd_map
                  bRest st.bwdOverwrote _ g.start_pos hsb
            · exact hnew
          · dsimp only
            exact biScan_chains g node_f g.start_pos
              (fetch_adjacent_nodes node_f g.rows g.cols) st.fwd_map fRest
              st.fwdOverwrote _ (by rw [h3]; rfl) hnf_key h9
          · dsimp only
            exact biScan_chains g node_b g.goal_pos
              (fetch_adjacent_nodes node_b g.rows g.cols) st.bwd_map bRest
              st.bwdOverwrote _ (by rw [h4]; rfl) hnb_key h10
          · dsimp only
            have hms := biScan_measure g node_f
              (fetch_adjacent_nodes node_f g.rows g.cols) st.fwd_map fRest
              st.fwdOverwrote
              ⟨st.vis.front_nodes, listInsert node_f st.vis.history,
               some node_f, st.vis.trajectory⟩
            rw [hqf] at hm
            simp only [List.length_cons] at hm
            omega

theorem run_bi_complete (g : NavigationGrid) (l : ℚ) (p0 : List Coord)
    (hvp : ValidPath g p0) :
    ∃ route, pathOf (run_bi_search g l) = some (some route) := by
  have hsingle : ∀ (k : Coord) (c : Coord),
      (([(k, (none : Option Coord))] : Links).lookup c).isSome = true →
      c = k := by
    intro k c hc
    by_cases hck : c = k
    · exact hck
    · rw [lookup_cons_ne hck] at hc
      cases hc
  obtain ⟨route, st2, hloop⟩ := biLoop_complete g l p0 hvp (biFuel g)
    (biInit g)
    (by
      intro c hc
      have hcs : c = g.start_pos := by simpa [biInit] using hc
      rw [hcs]
      dsimp only [biInit]
      rw [lookup_cons_self]
      rfl)
    (by
      intro c hc
      have hcs : c = g.goal_pos := by simpa [biInit] using hc
      rw [hcs]
      dsimp only [biInit]
      rw [lookup_cons_self]
      rfl)
    lookup_cons_self
    lookup_cons_self
    (by
      intro c hc
      have hcs := hsingle g.start_pos c hc
      rw [hcs]
      exact Or.inl (by simp [biInit]))
    (by
      intro c hc
      have hcs := hsingle g.goal_pos c hc
      rw [hcs]
      exact Or.inl (by simp [biInit]))
    (by
      intro hgk
      have hcs := hsingle g.start_pos g.goal_pos hgk
      rw [hcs]
      exact (by simp [biInit]))
    (by
      intro hsk
      have hcs := hsingle g.goal_pos g.start_pos hsk
      rw [hcs]
      exact (by simp [biInit]))
    (by
      intro c hc
      have hcs := hsingle g.start_pos c hc
      rw [hcs]
      refine ⟨[g.start_pos], Traces.base, List.nodup_singleton _, ?_⟩
      intro x hx
      have hxs : x = g.start_pos := by simpa using hx
      rw [hxs]
      dsimp only [biInit]
      rw [lookup_cons_self]
      rfl)
    (by
      intro c hc
      have hcs := hsingle g.goal_pos c hc
      rw [hcs]
      refine ⟨[g.goal_pos], Traces.base, List.nodup_singleton _, ?_⟩
      intro x hx
      have hxs : x = g.goal_pos := by simpa using hx
      rw [hxs]
      dsimp only [biInit]
      rw [lookup_cons_self]
      rfl)
    (by
      have hle : biUnseen g (biInit g).fwd_map ≤ (allCells g).length :=
        List.countP_le_length _
      have hlen := allCells_length_le g
      show 1 + biUnseen g (biInit g).fwd_map < (g.rows * g.cols).toNat + 2
      omega)
  rw [run_bi_search, pathOf, hloop]
  exact ⟨route, rfl⟩

/-- C4: on every grid, if a traversable path from start to goal exists,
`run_bfs`, `run_ucs` and `run_bi_search` each return a path (not `None`);
`run_iddfs` returns a path whenever its `upper_limit` is at least the
path's length in steps (so in particular whenever it is at least the
shortest path length). -/
theorem searches_complete (g : NavigationGrid) (l : ℚ) (lim : ℤ)
    (p0 : List Coord) (hvp : ValidPath g p0) :
    (∃ route, pathOf (run_bfs g l) = some (some route)) ∧
    (∃ route, pathOf (run_ucs g l) = some (some route)) ∧
    (∃ route, pathOf (run_bi_search g l) = some (some route)) ∧
    ((p0.length : ℤ) ≤ lim + 1 →
      ∃ route, pathOf (run_iddfs g lim l) = some (some route)) :=
  ⟨run_bfs_complete g l p0 hvp, run_ucs_complete g l p0 hvp,
   run_bi_complete g l p0 hvp,
   fun hlen => run_iddfs_complete g lim l p0 hvp hlen⟩

theorem searches_complete_witness :
    ValidPath gScenario [((4 : ℤ), (4 : ℤ)), ((3 : ℤ), (4 : ℤ))] ∧
    ((∃ route, pathOf (run_bfs gScenario 0) = some (some route)) ∧
     (∃ route, pathOf (run_ucs gScenario 0) = some (some route)) ∧
     (∃ route, pathOf (run_bi_search gScenario 0) = some (some route)) ∧
     ((([((4 : ℤ), (4 : ℤ)), ((3 : ℤ), (4 : ℤ))] : List Coord).length : ℤ) ≤
        1 + 1 →
      ∃ route, pathOf (run_iddfs gScenario 1 0) = some (some route))) := by
  have hvp : ValidPath gScenario
      [((4 : ℤ), (4 : ℤ)), ((3 : ℤ), (4 : ℤ))] := by
    refine ⟨by decide, by decide, by decide, by decide, ?_⟩
    rw [List.chain'_pair]
    decide
  exact ⟨hvp, searches_complete gScenario 0 1
    [((4 : ℤ), (4 : ℤ)), ((3 : ℤ), (4 : ℤ))] hvp⟩

/-! ## BFS optimality (claim C3, first half) -/

/-- A start-rooted walk to `c`: adjacency-chained, with every cell after
the start traversable.  (Start traversability is not required, matching
the algorithms, which never test it; every `ValidPath` is such a walk.) -/
def PathTo (g : NavigationGrid) (c : Coord) (p : List Coord) : Prop :=
  p.head? = some g.start_pos ∧ p.getLast? = some c ∧
    List.Chain' (Adjacent g) p ∧ ∀ x ∈ p.tail, g.is_traversable x = true

theorem PathTo_of_validPath {g : NavigationGrid} {p : List Coord}
    (h : ValidPath g p) : PathTo g g.goal_pos p := by
  obtain ⟨-, hh, hl, htv, hch⟩ := h
  exact ⟨hh, hl, hch, fun x hx => htv x (List.mem_of_mem_tail hx)⟩

/-- `c`'s parent chain has length `n`, and runs through discovered
cells. -/
def DepthIn (g : NavigationGrid) (m : Links) (seen : List Coord)
    (c : Coord) (n : ℕ) : Prop :=
  ∃ ch, Traces m g.start_pos c ch ∧
    (∀ x ∈ ch, seen.contains x = true) ∧ ch.length = n

theorem DepthIn_unique {g : NavigationGrid} {m : Links} {seen : List Coord}
    {c : Coord} {i j : ℕ} (hi : DepthIn g m seen c i)
    (hj : DepthIn g m seen c j) : i = j := by
  obtain ⟨ch1, h1, -, hl1⟩ := hi
  obtain ⟨ch2, h2, -, hl2⟩ := hj
  rw [← hl1, ← hl2, Traces.unique h1 h2]

theorem DepthIn.entry_keep {g : NavigationGrid} {m : Links}
    {seen : List Coord} {nb c : Coord} {v : Option Coord} {k : ℕ}
    (hnb : seen.contains nb = false) (h : DepthIn g m seen c k) :
    DepthIn g ((nb, v) :: m) (listInsert nb seen) c k := by
  obtain ⟨ch, htr, hs, hl⟩ := h
  have hnm : nb ∉ ch := fun hmem => by
    rw [hs nb hmem] at hnb
    cases hnb
  exact ⟨ch, htr.cons_of_notMem hnm,
    fun x hx => contains_listInsert_mono (hs x hx) nb, hl⟩

theorem DepthIn.entry_new {g : NavigationGrid} {m : Links}
    {seen : List Coord} {pos nb : Coord} {k0 : ℕ}
    (hpos : DepthIn g m seen pos k0) (hnb : seen.contains nb = false)
    (hstart : seen.contains g.start_pos = true) :
    DepthIn g ((nb, some pos) :: m) (listInsert nb seen) nb (k0 + 1) := by
  obtain ⟨ch, htr, hs, hl⟩ := hpos
  have hnm : nb ∉ ch := fun hmem => by
    rw [hs nb hmem] at hnb
    cases hnb
  have hnstart : nb ≠ g.start_pos := fun he => by
    rw [he, hstart] at hnb
    cases hnb
  refine ⟨ch ++ [nb],
    Traces.step nb pos ch hnstart lookup_cons_self
      (htr.cons_of_notMem hnm), ?_, by simp [hl]⟩
  intro x hx
  rcases List.mem_append.mp hx with h1 | h1
  · exact contains_listInsert_mono (hs x h1) nb
  · have hxnb : x = nb := by simpa using h1
    rw [hxnb]
    exact contains_listInsert_self nb seen

theorem bfsScan_depth_mono (g : NavigationGrid) (pos : Coord)
    (node : SearchNode) : ∀ (nbs : List Coord) (st : BfsState) (c : Coord)
    (k : ℕ), DepthIn g st.path_tracker st.seen_coords c k →
    DepthIn g (bfsScan g pos node nbs st).path_tracker
      (bfsScan g pos node nbs st).seen_coords c k := by
  intro nbs
  induction nbs with
  | nil => intro st c k h; exact h
  | cons nb rest ih =>
    intro st c k h
    rw [bfsScan]
    by_cases hcnd : (!(st.seen_coords.contains nb) && g.is_traversable nb) =
        true
    · rw [if_pos hcnd]
      have hnb : st.seen_coords.contains nb = false := by
        rw [Bool.and_eq_true] at hcnd
        have h1 := hcnd.1
        rwa [Bool.not_eq_true'] at h1
      exact ih _ c k (DepthIn.entry_keep hnb h)
    · rw [if_neg hcnd]
      exact ih st c k h

theorem bfsScan_queue_split (g : NavigationGrid) (pos : Coord)
    (node : SearchNode) : ∀ (nbs : List Coord) (st : BfsState) (k0 : ℕ),
    DepthIn g st.path_tracker st.seen_coords pos k0 →
    st.seen_coords.contains g.start_pos = true →
    ∃ news, (bfsScan g pos node nbs st).work_queue =
        st.work_queue ++ news ∧
      ∀ n ∈ news, DepthIn g (bfsScan g pos node nbs st).path_tracker
        (bfsScan g pos node nbs st).seen_coords n.coord (k0 + 1) := by
  intro nbs
  induction nbs with
  | nil => intro st k0 hp hs; exact ⟨[], by rw [bfsScan]; simp, by simp⟩
  | cons nb rest ih =>
    intro st k0 hp hs
    rw [bfsScan]
    by_cases hcnd : (!(st.seen_coords.contains nb) && g.is_traversable nb) =
        true
    · rw [if_pos hcnd]
      have hnb : st.seen_coords.contains nb = false := by
        rw [Bool.and_eq_true] at hcnd
        have h1 := hcnd.1
        rwa [Bool.not_eq_true'] at h1
      obtain ⟨news, hqeq, hdeep⟩ := ih
        ⟨st.work_queue ++ [SearchNode.new nb (some node) 0],
         listInsert nb st.seen_coords, (nb, some pos) :: st.path_tracker,
         st.overwrote || (st.path_tracker.lookup nb).isSome,
         ⟨listInsert nb st.vis.front_nodes, st.vis.history,
          st.vis.active_node, st.vis.trajectory⟩, st.frames⟩
        k0 (DepthIn.entry_keep hnb hp)
        (contains_listInsert_mono hs nb)
      refine ⟨SearchNode.new nb (some node) 0 :: news, ?_, ?_⟩
      · rw [hqeq]
        simp
      · intro n hn
        rcases List.mem_cons.mp hn with h1 | h1
        · rw [h1]
          show DepthIn g _ _ nb (k0 + 1)
          have hnew : DepthIn g ((nb, some pos) :: st.path_tracker)
              (listInsert nb st.seen_coords) nb (k0 + 1) :=
            DepthIn.entry_new hp hnb hs
          exact bfsScan_depth_mono g pos node rest _ nb (k0 + 1) hnew
        · exact hdeep n h1
    · rw [if_neg hcnd]
      exact ih st k0 hp hs

theorem bfsScan_depth_src (g : NavigationGrid) (pos : Coord)
    (node : SearchNode) : ∀ (nbs : List Coord) (st : BfsState) (k0 : ℕ),
    DepthIn g st.path_tracker st.seen_coords pos k0 →
    st.seen_coords.contains g.start_pos = true →
    ∀ c, (bfsScan g pos node nbs st).seen_coords.contains c = true →
      st.seen_coords.contains c = true ∨
      DepthIn g (bfsScan g pos node nbs st).path_tracker
        (bfsScan g pos node nbs st).seen_coords c (k0 + 1) := by
  intro nbs
  induction nbs with
  | nil => intro st k0 hp hs c hc; exact Or.inl hc
  | cons nb rest ih =>
    intro st k0 hp hs c hc
    rw [bfsScan] at hc
    by_cases hcnd : (!(st.seen_coords.contains nb) && g.is_traversable nb) =
        true
    · rw [if_pos hcnd] at hc
      have hnb : st.seen_coords.contains nb = false := by
        rw [Bool.and_eq_true] at hcnd
        have h1 := hcnd.1
        rwa [Bool.not_eq_true'] at h1
      rcases ih _ k0 (DepthIn.entry_keep hnb hp)
          (contains_listInsert_mono hs nb) c hc with h1 | h1
      · rcases contains_listInsert_cases h1 with h2 | h2
        · exact Or.inl h2
        · refine Or.inr ?_
          rw [bfsScan, if_pos hcnd]
          have hnew : DepthIn g ((nb, some pos) :: st.path_tracker)
              (listInsert nb st.seen_coords) c (k0 + 1) := by
            rw [h2]
            exact DepthIn.entry_new hp hnb hs
          exact bfsScan_depth_mono g pos node rest _ c (k0 + 1) hnew
      · refine Or.inr ?_
        rw [bfsScan, if_pos hcnd]
        exact h1
    · rw [if_neg hcnd] at hc
      rcases ih st k0 hp hs c hc with h1 | h1
      · exact Or.inl h1
      · refine Or.inr ?_
        rw [bfsScan, if_neg hcnd]
        exact h1

/-- The BFS layering invariant: the queue splits into a front block `A`
of cells at parent-chain depth `d` and a back block `B` at depth `d + 1`;
discovered cells have depth at most `d + 1`; finished (discovered,
no-longer-queued) cells have depth at most `d`, minimal over all
start-rooted walks, and neighbors within one extra step. -/
structure BfsOptInv (g : NavigationGrid) (st : BfsState) (d : ℕ)
    (A B : List SearchNode) : Prop where
  queue_eq : st.work_queue = A ++ B
  queue_seen : ∀ n ∈ st.work_queue, st.seen_coords.contains n.coord = true
  start_seen : st.seen_coords.contains g.start_pos = true
  seen_closure : ∀ c, st.seen_coords.contains c = true →
    (∃ n ∈ st.work_queue, n.coord = c) ∨ bfsClosed g st.seen_coords c
  traces_all : ∀ c, st.seen_coords.contains c = true →
    ∃ p, Traces st.path_tracker g.start_pos c p ∧
      p.length ≤ st.path_tracker.length + 1 ∧
      ∀ x ∈ p, st.seen_coords.contains x = true
  lenA : ∀ n ∈ A, DepthIn g st.path_tracker st.seen_coords n.coord d
  lenB : ∀ n ∈ B, DepthIn g st.path_tracker st.seen_coords n.coord (d + 1)
  seen_depth : ∀ c, st.seen_coords.contains c = true →
    ∃ k, k ≤ d + 1 ∧ DepthIn g st.path_tracker st.seen_coords c k
  closed_depth : ∀ c, st.seen_coords.contains c = true →
    (∀ n ∈ st.work_queue, n.coord ≠ c) →
    ∃ k, k ≤ d ∧ DepthIn g st.path_tracker st.seen_coords c k
  closed_opt : ∀ c, st.seen_coords.contains c = true →
    (∀ n ∈ st.work_queue, n.coord ≠ c) →
    ∀ k, DepthIn g st.path_tracker st.seen_coords c k →
    ∀ p, PathTo g c p → k ≤ p.length
  closed_nbr_depth : ∀ y, st.seen_coords.contains y = true →
    (∀ n ∈ st.work_queue, n.coord ≠ y) →
    ∀ z ∈ fetch_adjacent_nodes y g.rows g.cols,
      g.is_traversable z = true →
      ∀ ky kz, DepthIn g st.path_tracker st.seen_coords y ky →
        DepthIn g st.path_tracker st.seen_coords z kz → kz ≤ ky + 1

/-- At a pop, the front node's parent-chain depth is at most the length
of any start-rooted walk reaching its cell: dequeued cells are settled at
their BFS layer. -/
theorem bfs_pop_min (g : NavigationGrid) (st : BfsState) (d : ℕ)
    (A B : List SearchNode) (node : SearchNode) (rest : List SearchNode)
    (inv : BfsOptInv g st d A B) (hqe : st.work_queue = node :: rest) :
    ∀ k, DepthIn g st.path_tracker st.seen_coords node.coord k →
    ∀ p, PathTo g node.coord p → k ≤ p.length := by
  intro k hk p hp
  obtain ⟨hphead, hplast, hpchain, hptrav⟩ := hp
  have hwalk : ∀ pa : List Coord, ∀ (x : Coord) (kx : ℕ),
      pa.head? = some x → st.seen_coords.contains x = true →
      DepthIn g st.path_tracker st.seen_coords x kx →
      List.Chain' (Adjacent g) pa →
      (∀ c ∈ pa.tail, g.is_traversable c = true) →
      ∀ y, pa.getLast? = some y →
      (∃ z kz, (∃ n ∈ st.work_queue, n.coord = z) ∧
        DepthIn g st.path_tracker st.seen_coords z kz ∧
        kz + 1 ≤ kx + pa.length) ∨
      ((∀ n ∈ st.work_queue, n.coord ≠ y) ∧
        ∃ ky, DepthIn g st.path_tracker st.seen_coords y ky ∧
        ky + 1 ≤ kx + pa.length) := by
    intro pa
    induction pa with
    | nil => intro x kx hx; cases hx
    | cons a as ihp =>
      intro x kx hhx hxseen hxdep hch htv y hy
      have hax : a = x := by simpa using hhx
      subst hax
      by_cases hq : ∃ n ∈ st.work_queue, n.coord = a
      · refine Or.inl ⟨a, kx, hq, hxdep, ?_⟩
        simp only [List.length_cons]
        omega
      · have hnq : ∀ n ∈ st.work_queue, n.coord ≠ a := by
          intro n hn he
          exact hq ⟨n, hn, he⟩
        rcases as with - | ⟨b, as2⟩
        · have hay : a = y := by simpa using hy
          subst hay
          exact Or.inr ⟨hnq, kx, hxdep, by simp⟩
        · have hab : Adjacent g a b := (List.chain'_cons.mp hch).1
          have hchb := (List.chain'_cons.mp hch).2
          have hclosed : bfsClosed g st.seen_coords a := by
            rcases inv.seen_closure a hxseen with hq2 | h2
            · exact absurd hq2 hq
            · exact h2
          have hbtrav : g.is_traversable b = true := htv b (by simp)
          have hbseen : st.seen_coords.contains b = true :=
            hclosed b hab hbtrav
          obtain ⟨kb, hkb_le, hkb⟩ := inv.seen_depth b hbseen
          have hkb_bound : kb ≤ kx + 1 :=
            inv.closed_nbr_depth a hxseen hnq b hab hbtrav kx kb hxdep hkb
          rcases ihp b kb rfl hbseen hkb hchb
            (fun c hc => htv c (List.mem_cons_of_mem _ hc)) y
            (by rwa [List.getLast?_cons_cons] at hy) with h1 | h1
          · obtain ⟨z, kz, hzq, hzdep, hzb⟩ := h1
            refine Or.inl ⟨z, kz, hzq, hzdep, ?_⟩
            simp only [List.length_cons] at hzb ⊢
            omega
          · obtain ⟨hynq, ky, hydep, hyb⟩ := h1
            refine Or.inr ⟨hynq, ky, hydep, ?_⟩
            simp only [List.length_cons] at hyb ⊢
            omega
  have hstart_dep : DepthIn g st.path_tracker st.seen_coords g.start_pos 1 :=
    ⟨[g.start_pos], Traces.base, by
      intro x hx
      have hxs : x = g.start_pos := by simpa using hx
      rw [hxs]
      exact inv.start_seen, rfl⟩
  rcases hwalk p g.start_pos 1 hphead inv.start_seen hstart_dep hpchain
    hptrav node.coord hplast with h1 | h1
  · obtain ⟨z, kz, ⟨n, hnq, hncoord⟩, hzdep, hzb⟩ := h1
    have hfront : k ≤ kz := by
      rcases hA : A with - | ⟨a0, A2⟩
      · have hBq : st.work_queue = B := by
          rw [inv.queue_eq, hA]
          rfl
        have hnodeB : node ∈ B := by
          rw [← hBq, hqe]
          exact List.mem_cons_self _ _
        have hkd : k = d + 1 := DepthIn_unique hk (inv.lenB node hnodeB)
        have hnB : n ∈ B := by
          rw [← hBq]
          exact hnq
        have hz2 := inv.lenB n hnB
        rw [hncoord] at hz2
        have hkz : kz = d + 1 := DepthIn_unique hzdep hz2
        omega
      · have hcons : a0 :: (A2 ++ B) = node :: rest := by
          rw [← List.cons_append, ← hA, ← inv.queue_eq, hqe]
        injection hcons with hh ht
        have hnodeA : node ∈ A := by
          rw [hA, hh]
          exact List.mem_cons_self _ _
        have hkd : k = d := DepthIn_unique hk (inv.lenA node hnodeA)
        have hnAB : n ∈ A ++ B := by
          rw [← inv.queue_eq]
          exact hnq
        rcases List.mem_append.mp hnAB with hnA | hnB
        · have hz2 := inv.lenA n hnA
          rw [hncoord] at hz2
          have hkz : kz = d := DepthIn_unique hzdep hz2
          omega
        · have hz2 := inv.lenB n hnB
          rw [hncoord] at hz2
          have hkz : kz = d + 1 := DepthIn_unique hzdep hz2
          omega
    omega
  · obtain ⟨hynq, -⟩ := h1
    exact absurd rfl (hynq node (by rw [hqe]; exact List.mem_cons_self _ _))

theorem bfsOpt_step (g : NavigationGrid) (st : BfsState)
    (node : SearchNode) (rest : List SearchNode) (st0 : BfsState) (d' : ℕ)
    (A2 B2 : List SearchNode)
    (inv : BfsOptInv g st d' (node :: A2) B2)
    (hqe : st.work_queue = node :: rest)
    (h0q : st0.work_queue = rest)
    (h0s : st0.seen_coords = st.seen_coords)
    (h0t : st0.path_tracker = st.path_tracker) :
    ∃ news, BfsOptInv g
      (bfsScan g node.coord node
        (fetch_adjacent_nodes node.coord g.rows g.cols) st0)
      d' A2 (B2 ++ news) := by
  have hrest2 : rest = A2 ++ B2 := by
    have hcons : node :: (A2 ++ B2) = node :: rest := by
      rw [← List.cons_append, ← inv.queue_eq, hqe]
    injection hcons with h1 h2
    exact h2.symm
  have hk0 : DepthIn g st0.path_tracker st0.seen_coords node.coord d' := by
    rw [h0t, h0s]
    exact inv.lenA node (List.mem_cons_self _ _)
  have hstart0 : st0.seen_coords.contains g.start_pos = true := by
    rw [h0s]
    exact inv.start_seen
  obtain ⟨news, hqsplit, hnews⟩ := bfsScan_queue_split g node.coord node
    (fetch_adjacent_nodes node.coord g.rows g.cols) st0 d' hk0 hstart0
  have hdepth_persist : ∀ c k,
      DepthIn g st.path_tracker st.seen_coords c k →
      DepthIn g (bfsScan g node.coord node
          (fetch_adjacent_nodes node.coord g.rows g.cols) st0).path_tracker
        (bfsScan g node.coord node
          (fetch_adjacent_nodes node.coord g.rows g.cols) st0).seen_coords
        c k := by
    intro c k hdep
    refine bfsScan_depth_mono g node.coord node _ st0 c k ?_
    rw [h0t, h0s]
    exact hdep
  have hnode_dep_S : DepthIn g (bfsScan g node.coord node
      (fetch_adjacent_nodes node.coord g.rows g.cols) st0).path_tracker
      (bfsScan g node.coord node
        (fetch_adjacent_nodes node.coord g.rows g.cols) st0).seen_coords
      node.coord d' :=
    bfsScan_depth_mono g node.coord node _ st0 node.coord d' hk0
  have hclosed_char : ∀ c,
      (∀ n ∈ (bfsScan g node.coord node
        (fetch_adjacent_nodes node.coord g.rows g.cols) st0).work_queue,
        n.coord ≠ c) →
      c ≠ node.coord → ∀ n ∈ st.work_queue, n.coord ≠ c := by
    intro c hnotq hcn n hn
    rw [hqe] at hn
    rcases List.mem_cons.mp hn with h1 | h1
    · rw [h1]
      intro he
      exact hcn he.symm
    · intro he
      refine hnotq n ?_ he
      refine bfsScan_queue_mono g node.coord node _ st0 n ?_
      rw [h0q]
      exact h1
  refine ⟨news, ?_, ?_, ?_, ?_, ?_, ?_, ?_, ?_, ?_, ?_, ?_⟩
  · rw [hqsplit, h0q, hrest2, List.append_assoc]
  · refine bfsScan_queue_coords g node.coord node _ st0 ?_
    intro n hn
    rw [h0s]
    refine inv.queue_seen n ?_
    rw [hqe]
    refine List.mem_cons_of_mem _ ?_
    rw [← h0q]
    exact hn
  · exact bfsScan_seen_mono g node.coord node _ st0 _ hstart0
  · intro c hc
    rcases bfsScan_seen_src g node.coord node _ st0 c hc with hold | hnew
    · rw [h0s] at hold
      rcases inv.seen_closure c hold with ⟨n, hn, hcoord⟩ | hclosed
      · rw [hqe] at hn
        rcases List.mem_cons.mp hn with h1 | h1
        · refine Or.inr ?_
          intro nb hnbmem hnbtrav
          refine bfsScan_scanned_seen g node.coord node _ st0 nb ?_ hnbtrav
          rw [h1] at hcoord
          rwa [← hcoord] at hnbmem
        · refine Or.inl ⟨n, ?_, hcoord⟩
          refine bfsScan_queue_mono g node.coord node _ st0 n ?_
          rw [h0q]
          exact h1
      · refine Or.inr ?_
        intro nb hnbmem hnbtrav
        refine bfsScan_seen_mono g node.coord node _ st0 nb ?_
        rw [h0s]
        exact hclosed nb hnbmem hnbtrav
    · exact Or.inl hnew
  · refine bfsScan_traces g node.coord node _ st0 ?_ ?_ ?_
    · rw [h0s]
      exact inv.queue_seen node (by rw [hqe]; exact List.mem_cons_self _ _)
    · exact hstart0
    · intro c hc
      rw [h0s] at hc
      rw [h0t, h0s]
      exact inv.traces_all c hc
  · intro n hn
    exact hdepth_persist n.coord d' (inv.lenA n (List.mem_cons_of_mem _ hn))
  · intro n hn
    rcases List.mem_append.mp hn with h1 | h1
    · exact hdepth_persist n.coord (d' + 1) (inv.lenB n h1)
    · exact hnews n h1
  · intro c hc
    rcases bfsScan_depth_src g node.coord node _ st0 d' hk0 hstart0 c hc
      with hold | hnew
    · rw [h0s] at hold
      obtain ⟨k, hk, hdep⟩ := inv.seen_depth c hold
      exact ⟨k, hk, hdepth_persist c k hdep⟩
    · exact ⟨d' + 1, le_refl _, hnew⟩
  · intro c hc hnotq
    rcases bfsScan_seen_src g node.coord node _ st0 c hc with hold | hnew
    · rw [h0s] at hold
      by_cases hcn : c = node.coord
      · refine ⟨d', le_refl _, ?_⟩
        rw [hcn]
        exact hnode_dep_S
      · obtain ⟨k, hk, hdep⟩ := inv.closed_depth c hold
          (hclosed_char c hnotq hcn)
        exact ⟨k, hk, hdepth_persist c k hdep⟩
    · exfalso
      obtain ⟨n, hn, hcoord⟩ := hnew
      exact hnotq n hn hcoord
  · intro c hc hnotq k hkS p hp
    rcases bfsScan_seen_src g node.coord node _ st0 c hc with hold | hnew
    · rw [h0s] at hold
      by_cases hcn : c = node.coord
      · have h2 : DepthIn g (bfsScan g node.coord node
            (fetch_adjacent_nodes node.coord g.rows g.cols)
            st0).path_tracker
            (bfsScan g node.coord node
              (fetch_adjacent_nodes node.coord g.rows g.cols)
              st0).seen_coords c d' := by
          rw [hcn]
          exact hnode_dep_S
        have hkd : k = d' := DepthIn_unique hkS h2
        have hmin := bfs_pop_min g st d' (node :: A2) B2 node rest inv hqe
          d' (inv.lenA node (List.mem_cons_self _ _)) p
          (by rw [← hcn]; exact hp)
        rw [hkd]
        exact hmin
      · have hstq := hclosed_char c hnotq hcn
        obtain ⟨k2, -, hdep2⟩ := inv.closed_depth c hold hstq
        have hkk : k = k2 := DepthIn_unique hkS (hdepth_persist c k2 hdep2)
        rw [hkk]
        exact inv.closed_opt c hold hstq k2 hdep2 p hp
    · exfalso
      obtain ⟨n, hn, hcoord⟩ := hnew
      exact hnotq n hn hcoord
  · intro y hy hnotq z hzmem hztrav ky kz hkyS hkzS
    rcases bfsScan_seen_src g node.coord node _ st0 y hy with hold | hnew
    · rw [h0s] at hold
      by_cases hyn : y = node.coord
      · have h2 : DepthIn g (bfsScan g node.coord node
            (fetch_adjacent_nodes node.coord g.rows g.cols)
            st0).path_tracker
            (bfsScan g node.coord node
              (fetch_adjacent_nodes node.coord g.rows g.cols)
              st0).seen_coords y d' := by
          rw [hyn]
          exact hnode_dep_S
        have hky' : ky = d' := DepthIn_unique hkyS h2
        have hzseenS := bfsScan_scanned_seen g node.coord node
          (fetch_adjacent_nodes node.coord g.rows g.cols) st0 z
          (by rw [← hyn]; exact hzmem) hztrav
        rcases bfsScan_depth_src g node.coord node _ st0 d' hk0 hstart0 z
          hzseenS with hzold | hznew
        · rw [h0s] at hzold
          obtain ⟨k2, hk2le, hdep2⟩ := inv.seen_depth z hzold
          have hzz : kz = k2 := DepthIn_unique hkzS
            (hdepth_persist z k2 hdep2)
          omega
        · have hzz : kz = d' + 1 := DepthIn_unique hkzS hznew
          omega
      · have hstq := hclosed_char y hnotq hyn
        obtain ⟨ky2, -, hky2⟩ := inv.closed_depth y hold hstq
        have hkyy : ky = ky2 := DepthIn_unique hkyS
          (hdepth_persist y ky2 hky2)
        have hycl : bfsClosed g st.seen_coords y := by
          rcases inv.seen_closure y hold with ⟨n, hn, hcoord⟩ | h2
          · exact absurd hcoord (hstq n hn)
          · exact h2
        have hzold : st.seen_coords.contains z = true := hycl z hzmem hztrav
        obtain ⟨kz2, -, hkz2⟩ := inv.seen_depth z hzold
        have hkzz : kz = kz2 := DepthIn_unique hkzS
          (hdepth_persist z kz2 hkz2)
        have hbnd := inv.closed_nbr_depth y hold hstq z hzmem hztrav ky2 kz2
          hky2 hkz2
        omega
    · exfalso
      obtain ⟨n, hn, hcoord⟩ := hnew
      exact hnotq n hn hcoord

theorem bfsLoop_optimal (g : NavigationGrid) (l : ℚ) :
    ∀ (fuel : ℕ) (st : BfsState) (d : ℕ) (A B : List SearchNode),
      BfsOptInv g st d A B →
      ∀ route st2, bfsLoop g l fuel st = some (some route, st2) →
        ∀ p, PathTo g g.goal_pos p → route.length ≤ p.length := by
  intro fuel
  induction fuel with
  | zero => intro st d A B inv route st2 h; cases h
  | succ fuel ih =>
    intro st d A B inv route st2 h p hp
    rcases hqe : st.work_queue with - | ⟨node, rest⟩
    · simp only [bfsLoop, hqe] at h
      simp at h
    · simp only [bfsLoop, hqe] at h
      by_cases hg : node.coord = g.goal_pos
      · rw [if_pos hg] at h
        have hnodeseen : st.seen_coords.contains node.coord = true :=
          inv.queue_seen node (by rw [hqe]; exact List.mem_cons_self _ _)
        obtain ⟨pp, hpp, hppl, hppseen⟩ := inv.traces_all node.coord
          hnodeseen
        rw [hg] at hpp
        have htrace := trace_back_path_of_traces hpp
          (st.path_tracker.length + 1) hppl
        rw [htrace] at h
        simp only [Option.some.injEq, Prod.mk.injEq] at h
        obtain ⟨hroute, -⟩ := h
        have hdep : DepthIn g st.path_tracker st.seen_coords node.coord
            pp.length := by
          refine ⟨pp, ?_, hppseen, rfl⟩
          rw [hg]
          exact hpp
        have hmin := bfs_pop_min g st d A B node rest inv hqe pp.length hdep
          p (by rw [hg]; exact hp)
        rw [← hroute]
        exact hmin
      · rw [if_neg hg] at h
        obtain ⟨d', A2, B2, inv'⟩ : ∃ d' A2 B2,
            BfsOptInv g st d' (node :: A2) B2 := by
          rcases hA : A with - | ⟨a0, A2⟩
          · have hB : A ++ B = node :: rest := inv.queue_eq.symm.trans hqe
            rw [hA, List.nil_append] at hB
            refine ⟨d + 1, rest, [], ?_, inv.queue_seen, inv.start_seen,
              inv.seen_closure, inv.traces_all, ?_, ?_, ?_, ?_,
              inv.closed_opt, inv.closed_nbr_depth⟩
            · rw [hqe, List.append_nil]
            · intro n hn
              refine inv.lenB n ?_
              rw [hB]
              exact hn
            · intro n hn
              exact absurd hn (List.not_mem_nil n)
            · intro c hc
              obtain ⟨k, hk, hdep⟩ := inv.seen_depth c hc
              exact ⟨k, by omega, hdep⟩
            · intro c hc hq
              obtain ⟨k, hk, hdep⟩ := inv.closed_depth c hc hq
              exact ⟨k, by omega, hdep⟩
          · have hcons : a0 :: (A2 ++ B) = node :: rest := by
              rw [← List.cons_append, ← hA, ← inv.queue_eq, hqe]
            injection hcons with hh ht
            refine ⟨d, A2, B, ?_, inv.queue_seen, inv.start_seen,
              inv.seen_closure, inv.traces_all, ?_, inv.lenB,
              inv.seen_depth, inv.closed_depth, inv.closed_opt,
              inv.closed_nbr_depth⟩
            · rw [hqe, List.cons_append, ht]
            · intro n hn
              refine inv.lenA n ?_
              rw [hA, hh]
              exact hn
        obtain ⟨news, invS⟩ := bfsOpt_step g st node rest
          ⟨rest, st.seen_coords, st.path_tracker, st.overwrote,
           ⟨if st.vis.front_nodes.contains node.coord then
              st.vis.front_nodes.erase node.coord
            else st.vis.front_nodes,
            listInsert node.coord st.vis.history, some node.coord,
            st.vis.trajectory⟩,
           refresh_view l "BFS Algorithm" ""
             ⟨if st.vis.front_nodes.contains node.coord then
                st.vis.front_nodes.erase node.coord
              else st.vis.front_nodes,
              listInsert node.coord st.vis.history, some node.coord,
              st.vis.trajectory⟩ st.frames⟩
          d' A2 B2 inv' hqe rfl rfl rfl
        exact ih _ d' A2 (B2 ++ news) invS route st2 h p hp

theorem run_bfs_optimal (g : NavigationGrid) (l : ℚ) (route : List Coord)
    (hrun : pathOf (run_bfs g l) = some (some route)) :
    ∀ p, PathTo g g.goal_pos p → route.length ≤ p.length := by
  have hinit : BfsOptInv g (bfsInit g) 1 [SearchNode.new g.start_pos none 0]
      [] := by
    have hsd : DepthIn g (bfsInit g).path_tracker (bfsInit g).seen_coords
        g.start_pos 1 := by
      refine ⟨[g.start_pos], Traces.base, ?_, rfl⟩
      intro x hx
      have hxs : x = g.start_pos := by simpa using hx
      rw [hxs]
      simp [bfsInit]
    refine ⟨rfl, ?_, by simp [bfsInit], ?_, ?_, ?_, ?_, ?_, ?_, ?_, ?_⟩
    · intro n hn
      have hns : n = SearchNode.new g.start_pos none 0 := by
        simpa [bfsInit] using hn
      rw [hns]
      simp [bfsInit, SearchNode.new, SearchNode.coord]
    · intro c hc
      have hcs : c = g.start_pos := by simpa [bfsInit] using hc
      refine Or.inl ⟨SearchNode.new g.start_pos none 0, by simp [bfsInit],
        ?_⟩
      rw [hcs]
      rfl
    · intro c hc
      have hcs : c = g.start_pos := by simpa [bfsInit] using hc
      rw [hcs]
      refine ⟨[g.start_pos], Traces.base, by simp [bfsInit], ?_⟩
      intro x hx
      have hxs : x = g.start_pos := by simpa using hx
      rw [hxs]
      simp [bfsInit]
    · intro n hn
      have hns : n = SearchNode.new g.start_pos none 0 := by simpa using hn
      rw [hns]
      show DepthIn g (bfsInit g).path_tracker (bfsInit g).seen_coords
        g.start_pos 1
      exact hsd
    · intro n hn
      exact absurd hn (List.not_mem_nil n)
    · intro c hc
      have hcs : c = g.start_pos := by simpa [bfsInit] using hc
      rw [hcs]
      exact ⟨1, by omega, hsd⟩
    · intro c hc hq
      exfalso
      have hcs : c = g.start_pos := by simpa [bfsInit] using hc
      refine hq (SearchNode.new g.start_pos none 0) (by simp [bfsInit]) ?_
      rw [hcs]
      rfl
    · intro c hc hq
      exfalso
      have hcs : c = g.start_pos := by simpa [bfsInit] using hc
      refine hq (SearchNode.new g.start_pos none 0) (by simp [bfsInit]) ?_
      rw [hcs]
      rfl
    · intro y hy hq
      exfalso
      have hys : y = g.start_pos := by simpa [bfsInit] using hy
      refine hq (SearchNode.new g.start_pos none 0) (by simp [bfsInit]) ?_
      rw [hys]
      rfl
  rcases hloop : bfsLoop g l (bfsFuel g) (bfsInit g) with - | ⟨res, stF⟩
  · rw [run_bfs, pathOf, hloop] at hrun
    cases hrun
  · rw [run_bfs, pathOf, hloop] at hrun
    rcases res with - | r
    · simp at hrun
    · have hr : r = route := by simpa using hrun
      rw [hr] at hloop
      exact bfsLoop_optimal g l (bfsFuel g) (bfsInit g) 1
        [SearchNode.new g.start_pos none 0] [] hinit route stF hloop

/-! ## UCS optimality (claim C3, second half) -/

theorem pathCost_nonneg : ∀ p : List Coord, 0 ≤ pathCost p
  | [] => le_refl 0
  | [_] => le_refl 0
  | a :: b :: rest => by
    rw [pathCost]
    have h1 := compute_step_weight_ge_one a b
    have h2 := pathCost_nonneg (b :: rest)
    linarith

theorem pathCost_append_singleton : ∀ (p : List Coord) (a x : Coord),
    p.getLast? = some a →
    pathCost (p ++ [x]) = pathCost p + compute_step_weight a x
  | [], a, x => by
    intro h
    cases h
  | [b], a, x => by
    intro h
    have hba : b = a := by simpa using h
    rw [hba]
    show pathCost [a, x] = pathCost [a] + compute_step_weight a x
    show compute_step_weight a x + pathCost [x] =
      pathCost [a] + compute_step_weight a x
    show compute_step_weight a x + 0 = 0 + compute_step_weight a x
    ring
  | b :: c :: rest, a, x => by
    intro h
    have h2 : (c :: rest).getLast? = some a := by
      rwa [List.getLast?_cons_cons] at h
    show pathCost (b :: c :: (rest ++ [x])) =
      pathCost (b :: c :: rest) + compute_step_weight a x
    show compute_step_weight b c + pathCost (c :: (rest ++ [x])) =
      (compute_step_weight b c + pathCost (c :: rest)) +
        compute_step_weight a x
    have hih := pathCost_append_singleton (c :: rest) a x h2
    rw [show (c :: rest) ++ [x] = c :: (rest ++ [x]) from rfl] at hih
    rw [hih]
    ring

theorem pathCost_append_cons : ∀ (pre : List Coord) (z : Coord)
    (suf : List Coord),
    pathCost (pre ++ z :: suf) = pathCost (pre ++ [z]) + pathCost (z :: suf)
  | [], z, suf => by
    show pathCost (z :: suf) = pathCost [z] + pathCost (z :: suf)
    show pathCost (z :: suf) = 0 + pathCost (z :: suf)
    ring
  | [b], z, suf => by
    show pathCost (b :: z :: suf) = pathCost [b, z] + pathCost (z :: suf)
    show compute_step_weight b z + pathCost (z :: suf) =
      (compute_step_weight b z + pathCost [z]) + pathCost (z :: suf)
    show compute_step_weight b z + pathCost (z :: suf) =
      (compute_step_weight b z + 0) + pathCost (z :: suf)
    ring
  | b :: c :: pre, z, suf => by
    show pathCost (b :: c :: (pre ++ z :: suf)) =
      pathCost (b :: c :: (pre ++ [z])) + pathCost (z :: suf)
    show compute_step_weight b c + pathCost (c :: (pre ++ z :: suf)) =
      (compute_step_weight b c + pathCost (c :: (pre ++ [z]))) +
        pathCost (z :: suf)
    have hih := pathCost_append_cons (c :: pre) z suf
    rw [show (c :: pre) ++ z :: suf = c :: (pre ++ z :: suf) from rfl,
      show (c :: pre) ++ [z] = c :: (pre ++ [z]) from rfl] at hih
    rw [hih]
    ring

theorem chain_length_le_keys {m : Links} {p : List Coord} (hnd : p.Nodup)
    (hsub : ∀ x ∈ p, x ∈ m.map Prod.fst) : p.length ≤ m.length := by
  have h := (hnd.subperm (fun x hx => hsub x hx)).length_le
  simpa using h

theorem exists_first_not (pr : Coord → Bool) :
    ∀ p : List Coord, (∃ c ∈ p, pr c = false) →
      ∃ pre z suf, p = pre ++ z :: suf ∧ pr z = false ∧
        ∀ c ∈ pre, pr c = true := by
  intro p
  induction p with
  | nil =>
    rintro ⟨c, hc, -⟩
    cases hc
  | cons a rest ih =>
    rintro ⟨c, hc, hcf⟩
    by_cases ha : pr a = true
    · have hcrest : c ∈ rest := by
        rcases List.mem_cons.mp hc with h1 | h1
        · exfalso
          rw [h1, ha] at hcf
          cases hcf
        · exact h1
      obtain ⟨pre, z, suf, heq, hz, hpre⟩ := ih ⟨c, hcrest, hcf⟩
      refine ⟨a :: pre, z, suf, ?_, hz, ?_⟩
      · rw [List.cons_append, heq]
      · intro c2 hc2
        rcases List.mem_cons.mp hc2 with h1 | h1
        · rw [h1]
          exact ha
        · exact hpre c2 h1
    · refine ⟨[], a, rest, rfl, by simpa using ha, ?_⟩
      intro c2 hc2
      cases hc2

/-- In a tracker whose edges step along adjacency with the recorded cost
descending by exactly the step weight (or more), every traced chain is a
start-rooted walk whose total cost is bounded by the endpoint's recorded
cost. -/
theorem ucs_chain_path {g : NavigationGrid} {tracker : Links}
    {acc : CostMap}
    (hstep : ∀ c par, tracker.lookup c = some (some par) →
      ∃ vc vp, acc.lookup c = some vc ∧ acc.lookup par = some vp ∧
        vp + compute_step_weight par c ≤ vc)
    (hadj : ∀ c par, tracker.lookup c = some (some par) →
      Adjacent g par c ∧ g.is_traversable c = true)
    (hstart : acc.lookup g.start_pos = some 0) :
    ∀ {c : Coord} {ch : List Coord}, Traces tracker g.start_pos c ch →
      PathTo g c ch ∧
        ∀ vc, acc.lookup c = some vc → pathCost ch ≤ vc := by
  intro c ch h
  induction h with
  | base =>
    refine ⟨⟨rfl, rfl, List.chain'_singleton _, ?_⟩, ?_⟩
    · intro x hx
      cases hx
    · intro vc hvc
      rw [hstart] at hvc
      have h0 : (0 : ℚ) = vc := Option.some.inj hvc
      rw [← h0]
      exact le_refl 0
  | step x par p hne hl hp ih =>
    obtain ⟨⟨hh, hlst, hch, htl⟩, hcost⟩ := ih
    obtain ⟨hadj1, htrav1⟩ := hadj x par hl
    obtain ⟨vc, vp, hvc, hvp, hstep1⟩ := hstep x par hl
    constructor
    · refine ⟨?_, by simp, ?_, ?_⟩
      · rcases p with - | ⟨a, p2⟩
        · exact absurd rfl hp.ne_nil
        · simpa using hh
      · refine List.chain'_append.mpr ⟨hch, List.chain'_singleton _, ?_⟩
        intro a ha b hb
        have hapar : a = par := by
          rw [hlst] at ha
          exact (Option.some.inj ha).symm
        have hbx : x = b := by simpa using hb
        rw [hapar, ← hbx]
        exact hadj1
      · intro y hy
        rcases p with - | ⟨a, p2⟩
        · exact absurd rfl hp.ne_nil
        · simp only [List.cons_append, List.tail_cons] at hy
          rcases List.mem_append.mp hy with h1 | h1
          · exact htl y h1
          · have hyx : y = x := by simpa using h1
            rw [hyx]
            exact htrav1
    · intro vx hvx
      rw [hvc] at hvx
      have hvv : vc = vx := Option.some.inj hvx
      rw [pathCost_append_singleton p par x hlst]
      have hple := hcost vp hvp
      linarith

/-- The per-state Dijkstra facts that `ucsScan` preserves: recorded costs
are nonnegative and zero at the start; tracker edges step along adjacency
with cost descent of at least the step weight; every heap entry's rank
bounds its cell's recorded cost from above; every non-finalized keyed
cell has a live heap entry at (or below) its recorded cost; finalized
cells' recorded costs are minimal over all start-rooted walks. -/
structure UcsOptCore (g : NavigationGrid) (st : UcsState) : Prop where
  acc_nonneg : ∀ c v, st.accumulated_costs.lookup c = some v → 0 ≤ v
  start_acc : st.accumulated_costs.lookup g.start_pos = some 0
  parent_cost : ∀ c par, st.path_tracker.lookup c = some (some par) →
    ∃ vc vp, st.accumulated_costs.lookup c = some vc ∧
      st.accumulated_costs.lookup par = some vp ∧
      vp + compute_step_weight par c ≤ vc
  nonstart_parent : ∀ c, (st.accumulated_costs.lookup c).isSome = true →
    c ≠ g.start_pos → ∃ par, st.path_tracker.lookup c = some (some par)
  edge_adj : ∀ c par, st.path_tracker.lookup c = some (some par) →
    Adjacent g par c ∧ g.is_traversable c = true
  key_mem : ∀ c, (st.accumulated_costs.lookup c).isSome = true →
    c ∈ st.path_tracker.map Prod.fst
  perm_key : ∀ c, st.permanent_set.contains c = true →
    (st.accumulated_costs.lookup c).isSome = true
  entry_acc : ∀ e ∈ st.priority_heap._data,
    ∃ v, st.accumulated_costs.lookup e.2.2.coord = some v ∧ v ≤ e.1
  live : ∀ c v, st.accumulated_costs.lookup c = some v →
    st.permanent_set.contains c = false →
    ∃ e ∈ st.priority_heap._data, e.2.2.coord = c ∧ e.1 ≤ v
  perm_opt : ∀ c, st.permanent_set.contains c = true →
    ∀ v, st.accumulated_costs.lookup c = some v →
    ∀ p, PathTo g c p → v ≤ pathCost p

/-- The full UCS optimality invariant: additionally, each finalized
cell's traversable neighbors are keyed within one step weight of it. -/
structure UcsOptInv (g : NavigationGrid) (st : UcsState)
    extends UcsOptCore g st : Prop where
  perm_closure_cost : ∀ y, st.permanent_set.contains y = true →
    ∀ z ∈ fetch_adjacent_nodes y g.rows g.cols,
      g.is_traversable z = true →
      ∃ vy vz, st.accumulated_costs.lookup y = some vy ∧
        st.accumulated_costs.lookup z = some vz ∧
        vz ≤ vy + compute_step_weight y z

/-- Every keyed cell owns a duplicate-free traced chain that is a
start-rooted walk of cost at most its recorded cost. -/
theorem ucsOpt_chain {g : NavigationGrid} {st : UcsState}
    (inv : UcsOptCore g st) {c : Coord} {v : ℚ}
    (hv : st.accumulated_costs.lookup c = some v) :
    ∃ ch, Traces st.path_tracker g.start_pos c ch ∧ ch.Nodup ∧
      PathTo g c ch ∧ pathCost ch ≤ v ∧
      ∀ x ∈ ch, x ∈ st.path_tracker.map Prod.fst := by
  have hstep1 : ∀ c2 par, st.path_tracker.lookup c2 = some (some par) →
      ∃ vc vp, st.accumulated_costs.lookup c2 = some vc ∧
        st.accumulated_costs.lookup par = some vp ∧ vp + 1 ≤ vc := by
    intro c2 par h2
    obtain ⟨vc, vp, h3, h4, h5⟩ := inv.parent_cost c2 par h2
    refine ⟨vc, vp, h3, h4, ?_⟩
    have hw := compute_step_weight_ge_one par c2
    linarith
  obtain ⟨n, hn⟩ := exists_nat_ge v
  obtain ⟨ch, hch, hnd, hb⟩ := tracker_chain_exists st.path_tracker
    st.accumulated_costs g.start_pos hstep1 inv.nonstart_parent
    inv.acc_nonneg n c v hv hn
  obtain ⟨hpath, hcost⟩ := ucs_chain_path inv.parent_cost inv.edge_adj
    inv.start_acc hch
  refine ⟨ch, hch, hnd, hpath, hcost v hv, ?_⟩
  intro x hx
  obtain ⟨vx, hvx, -⟩ := hb x hx
  exact inv.key_mem x (by rw [hvx]; rfl)

theorem PathTo.snoc {g : NavigationGrid} {c z : Coord} {p : List Coord}
    (h : PathTo g c p) (hadj : Adjacent g c z)
    (htrav : g.is_traversable z = true) : PathTo g z (p ++ [z]) := by
  obtain ⟨h1, h2, h3, h4⟩ := h
  have hne : p ≠ [] := by
    intro he
    rw [he] at h1
    cases h1
  refine ⟨?_, by simp, ?_, ?_⟩
  · rcases p with - | ⟨a, p2⟩
    · exact absurd rfl hne
    · simpa using h1
  · refine List.chain'_append.mpr ⟨h3, List.chain'_singleton _, ?_⟩
    intro a ha b hb
    have hac : a = c := by
      rw [h2] at ha
      exact (Option.some.inj ha).symm
    have hbz : z = b := by simpa using hb
    rw [hac, ← hbz]
    exact hadj
  · intro y hy
    rcases p with - | ⟨a, p2⟩
    · exact absurd rfl hne
    · simp only [List.cons_append, List.tail_cons] at hy
      rcases List.mem_append.mp hy with h5 | h5
      · exact h4 y h5
      · have hyz : y = z := by simpa using h5
        rw [hyz]
        exact htrav

/-- Dijkstra's key step: when a non-finalized cell is popped, its
recorded cost is minimal over every start-rooted walk reaching it. -/
theorem ucs_pop_min (g : NavigationGrid) (st : UcsState)
    (inv : UcsOptInv g st) (rank : ℚ) (sq : ℕ) (node : SearchNode)
    (rest : List HeapEntry)
    (hpop : heapPop st.priority_heap._data = some ((rank, sq, node), rest))
    (hnp : st.permanent_set.contains node.coord = false) :
    ∀ v, st.accumulated_costs.lookup node.coord = some v →
    ∀ p, PathTo g node.coord p → v ≤ pathCost p := by
  intro v hv p hp
  obtain ⟨hmem, hmin, hperm, hsub⟩ := heapPop_spec hpop
  obtain ⟨vm, hvm, hvmk⟩ := inv.entry_acc (rank, sq, node) hmem
  have hvmk2 : vm ≤ rank := hvmk
  have hvv : v = vm := by
    rw [hv] at hvm
    exact Option.some.inj hvm
  obtain ⟨hph, hpl, hpc, hpt⟩ := hp
  by_cases hsp : st.permanent_set.contains g.start_pos = true
  · have hpne : p ≠ [] := by
      intro he
      rw [he] at hph
      cases hph
    have hex : ∃ c ∈ p, st.permanent_set.contains c = false := by
      refine ⟨node.coord, ?_, hnp⟩
      rw [List.getLast?_eq_getLast p hpne] at hpl
      have hlmem := List.getLast_mem hpne
      rw [Option.some.inj hpl] at hlmem
      exact hlmem
    obtain ⟨pre, z, suf, hsplit, hzperm, hpreperm⟩ :=
      exists_first_not (fun c => st.permanent_set.contains c) p hex
    rcases pre with - | ⟨y0, pre2⟩
    · exfalso
      rw [hsplit] at hph
      have hz : z = g.start_pos := by simpa using hph
      rw [hz, hsp] at hzperm
      cases hzperm
    · have hy0 : y0 = g.start_pos := by
        rw [hsplit] at hph
        simpa using hph
      have hylast : (y0 :: pre2).getLast? =
          some ((y0 :: pre2).getLast (by simp)) :=
        List.getLast?_eq_getLast _ (by simp)
      have hyperm : st.permanent_set.contains
          ((y0 :: pre2).getLast (by simp)) = true :=
        hpreperm _ (List.getLast_mem (by simp))
      have hadjyz : Adjacent g ((y0 :: pre2).getLast (by simp)) z := by
        rw [hsplit] at hpc
        exact (List.chain'_append.mp hpc).2.2 _ hylast z rfl
      have hztrav : g.is_traversable z = true := by
        refine hpt z ?_
        rw [hsplit]
        simp
      obtain ⟨vy, vz, hvy, hvz, hczle⟩ := inv.perm_closure_cost _ hyperm z
        hadjyz hztrav
      have hpreP : PathTo g ((y0 :: pre2).getLast (by simp))
          (y0 :: pre2) := by
        refine ⟨by simp [hy0], hylast, ?_, ?_⟩
        · rw [hsplit] at hpc
          exact (List.chain'_append.mp hpc).1
        · intro x hx
          refine hpt x ?_
          rw [hsplit]
          simp only [List.cons_append, List.tail_cons]
          exact List.mem_append_left _ (by simpa using hx)
      have hvyopt := inv.perm_opt _ hyperm vy hvy (y0 :: pre2) hpreP
      obtain ⟨ez, hez, hezc, hezk⟩ := inv.live z vz hvz hzperm
      have hez2 := hmin ez hez
      have hrank : rank ≤ ez.1 := by
        by_contra hcon
        push_neg at hcon
        exact hez2 (Or.inl hcon)
      have hsplit_cost : pathCost p =
          pathCost ((y0 :: pre2) ++ [z]) + pathCost (z :: suf) := by
        rw [hsplit]
        exact pathCost_append_cons (y0 :: pre2) z suf
      have happ_cost : pathCost ((y0 :: pre2) ++ [z]) =
          pathCost (y0 :: pre2) +
            compute_step_weight ((y0 :: pre2).getLast (by simp)) z :=
        pathCost_append_singleton (y0 :: pre2) _ z hylast
      have hsufnn := pathCost_nonneg (z :: suf)
      rw [hvv]
      linarith
  · rw [Bool.not_eq_true] at hsp
    obtain ⟨es, hes, hesc, hesk⟩ := inv.live g.start_pos 0 inv.start_acc hsp
    have hez2 := hmin es hes
    have hrank : rank ≤ es.1 := by
      by_contra hcon
      push_neg at hcon
      exact hez2 (Or.inl hcon)
    have hpnn := pathCost_nonneg p
    rw [hvv]
    linarith

theorem ucsScan_opt (g : NavigationGrid) (pos : Coord) (node : SearchNode)
    (posCost : ℚ) (pp : List Coord) (hpp : PathTo g pos pp)
    (hppc : pathCost pp ≤ posCost) :
    ∀ (nbs : List Coord) (st : UcsState),
      st.accumulated_costs.lookup pos = some posCost →
      st.permanent_set.contains pos = true →
      (∀ nb ∈ nbs, nb ≠ pos) →
      (∀ nb ∈ nbs, Adjacent g pos nb) →
      UcsOptCore g st →
      UcsOptCore g (ucsScan g pos node posCost nbs st) ∧
      (ucsScan g pos node posCost nbs st).permanent_set =
        st.permanent_set ∧
      (∀ c, st.permanent_set.contains c = true →
        (ucsScan g pos node posCost nbs st).accumulated_costs.lookup c =
          st.accumulated_costs.lookup c) ∧
      (∀ c v, st.accumulated_costs.lookup c = some v →
        ∃ v2, (ucsScan g pos node posCost
          nbs st).accumulated_costs.lookup c = some v2 ∧ v2 ≤ v) ∧
      (∀ nb ∈ nbs, g.is_traversable nb = true →
        ∃ v2, (ucsScan g pos node posCost
          nbs st).accumulated_costs.lookup nb = some v2 ∧
          v2 ≤ posCost + compute_step_weight pos nb) := by
  intro nbs
  induction nbs with
  | nil =>
    intro st hpc hpermpos hne hadj hc
    exact ⟨hc, rfl, fun c hcp => rfl, fun c v hv => ⟨v, hv, le_rfl⟩,
      fun nb hnb => absurd hnb (List.not_mem_nil nb)⟩
  | cons nb rest ih =>
    intro st hpc hpermpos hne hadj hcore
    have hnbpos : nb ≠ pos := hne nb (List.mem_cons_self _ _)
    have hadjnb : Adjacent g pos nb := hadj nb (List.mem_cons_self _ _)
    have hpc0 : 0 ≤ posCost := hcore.acc_nonneg pos posCost hpc
    rw [ucsScan]
    by_cases htrav : g.is_traversable nb = true
    · rw [if_pos htrav]
      by_cases hrel : (match st.accumulated_costs.lookup nb with
          | none => true
          | some c => ratBlt (ratAdd posCost (compute_step_weight pos nb))
              c) = true
      · rw [if_pos hrel]
        have hw1 : (1 : ℚ) ≤ compute_step_weight pos nb :=
          compute_step_weight_ge_one pos nb
        have hnc : ratAdd posCost (compute_step_weight pos nb) =
            posCost + compute_step_weight pos nb := ratAdd_eq _ _
        have hnbperm : st.permanent_set.contains nb = false := by
          cases hcase : st.permanent_set.contains nb with
          | false => rfl
          | true =>
            exfalso
            have hkey := hcore.perm_key nb hcase
            rcases hrc : st.accumulated_costs.lookup nb with - | cnb
            · rw [hrc] at hkey
              cases hkey
            · simp only [hrc] at hrel
              rw [ratBlt_eq] at hrel
              have hlt := of_decide_eq_true hrel
              have hsnoc := hpp.snoc hadjnb htrav
              have hopt := hcore.perm_opt nb hcase cnb hrc (pp ++ [nb])
                hsnoc
              have hac := pathCost_append_singleton pp pos nb hpp.2.1
              linarith
        have hnbstart : nb ≠ g.start_pos := by
          intro he
          rw [he] at hrel
          simp only [hcore.start_acc] at hrel
          rw [ratBlt_eq] at hrel
          have hlt := of_decide_eq_true hrel
          rw [he] at hnc
          linarith [compute_step_weight_ge_one pos g.start_pos]
        have hcore1 : UcsOptCore g ⟨st.priority_heap.push
            (SearchNode.new nb (some node)
              (ratAdd posCost (compute_step_weight pos nb)))
            (ratAdd posCost (compute_step_weight pos nb)),
            st.permanent_set, (nb, some pos) :: st.path_tracker,
            (nb, ratAdd posCost (compute_step_weight pos nb)) ::
              st.accumulated_costs,
            st.overwrote || (st.path_tracker.lookup nb).isSome,
            ⟨listInsert nb st.vis.front_nodes, st.vis.history,
             st.vis.active_node, st.vis.trajectory⟩, st.frames⟩ := by
          refine ⟨?_, ?_, ?_, ?_, ?_, ?_, ?_, ?_, ?_, ?_⟩
          · intro c v hv
            by_cases hcnb : c = nb
            · rw [hcnb, lookup_cons_self] at hv
              have hvv := Option.some.inj hv
              rw [← hvv, hnc]
              linarith
            · rw [lookup_cons_ne hcnb] at hv
              exact hcore.acc_nonneg c v hv
          · show (((nb, _) :: st.accumulated_costs).lookup g.start_pos) =
              some 0
            rw [lookup_cons_ne (Ne.symm hnbstart)]
            exact hcore.start_acc
          · intro c par hcp
            by_cases hcnb : c = nb
            · rw [hcnb, lookup_cons_self] at hcp
              have hpar : pos = par :=
                Option.some.inj (Option.some.inj hcp)
              refine ⟨ratAdd posCost (compute_step_weight pos nb), posCost,
                by rw [hcnb, lookup_cons_self],
                by rw [← hpar, lookup_cons_ne (Ne.symm hnbpos)]; exact hpc,
                ?_⟩
              rw [← hpar, hcnb, hnc]
            · rw [lookup_cons_ne hcnb] at hcp
              obtain ⟨vc, vp, hvc, hvp, hle⟩ := hcore.parent_cost c par hcp
              by_cases hpnb : par = nb
              · rw [hpnb] at hvp
                rcases hrc : st.accumulated_costs.lookup nb with - | cold
                · rw [hrc] at hvp
                  cases hvp
                · rw [hrc] at hvp
                  have hvpc : cold = vp := Option.some.inj hvp
                  simp only [hrc] at hrel
                  rw [ratBlt_eq] at hrel
                  have hlt := of_decide_eq_true hrel
                  refine ⟨vc, ratAdd posCost (compute_step_weight pos nb),
                    by rw [lookup_cons_ne hcnb]; exact hvc,
                    by rw [hpnb, lookup_cons_self], ?_⟩
                  rw [hpnb]
                  have hw2 := compute_step_weight_ge_one nb c
                  rw [hpnb] at hle
                  linarith
              · exact ⟨vc, vp, by rw [lookup_cons_ne hcnb]; exact hvc,
                  by rw [lookup_cons_ne hpnb]; exact hvp, hle⟩
          · intro c hc hcs
            by_cases hcnb : c = nb
            · exact ⟨pos, by rw [hcnb, lookup_cons_self]⟩
            · rw [lookup_cons_ne hcnb] at hc
              obtain ⟨par, hpar⟩ := hcore.nonstart_parent c hc hcs
              exact ⟨par, by rw [lookup_cons_ne hcnb]; exact hpar⟩
          · intro c par hcp
            by_cases hcnb : c = nb
            · rw [hcnb, lookup_cons_self] at hcp
              have hpar : pos = par :=
                Option.some.inj (Option.some.inj hcp)
              rw [hcnb, ← hpar]
              exact ⟨hadjnb, htrav⟩
            · rw [lookup_cons_ne hcnb] at hcp
              exact hcore.edge_adj c par hcp
          · intro c hc
            by_cases hcnb : c = nb
            · rw [hcnb]
              exact List.mem_cons_self _ _
            · rw [lookup_cons_ne hcnb] at hc
              exact List.mem_cons_of_mem _ (hcore.key_mem c hc)
          · intro c hcp
            by_cases hcnb : c = nb
            · rw [hcnb, lookup_cons_self]
              rfl
            · rw [lookup_cons_ne hcnb]
              exact hcore.perm_key c hcp
          · intro e he
            simp only [PathfindingHeap.push] at he
            rcases List.mem_append.mp he with h1 | h1
            · obtain ⟨v, hv, hvk⟩ := hcore.entry_acc e h1
              by_cases hcnb : e.2.2.coord = nb
              · rw [hcnb] at hv
                rcases hrc : st.accumulated_costs.lookup nb with - | cnb
                · rw [hrc] at hv
                  cases hv
                · rw [hrc] at hv
                  have hvv : cnb = v := Option.some.inj hv
                  simp only [hrc] at hrel
                  rw [ratBlt_eq] at hrel
                  have hlt := of_decide_eq_true hrel
                  refine ⟨ratAdd posCost (compute_step_weight pos nb),
                    by rw [hcnb, lookup_cons_self], ?_⟩
                  linarith
              · exact ⟨v, by rw [lookup_cons_ne hcnb]; exact hv, hvk⟩
            · have he2 : e = (ratAdd posCost (compute_step_weight pos nb),
                  st.priority_heap._insertion_order,
                  SearchNode.new nb (some node)
                    (ratAdd posCost (compute_step_weight pos nb))) := by
                simpa using h1
              rw [he2]
              refine ⟨ratAdd posCost (compute_step_weight pos nb), ?_, ?_⟩
              · rw [show (SearchNode.new nb (some node)
                  (ratAdd posCost (compute_step_weight pos nb))).coord =
                    nb from rfl]
                rw [lookup_cons_self]
              · exact le_rfl
          · intro c v hv hcp
            by_cases hcnb : c = nb
            · refine ⟨(ratAdd posCost (compute_step_weight pos nb),
                st.priority_heap._insertion_order,
                SearchNode.new nb (some node)
                  (ratAdd posCost (compute_step_weight pos nb))), ?_, ?_,
                ?_⟩
              · simp [PathfindingHeap.push]
              · rw [hcnb]
                rfl
              · rw [hcnb, lookup_cons_self] at hv
                have hvv := Option.some.inj hv
                rw [← hvv]
            · rw [lookup_cons_ne hcnb] at hv
              obtain ⟨e, he, hec, hek⟩ := hcore.live c v hv hcp
              refine ⟨e, ?_, hec, hek⟩
              simp only [PathfindingHeap.push]
              exact List.mem_append.mpr (Or.inl he)
          · intro c hcp v hv pc hpc2
            have hcnb : c ≠ nb := by
              intro he
              rw [he, hnbperm] at hcp
              cases hcp
            rw [lookup_cons_ne hcnb] at hv
            exact hcore.perm_opt c hcp v hv pc hpc2
        have hIH := ih ⟨st.priority_heap.push
            (SearchNode.new nb (some node)
              (ratAdd posCost (compute_step_weight pos nb)))
            (ratAdd posCost (compute_step_weight pos nb)),
            st.permanent_set, (nb, some pos) :: st.path_tracker,
            (nb, ratAdd posCost (compute_step_weight pos nb)) ::
              st.accumulated_costs,
            st.overwrote || (st.path_tracker.lookup nb).isSome,
            ⟨listInsert nb st.vis.front_nodes, st.vis.history,
             st.vis.active_node, st.vis.trajectory⟩, st.frames⟩
          (by
            show (((nb, _) :: st.accumulated_costs).lookup pos) =
              some posCost
            rw [lookup_cons_ne (Ne.symm hnbpos)]
            exact hpc)
          hpermpos
          (fun x hx => hne x (List.mem_cons_of_mem _ hx))
          (fun x hx => hadj x (List.mem_cons_of_mem _ hx)) hcore1
        obtain ⟨hC, hP, hPermEq, hDec, hNbB⟩ := hIH
        refine ⟨hC, hP, ?_, ?_, ?_⟩
        · intro c hcp
          have hcnb : c ≠ nb := by
            intro he
            rw [he, hnbperm] at hcp
            cases hcp
          rw [hPermEq c hcp]
          show (((nb, _) :: st.accumulated_costs).lookup c) =
            st.accumulated_costs.lookup c
          rw [lookup_cons_ne hcnb]
        · intro c v hv
          by_cases hcnb : c = nb
          · rcases hrc : st.accumulated_costs.lookup nb with - | cnb
            · rw [hcnb, hrc] at hv
              cases hv
            · rw [hcnb, hrc] at hv
              have hvv : cnb = v := Option.some.inj hv
              simp only [hrc] at hrel
              rw [ratBlt_eq] at hrel
              have hlt := of_decide_eq_true hrel
              obtain ⟨v2, hv2, hv2le⟩ := hDec nb
                (ratAdd posCost (compute_step_weight pos nb))
                (by rw [lookup_cons_self])
              rw [hcnb]
              exact ⟨v2, hv2, by linarith⟩
          · obtain ⟨v2, hv2, hv2le⟩ := hDec c v
              (by rw [lookup_cons_ne hcnb]; exact hv)
            exact ⟨v2, hv2, hv2le⟩
        · intro x hx htx
          rcases List.mem_cons.mp hx with h1 | h1
          · obtain ⟨v2, hv2, hv2le⟩ := hDec nb
              (ratAdd posCost (compute_step_weight pos nb))
              (by rw [lookup_cons_self])
            rw [h1]
            refine ⟨v2, hv2, ?_⟩
            rw [hnc] at hv2le
            exact hv2le
          · exact hNbB x h1 htx
      · rw [if_neg hrel]
        have hkey : ∃ cnb, st.accumulated_costs.lookup nb = some cnb ∧
            posCost + compute_step_weight pos nb ≥ cnb := by
          rcases hrc : st.accumulated_costs.lookup nb with - | cnb
          · rw [hrc] at hrel
            exact absurd rfl hrel
          · refine ⟨cnb, rfl, ?_⟩
            simp only [hrc] at hrel
            rw [Bool.not_eq_true] at hrel
            rw [ratBlt_eq] at hrel
            have hnlt : ¬(ratAdd posCost (compute_step_weight pos nb) <
                cnb) := of_decide_eq_false hrel
            have hnc2 : ratAdd posCost (compute_step_weight pos nb) =
                posCost + compute_step_weight pos nb := ratAdd_eq _ _
            rw [hnc2] at hnlt
            exact not_lt.mp hnlt
        have hIH := ih st hpc hpermpos
          (fun x hx => hne x (List.mem_cons_of_mem _ hx))
          (fun x hx => hadj x (List.mem_cons_of_mem _ hx)) hcore
        obtain ⟨hC, hP, hPermEq, hDec, hNbB⟩ := hIH
        refine ⟨hC, hP, hPermEq, hDec, ?_⟩
        intro x hx htx
        rcases List.mem_cons.mp hx with h1 | h1
        · obtain ⟨cnb, hrc, hub⟩ := hkey
          obtain ⟨v2, hv2, hv2le⟩ := hDec nb cnb hrc
          rw [h1]
          exact ⟨v2, hv2, by linarith⟩
        · exact hNbB x h1 htx
    · rw [if_neg htrav]
      have hIH := ih st hpc hpermpos
        (fun x hx => hne x (List.mem_cons_of_mem _ hx))
        (fun x hx => hadj x (List.mem_cons_of_mem _ hx)) hcore
      obtain ⟨hC, hP, hPermEq, hDec, hNbB⟩ := hIH
      refine ⟨hC, hP, hPermEq, hDec, ?_⟩
      intro x hx htx
      rcases List.mem_cons.mp hx with h1 | h1
      · rw [h1] at htx
        exact absurd htx htrav
      · exact hNbB x h1 htx

theorem ucsLoop_optimal (g : NavigationGrid) (l : ℚ) :
    ∀ (fuel : ℕ) (st : UcsState), UcsOptInv g st →
      ∀ route st2, ucsLoop g l fuel st = some (some route, st2) →
        ∀ p, PathTo g g.goal_pos p → pathCost route ≤ pathCost p := by
  intro fuel
  induction fuel with
  | zero => intro st inv route st2 h; cases h
  | succ fuel ih =>
    intro st inv route st2 h p hp
    rcases hhp : heapPop st.priority_heap._data with - | ⟨m, rest⟩
    · have hpe : st.priority_heap.popEntry = none := by
        rw [PathfindingHeap.popEntry, hhp]
        rfl
      simp only [ucsLoop, hpe] at h
      simp at h
    · obtain ⟨rank, sq, node⟩ := m
      obtain ⟨hmem, hmin, hperm, hsub⟩ := heapPop_spec hhp
      have hpe : st.priority_heap.popEntry = some ((rank, sq, node),
          ⟨rest, st.priority_heap._insertion_order⟩) := by
        rw [PathfindingHeap.popEntry, hhp]
        rfl
      simp only [ucsLoop, hpe] at h
      by_cases hperm2 : st.permanent_set.contains node.coord = true
      · rw [if_pos hperm2] at h
        refine ih _ ?_ route st2 h p hp
        refine ⟨⟨inv.acc_nonneg, inv.start_acc, inv.parent_cost,
          inv.nonstart_parent, inv.edge_adj, inv.key_mem, inv.perm_key,
          ?_, ?_, inv.perm_opt⟩, inv.perm_closure_cost⟩
        · intro e he
          exact inv.entry_acc e (hsub.subset he)
        · intro c v hv hcp
          obtain ⟨e, he, hec, hek⟩ := inv.live c v hv hcp
          have hem : e ≠ (rank, sq, node) := by
            intro hee
            rw [hee] at hec
            rw [← hec, hperm2] at hcp
            cases hcp
          exact ⟨e, mem_rest_of_perm hperm he hem, hec, hek⟩
      · rw [if_neg hperm2] at h
        have hnp : st.permanent_set.contains node.coord = false := by
          rw [Bool.not_eq_true] at hperm2
          exact hperm2
        by_cases hgoal : node.coord = g.goal_pos
        · rw [if_pos hgoal] at h
          obtain ⟨vm, hvm, hvmk⟩ := inv.entry_acc (rank, sq, node) hmem
          obtain ⟨ch, hch, hnd, hchPath, hchCost, hchKeys⟩ :=
            ucsOpt_chain inv.toUcsOptCore hvm
          have hlen : ch.length ≤ st.path_tracker.length :=
            chain_length_le_keys hnd hchKeys
          rw [hgoal] at hch
          have htrace := trace_back_path_of_traces hch
            (st.path_tracker.length + 1) (by omega)
          rw [htrace] at h
          simp only [Option.some.injEq, Prod.mk.injEq] at h
          obtain ⟨hroute, -⟩ := h
          have hmn := ucs_pop_min g st inv rank sq node rest hhp hnp vm hvm
            p (by rw [hgoal]; exact hp)
          rw [← hroute]
          linarith
        · rw [if_neg hgoal] at h
          rcases hvv : st.accumulated_costs.lookup node.coord with - | posCost
          · simp only [hvv] at h
            cases h
          · simp only [hvv] at h
            have hcore0 : UcsOptCore g ⟨⟨rest,
                st.priority_heap._insertion_order⟩,
                listInsert node.coord st.permanent_set, st.path_tracker,
                st.accumulated_costs, st.overwrote,
                ⟨if st.vis.front_nodes.contains node.coord then
                   st.vis.front_nodes.erase node.coord
                 else st.vis.front_nodes,
                 listInsert node.coord st.vis.history, some node.coord,
                 st.vis.trajectory⟩,
                refresh_view l "UCS Algorithm" ""
                  ⟨if st.vis.front_nodes.contains node.coord then
                     st.vis.front_nodes.erase node.coord
                   else st.vis.front_nodes,
                   listInsert node.coord st.vis.history, some node.coord,
                   st.vis.trajectory⟩ st.frames⟩ := by
              refine ⟨inv.acc_nonneg, inv.start_acc, inv.parent_cost,
                inv.nonstart_parent, inv.edge_adj, inv.key_mem, ?_, ?_, ?_,
                ?_⟩
              · intro c hcp
                rcases contains_listInsert_cases hcp with hold | hceq
                · exact inv.perm_key c hold
                · rw [hceq, hvv]
                  rfl
              · intro e he
                exact inv.entry_acc e (hsub.subset he)
              · intro c v hv hcp
                have hcpold : st.permanent_set.contains c = false := by
                  cases hx : st.permanent_set.contains c with
                  | false => rfl
                  | true =>
                    rw [contains_listInsert_mono hx node.coord] at hcp
                    cases hcp
                have hcne : c ≠ node.coord := by
                  intro he
                  rw [he, contains_listInsert_self] at hcp
                  cases hcp
                obtain ⟨e, he, hec, hek⟩ := inv.live c v hv hcpold
                have hem : e ≠ (rank, sq, node) := by
                  intro hee
                  rw [hee] at hec
                  exact hcne hec.symm
                exact ⟨e, mem_rest_of_perm hperm he hem, hec, hek⟩
              · intro c hcp v hv p2 hp2
                rcases contains_listInsert_cases hcp with hold | hceq
                · exact inv.perm_opt c hold v hv p2 hp2
                · rw [hceq] at hv hp2
                  exact ucs_pop_min g st inv rank sq node rest hhp hnp v hv
                    p2 hp2
            obtain ⟨pp0, -, -, ppPath, ppCost, -⟩ :=
              ucsOpt_chain inv.toUcsOptCore hvv
            have hscan := ucsScan_opt g node.coord node posCost pp0 ppPath
              ppCost (fetch_adjacent_nodes node.coord g.rows g.cols)
              ⟨⟨rest, st.priority_heap._insertion_order⟩,
               listInsert node.coord st.permanent_set, st.path_tracker,
               st.accumulated_costs, st.overwrote,
               ⟨if st.vis.front_nodes.contains node.coord then
                  st.vis.front_nodes.erase node.coord
                else st.vis.front_nodes,
                listInsert node.coord st.vis.history, some node.coord,
                st.vis.trajectory⟩,
               refresh_view l "UCS Algorithm" ""
                 ⟨if st.vis.front_nodes.contains node.coord then
                    st.vis.front_nodes.erase node.coord
                  else st.vis.front_nodes,
                  listInsert node.coord st.vis.history, some node.coord,
                  st.vis.trajectory⟩ st.frames⟩
              hvv (contains_listInsert_self _ _)
              (fetch_adjacent_ne_self node.coord g.rows g.cols)
              (fun nb hnb => hnb) hcore0
            obtain ⟨hC, hP, hPermEq, hDec, hNbB⟩ := hscan
            refine ih _ ⟨hC, ?_⟩ route st2 h p hp
            intro y hyp z hz hztrav
            rw [hP] at hyp
            have hyp2 : (listInsert node.coord
                st.permanent_set).contains y = true := hyp
            rcases contains_listInsert_cases hyp2 with hold | hyeq
            · obtain ⟨vy, vz, hvy, hvz, hb⟩ := inv.perm_closure_cost y hold
                z hz hztrav
              obtain ⟨vz2, hvz2, hvz2le⟩ := hDec z vz hvz
              refine ⟨vy, vz2, ?_, hvz2, by linarith⟩
              rw [hPermEq y (contains_listInsert_mono hold node.coord)]
              exact hvy
            · obtain ⟨vz2, hvz2, hvz2le⟩ := hNbB z (by rw [← hyeq]; exact hz)
                hztrav
              refine ⟨posCost, vz2, ?_, hvz2, ?_⟩
              · rw [hPermEq y (by rw [hyeq]; exact
                  contains_listInsert_self _ _)]
                rw [hyeq]
                exact hvv
              · rw [hyeq]
                exact hvz2le

theorem run_ucs_optimal (g : NavigationGrid) (l : ℚ) (route : List Coord)
    (hrun : pathOf (run_ucs g l) = some (some route)) :
    ∀ p, PathTo g g.goal_pos p → pathCost route ≤ pathCost p := by
  have hkeyone : ∀ (c : Coord) (v : ℚ),
      (([(g.start_pos, (0 : ℚ))] : CostMap).lookup c) = some v →
      c = g.start_pos ∧ v = 0 := by
    intro c v hc
    by_cases hcs : c = g.start_pos
    · rw [hcs, lookup_cons_self] at hc
      exact ⟨hcs, (Option.some.inj hc).symm⟩
    · rw [lookup_cons_ne hcs] at hc
      cases hc
  have hinit : UcsOptInv g (ucsInit g) := by
    refine ⟨⟨?_, ?_, ?_, ?_, ?_, ?_, ?_, ?_, ?_, ?_⟩, ?_⟩
    · intro c v hv
      obtain ⟨-, hv0⟩ := hkeyone c v hv
      rw [hv0]
    · show (([(g.start_pos, (0 : ℚ))] : CostMap).lookup g.start_pos) =
        some 0
      rw [lookup_cons_self]
    · intro c par hcp
      by_cases hcs : c = g.start_pos
      · rw [hcs] at hcp
        have : (([(g.start_pos, (none : Option Coord))] :
            Links).lookup g.start_pos) = some (some par) := hcp
        rw [lookup_cons_self] at this
        cases Option.some.inj this
      · have : (([(g.start_pos, (none : Option Coord))] :
            Links).lookup c) = some (some par) := hcp
        rw [lookup_cons_ne hcs] at this
        cases this
    · intro c hc hcs
      exfalso
      rcases hval : (([(g.start_pos, (0 : ℚ))] : CostMap).lookup c)
        with - | v
      · have hc2 : (([(g.start_pos, (0 : ℚ))] : CostMap).lookup c).isSome =
            true := hc
        rw [hval] at hc2
        cases hc2
      · obtain ⟨hceq, -⟩ := hkeyone c v hval
        exact hcs hceq
    · intro c par hcp
      exfalso
      by_cases hcs : c = g.start_pos
      · rw [hcs] at hcp
        have : (([(g.start_pos, (none : Option Coord))] :
            Links).lookup g.start_pos) = some (some par) := hcp
        rw [lookup_cons_self] at this
        cases Option.some.inj this
      · have : (([(g.start_pos, (none : Option Coord))] :
            Links).lookup c) = some (some par) := hcp
        rw [lookup_cons_ne hcs] at this
        cases this
    · intro c hc
      rcases hval : (([(g.start_pos, (0 : ℚ))] : CostMap).lookup c)
        with - | v
      · have hc2 : (([(g.start_pos, (0 : ℚ))] : CostMap).lookup c).isSome =
            true := hc
        rw [hval] at hc2
        cases hc2
      · obtain ⟨hceq, -⟩ := hkeyone c v hval
        rw [hceq]
        show g.start_pos ∈ [(g.start_pos, (none : Option Coord))].map
          Prod.fst
        simp
    · intro c hc
      exfalso
      have : (([] : List Coord).contains c) = true := hc
      cases this
    · intro e he
      have he2 : e = ((0 : ℚ), 0, SearchNode.new g.start_pos none 0) := by
        simpa [ucsInit, PathfindingHeap.push] using he
      rw [he2]
      refine ⟨0, ?_, le_rfl⟩
      show (([(g.start_pos, (0 : ℚ))] : CostMap).lookup g.start_pos) =
        some 0
      rw [lookup_cons_self]
    · intro c v hv hcp
      obtain ⟨hceq, hv0⟩ := hkeyone c v hv
      refine ⟨((0 : ℚ), 0, SearchNode.new g.start_pos none 0), ?_, ?_, ?_⟩
      · simp [ucsInit, PathfindingHeap.push]
      · rw [hceq]
        rfl
      · rw [hv0]
    · intro c hcp
      exfalso
      have : (([] : List Coord).contains c) = true := hcp
      cases this
    · intro y hyp
      exfalso
      have : (([] : List Coord).contains y) = true := hyp
      cases this
  rcases hloop : ucsLoop g l (ucsFuel g) (ucsInit g) with - | ⟨res, stF⟩
  · rw [run_ucs, pathOf, hloop] at hrun
    cases hrun
  · rw [run_ucs, pathOf, hloop] at hrun
    rcases res with - | r
    · simp at hrun
    · have hr : r = route := by simpa using hrun
      rw [hr] at hloop
      exact ucsLoop_optimal g l (ucsFuel g) (ucsInit g) hinit route stF
        hloop

/-- C3: on every grid, a path returned by `run_bfs` has minimal length
(in cells, hence in steps) among all traversable start-to-goal paths, and
a path returned by `run_ucs` has minimal total cost under the step-weight
model assigning 1.414 to diagonal and 1.0 to orthogonal moves. -/
theorem searches_optimal (g : NavigationGrid) (l : ℚ) :
    (∀ route, pathOf (run_bfs g l) = some (some route) →
      ∀ p, ValidPath g p → route.length ≤ p.length) ∧
    (∀ route, pathOf (run_ucs g l) = some (some route) →
      ∀ p, ValidPath g p → pathCost route ≤ pathCost p) :=
  ⟨fun route hr p hp =>
    run_bfs_optimal g l route hr p (PathTo_of_validPath hp),
   fun route hr p hp =>
    run_ucs_optimal g l route hr p (PathTo_of_validPath hp)⟩

theorem searches_optimal_witness :
    pathOf (run_bfs gScenario 0) =
      some (some [((4 : ℤ), (4 : ℤ)), ((3 : ℤ), (4 : ℤ))]) ∧
    ValidPath gScenario [((4 : ℤ), (4 : ℤ)), ((3 : ℤ), (4 : ℤ))] ∧
    ([((4 : ℤ), (4 : ℤ)), ((3 : ℤ), (4 : ℤ))] : List Coord).length ≤
      ([((4 : ℤ), (4 : ℤ)), ((3 : ℤ), (4 : ℤ))] : List Coord).length := by
  have hbfs : pathOf (run_bfs gScenario 0) =
      some (some [((4 : ℤ), (4 : ℤ)), ((3 : ℤ), (4 : ℤ))]) := by decide
  have hvp : ValidPath gScenario
      [((4 : ℤ), (4 : ℤ)), ((3 : ℤ), (4 : ℤ))] := by
    refine ⟨by decide, by decide, by decide, by decide, ?_⟩
    rw [List.chain'_pair]
    decide
  exact ⟨hbfs, hvp, (searches_optimal gScenario 0).1 _ hbfs _ hvp⟩
